import Mathlib

/-!
# ADTsv2 : a verification development for the generic collections library

Shallow embeddings of the C sources of the library, one namespace per source
file, followed by the lemmas and the results proved about them:

* `Iterator` : iterator.c, `TSIterator` : tsiterator.c, `Pthread` : the mutex
* `BQueue` : bqueue.c, `TSBQueue` : tsbqueue.c
* `LinkedList` : linkedlist.c, `UQueue` : uqueue.c
* `HashMap` : hashmap.c, `Stack` : stack.c, `ArrayList` : arraylist.c
* `OrderedSet` : orderedset.c and tsorderedset.c

Common conventions: `NULL` is `none` or a `null` constructor; a function whose
C text can dereference `NULL`, index outside an array or divide by zero
returns an `Option` and `none` stands for that undefined behaviour; output
parameters are returned next to the return value; `int` and `long` are `Int`.
-/

/-! # The generic iterator (iterator.c) -/

namespace Iterator

/-- The struct it_data: cursor, size and the array of elements it owns. -/
structure ItData (β : Type) where
  next : Int
  size : Int
  elements : List β
deriving DecidableEq

variable {β : Type}

/-- Iterator_create (iterator.c 71-88): NULL when an allocation fails. -/
def Iterator_create (size : Int) (elements : List β) (mallocOk : Bool) : Option (ItData β) :=
  if mallocOk then some { next := 0, size := size, elements := elements } else none

/-- it_hasNext (iterator.c 47-50). -/
def it_hasNext (itd : ItData β) : Int :=
  if itd.next < itd.size then 1 else 0

/-- it_next (iterator.c 52-60): return value, the value written to *element
(none when nothing is written) and the new state; the result is `none` when
`elements[next]` lies outside the array. -/
def it_next (itd : ItData β) : Option (Int × Option β × ItData β) :=
  if itd.next < itd.size then
    if 0 ≤ itd.next then
      match itd.elements[itd.next.toNat]? with
      | some v => some (1, some v, { next := itd.next + 1, size := itd.size,
                                     elements := itd.elements })
      | none => none
    else none
  else some (0, none, itd)

/-- The call `next` repeated `n` times: return value and yielded value of
each call, and the final state. -/
def nextN : Nat → ItData β → Option (List (Int × Option β) × ItData β)
  | 0, itd => some ([], itd)
  | n + 1, itd => do
    let res ← it_next itd
    let rest ← nextN n res.2.2
    some ((res.1, res.2.1) :: rest.1, rest.2)

/-- The loop `while (it->hasNext(it)) { it->next(it, &sp); ... }` of
ittest.c 13-16, at most `fuel` tests of the loop condition: the values
yielded and the final state; `none` when the bound is reached. -/
def visitLoop : Nat → ItData β → Option (List (Option β) × ItData β)
  | 0, _ => none
  | fuel + 1, itd =>
    if it_hasNext itd ≠ 0 then do
      let res ← it_next itd
      let rest ← visitLoop fuel res.2.2
      some (res.2.1 :: rest.1, rest.2)
    else some ([], itd)

end Iterator

/-! # The bounded queue (bqueue.c), a circular buffer

`buffer` is the array of `size` element pointers, a NULL slot being `none`.
The fields `in` and `out` are C ints and `count`, `size` C longs, all modelled
by `Int`: they stay within 0..10240. A function returns `none` when it reads
or writes outside the array or divides by zero. -/

namespace BQueue

/-- DEFAULT_CAPACITY (bqueue.h 44). -/
def DEFAULT_CAPACITY : Int := 25

/-- MAX_CAPACITY (bqueue.h 45). -/
def MAX_CAPACITY : Int := 10240

/-- The struct bq_data; `inIdx` is the field `in`. -/
structure BqData (α : Type) where
  count : Int
  size : Int
  inIdx : Int
  out : Int
  buffer : List (Option α)
deriving DecidableEq

variable {α : Type}

/-- BQueue_create (bqueue.c 167-205), allocations succeeding. -/
def BQueue_create (capacity : Int) : BqData α :=
  let cap : Int :=
    if capacity ≤ 0 then DEFAULT_CAPACITY
    else if capacity > MAX_CAPACITY then MAX_CAPACITY
    else capacity
  { count := 0, size := cap, inIdx := 0, out := 0, buffer := List.replicate cap.toNat none }

/-- bq_add (bqueue.c 76-87): return value and new state. -/
def bq_add (bqd : BqData α) (element : α) : Option (Int × BqData α) :=
  if bqd.count = bqd.size then some (0, bqd)
  else
    let i := bqd.inIdx
    if 0 ≤ i ∧ i < bqd.buffer.length ∧ bqd.size ≠ 0 then
      some (1, { count := bqd.count + 1, size := bqd.size, inIdx := (i + 1) % bqd.size,
                 out := bqd.out, buffer := bqd.buffer.set i.toNat (some element) })
    else none

/-- retrieve (bqueue.c 89-101): return value, the pointer written to *element
(outer `none` when nothing is written) and the new state. -/
def retrieve (bqd : BqData α) (ifRemove : Bool) :
    Option (Int × Option (Option α) × BqData α) :=
  if bqd.count ≤ 0 then some (0, none, bqd)
  else
    let i := bqd.out
    if 0 ≤ i then do
      let v ← bqd.buffer[i.toNat]?
      if ifRemove then
        if bqd.size ≠ 0 then
          some (1, some v, { count := bqd.count - 1, size := bqd.size, inIdx := bqd.inIdx,
                             out := (i + 1) % bqd.size, buffer := bqd.buffer })
        else none
      else some (1, some v, bqd)
    else none

/-- bq_peek (bqueue.c 103-106). -/
def bq_peek (bqd : BqData α) : Option (Int × Option (Option α) × BqData α) :=
  retrieve bqd false

/-- bq_remove (bqueue.c 108-111). -/
def bq_remove (bqd : BqData α) : Option (Int × Option (Option α) × BqData α) :=
  retrieve bqd true

/-- bq_size (bqueue.c 113-116). -/
def bq_size (bqd : BqData α) : Int := bqd.count

/-- bq_isEmpty (bqueue.c 118-121). -/
def bq_isEmpty (bqd : BqData α) : Int := if bqd.count = 0 then 1 else 0

/-- The loop `for (i = ..; n > 0; i = (i + 1) % size, n--)` shared by purge
and toArray (bqueue.c 50-51, 132-134): the slots it visits, in order,
starting at index `i` with `n` iterations left. -/
def walk (bqd : BqData α) : Nat → Int → Option (List (Option α))
  | 0, _ => some []
  | n + 1, i =>
    if 0 ≤ i ∧ bqd.size ≠ 0 then do
      let v ← bqd.buffer[i.toNat]?
      let rest ← walk bqd n ((i + 1) % bqd.size)
      some (v :: rest)
    else none

/-- purge (bqueue.c 47-54): the pointers the destructor is called on. -/
def purge (bqd : BqData α) (freeFxn : Bool) : Option (List (Option α)) :=
  if freeFxn then walk bqd bqd.count.toNat bqd.out else some []

/-- bq_clear (bqueue.c 64-74): new state and destructor log. -/
def bq_clear (bqd : BqData α) (freeFxn : Bool) : Option (BqData α × List (Option α)) := do
  let log ← purge bqd freeFxn
  if bqd.size ≤ bqd.buffer.length then
    some ({ count := 0, size := bqd.size, inIdx := 0, out := 0,
            buffer := List.replicate bqd.size.toNat none ++ bqd.buffer.drop bqd.size.toNat },
          log)
  else none

/-- toArray (bqueue.c 123-138): the new array, NULL (inner `none`) when the
queue holds nothing or malloc fails. -/
def toArray (bqd : BqData α) (mallocOk : Bool) : Option (Option (List (Option α))) :=
  if bqd.count > 0 then
    if mallocOk then (walk bqd bqd.count.toNat bqd.out).map some
    else some none
  else some none

/-- bq_toArray (bqueue.c 140-147): the array and the value written to *len. -/
def bq_toArray (bqd : BqData α) (mallocOk : Bool) :
    Option (Option (List (Option α)) × Option Int) := do
  let tmp ← toArray bqd mallocOk
  match tmp with
  | none => some (none, none)
  | some a => some (some a, some bqd.count)

/-- A call on the queue: non-blocking add or remove. -/
inductive QOp (α : Type) where
  | add (element : α) : QOp α
  | remove : QOp α

/-- Runs the calls in order. The result is the final state, the elements of
the adds that returned 1 and the pointers yielded by the removes that
returned 1, each in call order. -/
def bqRun : List (QOp α) → BqData α → Option (BqData α × List α × List (Option α))
  | [], q => some (q, [], [])
  | .add e :: ops, q => do
    let res ← bq_add q e
    let rest ← bqRun ops res.2
    some (rest.1, (if res.1 = 1 then e :: rest.2.1 else rest.2.1), rest.2.2)
  | .remove :: ops, q => do
    let res ← bq_remove q
    let rest ← bqRun ops res.2.2
    some (rest.1, rest.2.1,
      match res.2.1 with
      | some v => v :: rest.2.2
      | none => rest.2.2)

/-- Consecutive adds of the given elements: the return values and the final
state. -/
def addAll : List α → BqData α → Option (List Int × BqData α)
  | [], q => some ([], q)
  | e :: es, q => do
    let res ← bq_add q e
    let rest ← addAll es res.2
    some (res.1 :: rest.1, rest.2)

/-- Index `i` of 0..2n-1 folded back into 0..n-1. -/
def wrapIdx (n i : Int) : Int := if i < n then i else i - n

/-- The queue state `q` holds the FIFO list `xs`: the fields are in range,
`count` is the length of `xs`, `in` is `count` slots after `out`, and the
`k`-th slot from `out`, wrapping around, holds the `k`-th element of `xs`. -/
def BqRep (q : BqData α) (xs : List α) : Prop :=
  0 < q.size ∧ (q.buffer.length : Int) = q.size ∧ 0 ≤ q.out ∧ q.out < q.size ∧
  q.count = xs.length ∧ q.count ≤ q.size ∧ q.inIdx = wrapIdx q.size (q.out + q.count) ∧
  ∀ k : Nat, k < xs.length →
    q.buffer[(wrapIdx q.size (q.out + k)).toNat]? = some xs[k]?

/-- The queue of capacity 2 after add A, add B. -/
def queueAB : BqData String :=
  { count := 2, size := 2, inIdx := 0, out := 0, buffer := [some "A", some "B"] }

end BQueue

/-! # The mutex of the thread-safe wrappers and the lock-handoff iterator (tsiterator.c)

The mutex is seen from the calling thread, at a moment when no other thread
holds it: what is recorded is its kind and how many times the caller holds
it. A call that would never return is `none`. -/

namespace Pthread

/-- A pthread mutex: whether it was initialised with the attribute
PTHREAD_MUTEX_RECURSIVE, and the number of holds of the calling thread. -/
structure Mutex where
  recursive : Bool
  holds : Nat
deriving DecidableEq

/-- The mutex made by pthread_mutex_init with an attribute whose type was set
to PTHREAD_MUTEX_RECURSIVE (tsorderedset.c 257-261, tsbqueue.c 203-214). -/
def recursiveMutex : Mutex := { recursive := true, holds := 0 }

/-- The call pthread_mutex_lock: one more hold; on a mutex that is not
recursive and that the caller holds already the call does not return. -/
def pthread_mutex_lock (m : Mutex) : Option Mutex :=
  if m.recursive = true ∨ m.holds = 0 then
    some { recursive := m.recursive, holds := m.holds + 1 }
  else none

/-- The call pthread_mutex_unlock: one hold less; on a mutex the caller does
not hold the call fails and changes nothing. -/
def pthread_mutex_unlock (m : Mutex) : Mutex :=
  { recursive := m.recursive, holds := m.holds - 1 }

end Pthread

namespace TSIterator

open Pthread

/-- The struct tsit_data without its field `lock`, a pointer to the mutex of
the wrapper: that mutex is passed to each function and returned by it. -/
structure TSItData (β : Type) where
  next : Int
  size : Int
  elements : List β
deriving DecidableEq

variable {β : Type}

/-- TSIterator_create (tsiterator.c 77-97): NULL when an allocation fails. -/
def TSIterator_create (size : Int) (elements : List β) (mallocOk : Bool) :
    Option (TSItData β) :=
  if mallocOk then some { next := 0, size := size, elements := elements } else none

/-- tsit_hasNext (tsiterator.c 47-51): return value and the mutex. -/
def tsit_hasNext (itd : TSItData β) (lock : Mutex) : Int × Mutex :=
  (if itd.next < itd.size then 1 else 0, lock)

/-- tsit_next (tsiterator.c 53-62): return value, the value written to
*element, the new state and the mutex; `none` when `elements[next]` lies
outside the array. -/
def tsit_next (itd : TSItData β) (lock : Mutex) :
    Option (Int × Option β × TSItData β × Mutex) :=
  if itd.next < itd.size then
    if 0 ≤ itd.next then
      match itd.elements[itd.next.toNat]? with
      | some v => some (1, some v, { next := itd.next + 1, size := itd.size,
                                     elements := itd.elements }, lock)
      | none => none
    else none
  else some (0, none, itd, lock)

/-- tsit_destroy (tsiterator.c 64-71): the array and the iterator are freed;
what is left is the mutex, unlocked once. -/
def tsit_destroy (_itd : TSItData β) (lock : Mutex) : Mutex :=
  pthread_mutex_unlock lock

/-- One call on the iterator before it is destroyed. -/
inductive ItOp where
  | hasNext : ItOp
  | next : ItOp
deriving DecidableEq

/-- A sequence of hasNext and next calls: the final iterator and mutex. -/
def tsitRun : List ItOp → TSItData β → Mutex → Option (TSItData β × Mutex)
  | [], itd, lock => some (itd, lock)
  | .hasNext :: ops, itd, lock => tsitRun ops itd (tsit_hasNext itd lock).2
  | .next :: ops, itd, lock => do
    let res ← tsit_next itd lock
    tsitRun ops res.2.2.1 res.2.2.2

/-- The call `next` repeated `n` times on the thread-safe iterator. -/
def tsNextN : Nat → TSItData β → Mutex → Option (List (Int × Option β) × TSItData β × Mutex)
  | 0, itd, lock => some ([], itd, lock)
  | n + 1, itd, lock => do
    let res ← tsit_next itd lock
    let rest ← tsNextN n res.2.2.1 res.2.2.2
    some ((res.1, res.2.1) :: rest.1, rest.2)

/-- The loop `while (it->hasNext(it)) { it->next(it, &x); ... }` on the
thread-safe iterator, at most `fuel` tests of the loop condition: the values
yielded, the final state and the mutex; `none` when the bound is reached. -/
def tsVisitLoop : Nat → TSItData β → Mutex → Option (List (Option β) × TSItData β × Mutex)
  | 0, _, _ => none
  | fuel + 1, itd, lock =>
    if (tsit_hasNext itd lock).1 ≠ 0 then do
      let res ← tsit_next itd (tsit_hasNext itd lock).2
      let rest ← tsVisitLoop fuel res.2.2.1 res.2.2.2
      some (res.2.1 :: rest.1, rest.2)
    else some ([], itd, (tsit_hasNext itd lock).2)

end TSIterator

/-! # The thread-safe bounded queue (tsbqueue.c)

The mutex and the condition variable are not part of the state; each call
returns the trace of the pthread calls it makes. A call that would wait on
the condition variable returns `none`: it does not return until another
thread has changed the queue. -/

namespace TSBQueue

open BQueue

/-- The pthread calls of a wrapper function. -/
inductive SyncEv where
  | lock : SyncEv
  | unlock : SyncEv
  | signal : SyncEv
deriving DecidableEq

/-- The struct tsbq_data without the lock and the condition variable. -/
structure TSBqData (α : Type) where
  cap : Int
  bq : BqData α
deriving DecidableEq

variable {α : Type}

/-- TSBQueue_create (tsbqueue.c 194-229), allocations succeeding. -/
def TSBQueue_create (capacity : Int) : TSBqData α :=
  let cap : Int :=
    if capacity ≤ 0 then DEFAULT_CAPACITY
    else if capacity > MAX_CAPACITY then MAX_CAPACITY
    else capacity
  { cap := cap, bq := BQueue_create capacity }

/-- tsbq_add (tsbqueue.c 83-93). -/
def tsbq_add (d : TSBqData α) (element : α) : Option (Int × TSBqData α × List SyncEv) := do
  let res ← bq_add d.bq element
  some (res.1, { cap := d.cap, bq := res.2 },
    if res.1 ≠ 0 then [.lock, .signal, .unlock] else [.lock, .unlock])

/-- tsbq_put (tsbqueue.c 95-104), for a call whose wait loop exits at once. -/
def tsbq_put (d : TSBqData α) (element : α) : Option (TSBqData α × List SyncEv) :=
  if bq_size d.bq = d.cap then none
  else do
    let res ← bq_add d.bq element
    some ({ cap := d.cap, bq := res.2 }, [.lock, .signal, .unlock])

/-- tsbq_peek (tsbqueue.c 106-114). -/
def tsbq_peek (d : TSBqData α) :
    Option (Int × Option (Option α) × TSBqData α × List SyncEv) := do
  let res ← bq_peek d.bq
  some (res.1, res.2.1, { cap := d.cap, bq := res.2.2 }, [.lock, .unlock])

/-- tsbq_remove (tsbqueue.c 116-126). -/
def tsbq_remove (d : TSBqData α) :
    Option (Int × Option (Option α) × TSBqData α × List SyncEv) := do
  let res ← bq_remove d.bq
  some (res.1, res.2.1, { cap := d.cap, bq := res.2.2 },
    if res.1 ≠ 0 then [.lock, .signal, .unlock] else [.lock, .unlock])

/-- tsbq_take (tsbqueue.c 128-137), for a call whose wait loop exits at once. -/
def tsbq_take (d : TSBqData α) : Option (Option (Option α) × TSBqData α × List SyncEv) :=
  if bq_size d.bq = 0 then none
  else do
    let res ← bq_remove d.bq
    some (res.2.1, { cap := d.cap, bq := res.2.2 }, [.lock, .signal, .unlock])

/-- tsbq_clear (tsbqueue.c 63-69). -/
def tsbq_clear (d : TSBqData α) (freeFxn : Bool) :
    Option (TSBqData α × List (Option α) × List SyncEv) := do
  let res ← bq_clear d.bq freeFxn
  some ({ cap := d.cap, bq := res.1 }, res.2, [.lock, .unlock])

/-- tsbq_size (tsbqueue.c 139-147). -/
def tsbq_size (d : TSBqData α) : Int × List SyncEv :=
  (bq_size d.bq, [.lock, .unlock])

/-- A step on the thread-safe bounded queue. -/
inductive TSOp (α : Type) where
  | add (element : α) : TSOp α
  | put (element : α) : TSOp α
  | remove : TSOp α
  | take : TSOp α
  | peek : TSOp α
  | clear (freeFxn : Bool) : TSOp α

/-- The state after one step; `none` when the step cannot be taken (put on a
full queue, take on an empty one). -/
def tsStep (d : TSBqData α) : TSOp α → Option (TSBqData α)
  | .add e => (tsbq_add d e).map (fun res => res.2.1)
  | .put e => (tsbq_put d e).map (fun res => res.1)
  | .remove => (tsbq_remove d).map (fun res => res.2.2.1)
  | .take => (tsbq_take d).map (fun res => res.2.1)
  | .peek => (tsbq_peek d).map (fun res => res.2.2.1)
  | .clear uf => (tsbq_clear d uf).map (fun res => res.1)

/-- The state after a sequence of steps. -/
def tsRun : List (TSOp α) → TSBqData α → Option (TSBqData α)
  | [], d => some d
  | op :: ops, d => (tsStep d op).bind (tsRun ops)

/-- The step can be taken: put needs a queue that is not full, take one that
is not empty. -/
def TSOp.enabled (d : TSBqData α) : TSOp α → Bool
  | .put _ => decide (bq_size d.bq ≠ d.cap)
  | .take => decide (bq_size d.bq ≠ 0)
  | _ => true

/-- The wrapped queue of capacity 2 holding B, D, both indices at slot 1. -/
def tsQueueBD : TSBqData String :=
  { cap := 2,
    bq := { count := 2, size := 2, inIdx := 1, out := 1, buffer := [some "D", some "B"] } }

/-- tsbq_itCreate (tsbqueue.c 169-186) with the mutex of the wrapper: the
iterator (NULL is `none`) and the mutex on return; `mallocOk` is the
allocation of the array, `itOk` the allocations of TSIterator_create. -/
def tsbq_itCreate (d : TSBqData α) (lock : Pthread.Mutex) (mallocOk itOk : Bool) :
    Option (Option (TSIterator.TSItData (Option α)) × Pthread.Mutex) := do
  let l1 ← Pthread.pthread_mutex_lock lock
  let res ← bq_toArray d.bq mallocOk
  match res.1 with
  | none => some (none, Pthread.pthread_mutex_unlock l1)
  | some tmp => do
    let len ← res.2
    match TSIterator.TSIterator_create len tmp itOk with
    | none => some (none, Pthread.pthread_mutex_unlock l1)
    | some it => some (some it, l1)

/-- The number of holds of the mutex after a trace of pthread calls that
starts with `h` holds; `none` when a signal is sent without the mutex held. -/
def holdsAfter : List SyncEv → Nat → Option Nat
  | [], h => some h
  | .lock :: tr, h => holdsAfter tr (h + 1)
  | .unlock :: tr, h => holdsAfter tr (h - 1)
  | .signal :: tr, h => if 0 < h then holdsAfter tr h else none

end TSBQueue

/-! # The linked list (linkedlist.c) and the unbounded queue (uqueue.c)

The list is embedded with its nodes and pointers. A pointer is NULL, the
address of the sentinel that lies inside the struct ll_data, the address of
a node obtained from malloc, or the indeterminate value of a pointer field
that was never assigned; the nodes obtained so far are kept in allocation
order. An element field is `none` until it is assigned, then `some none` for
NULL or `some (some a)`. -/

namespace LinkedList

/-- A value of type `LLNode *`. -/
inductive Ptr where
  | null : Ptr
  | sentinel : Ptr
  | node (i : Nat) : Ptr
  | unset : Ptr
deriving DecidableEq

/-- The struct llnode. -/
structure LLNode (α : Type) where
  next : Ptr
  prev : Ptr
  element : Option (Option α)
deriving DecidableEq

/-- The struct ll_data, with the nodes obtained from malloc so far: the node
at address `Ptr.node i` is `nodes[i]`. -/
structure LlData (α : Type) where
  size : Int
  freel : Ptr
  sentinel : LLNode α
  nodes : List (LLNode α)
deriving DecidableEq

variable {α : Type}

/-- FL_INCREMENT (linkedlist.c 40). -/
def FL_INCREMENT : Nat := 128

/-- The node a pointer points to; `none` for NULL, for an indeterminate
pointer and for an address that was never allocated. -/
def LlData.read (lld : LlData α) : Ptr → Option (LLNode α)
  | .null => none
  | .sentinel => some lld.sentinel
  | .node i => lld.nodes[i]?
  | .unset => none

/-- A store of a node through a pointer. -/
def LlData.write (lld : LlData α) : Ptr → LLNode α → Option (LlData α)
  | .null, _ => none
  | .sentinel, n => some { lld with sentinel := n }
  | .node i, n => if i < lld.nodes.length then some { lld with nodes := lld.nodes.set i n } else none
  | .unset, _ => none

/-- The assignment `p->next = q`. -/
def LlData.setNext (lld : LlData α) (p q : Ptr) : Option (LlData α) := do
  let n ← lld.read p
  lld.write p { n with next := q }

/-- The assignment `p->prev = q`. -/
def LlData.setPrev (lld : LlData α) (p q : Ptr) : Option (LlData α) := do
  let n ← lld.read p
  lld.write p { n with prev := q }

/-- The assignment `p->element = e`. -/
def LlData.setElement (lld : LlData α) (p : Ptr) (e : Option α) : Option (LlData α) := do
  let n ← lld.read p
  lld.write p { n with element := some e }

/-- A call of malloc(sizeof(LLNode)) that succeeds: the address of a new
node, no field of which is assigned, and the new state. -/
def malloc (lld : LlData α) : Ptr × LlData α :=
  (.node lld.nodes.length,
   { lld with nodes := lld.nodes ++ [{ next := .unset, prev := .unset, element := none }] })

/-- putEntry (linkedlist.c 58-62). -/
def putEntry (lld : LlData α) (p : Ptr) : Option (LlData α) := do
  let lld ← lld.setElement p none
  let lld ← lld.setNext p lld.freel
  some { lld with freel := p }

/-- The loop of getEntry (linkedlist.c 69-74) with `n` iterations left, of
which the first `mallocs` find malloc succeeding; a NULL from malloc leaves
the loop. -/
def refill : Nat → Nat → LlData α → Option (LlData α)
  | 0, _, lld => some lld
  | _ + 1, 0, lld => some lld
  | n + 1, m + 1, lld => do
    let lld ← putEntry (malloc lld).2 (malloc lld).1
    refill n m lld

/-- getEntry (linkedlist.c 64-80): the node obtained (NULL when none) and the
new state; `mallocs` is the number of malloc calls that succeed should the
free list have to be refilled. -/
def getEntry (lld : LlData α) (mallocs : Nat) : Option (Ptr × LlData α) := do
  let lld ← if lld.freel = .null then refill FL_INCREMENT mallocs lld else some lld
  let p := lld.freel
  if p ≠ .null then do
    let n ← lld.read p
    some (p, { lld with freel := n.next })
  else some (p, lld)

/-- link (linkedlist.c 119-124), statement by statement. -/
def link (lld : LlData α) (before p after : Ptr) : Option (LlData α) := do
  let lld ← lld.setNext p after
  let lld ← lld.setPrev p before
  let lld ← lld.setPrev after p
  lld.setNext before p

/-- unlink (linkedlist.c 228-231), statement by statement: `p->prev->next =
p->next`, then `p->next->prev = p->prev`. -/
def unlink (lld : LlData α) (p : Ptr) : Option (LlData α) := do
  let n ← lld.read p
  let lld ← lld.setNext n.prev n.next
  let n ← lld.read p
  lld.setPrev n.next n.prev

/-- LinkedList_create (linkedlist.c 357-375), allocations succeeding; the
element field of the sentinel is not assigned. -/
def LinkedList_create : LlData α :=
  { size := 0, freel := .null,
    sentinel := { next := .sentinel, prev := .sentinel, element := none }, nodes := [] }

/-- ll_addLast (linkedlist.c 163-175): return value and new state. -/
def ll_addLast (lld : LlData α) (element : α) (mallocs : Nat) : Option (Int × LlData α) := do
  let got ← getEntry lld mallocs
  let p := got.1
  let lld := got.2
  if p ≠ .null then do
    let lld ← lld.setElement p (some element)
    let lld ← link lld lld.sentinel.prev p .sentinel
    some (1, { lld with size := lld.size + 1 })
  else some (0, lld)

/-- ll_add (linkedlist.c 126-128). -/
def ll_add (lld : LlData α) (element : α) (mallocs : Nat) : Option (Int × LlData α) :=
  ll_addLast lld element mallocs

/-- ll_getFirst (linkedlist.c 201-211): return value, the value written to
*element (`none` when nothing is written), and the state. -/
def ll_getFirst (lld : LlData α) : Option (Int × Option (Option α) × LlData α) :=
  let p := lld.sentinel.next
  if p ≠ .sentinel then do
    let n ← lld.read p
    let e ← n.element
    some (1, some e, lld)
  else some (0, none, lld)

/-- ll_removeFirst (linkedlist.c 252-265). -/
def ll_removeFirst (lld : LlData α) : Option (Int × Option (Option α) × LlData α) :=
  let p := lld.sentinel.next
  if p ≠ .sentinel then do
    let n ← lld.read p
    let e ← n.element
    let lld ← unlink lld p
    let lld ← putEntry lld p
    some (1, some e, { lld with size := lld.size - 1 })
  else some (0, none, lld)

/-- ll_size (linkedlist.c 299-302). -/
def ll_size (lld : LlData α) : Int := lld.size

/-- The loop `for (n = 0, p = SENTINEL(lld)->next; n < index; n++, p =
p->next)` of ll_get, ll_remove and ll_set with `n` steps left, at `p`. -/
def walkTo (lld : LlData α) : Nat → Ptr → Option Ptr
  | 0, p => some p
  | n + 1, p => do
    let nd ← lld.read p
    walkTo lld n nd.next

/-- ll_get (linkedlist.c 185-199): return value and the value written to
*element. The only test is `index < size`; the loop steps `index` times, not
at all when index is 0 or less. -/
def ll_get (lld : LlData α) (index : Int) : Option (Int × Option (Option α)) :=
  if index < lld.size then do
    let p ← walkTo lld index.toNat lld.sentinel.next
    let n ← lld.read p
    let e ← n.element
    some (1, some e)
  else some (0, none)

/-- ll_remove (linkedlist.c 233-250): return value, *element, new state. -/
def ll_remove (lld : LlData α) (index : Int) :
    Option (Int × Option (Option α) × LlData α) :=
  if index < lld.size then do
    let p ← walkTo lld index.toNat lld.sentinel.next
    let n ← lld.read p
    let e ← n.element
    let lld ← unlink lld p
    let lld ← putEntry lld p
    some (1, some e, { lld with size := lld.size - 1 })
  else some (0, none, lld)

/-- ll_set (linkedlist.c 282-297): return value, *previous, new state. -/
def ll_set (lld : LlData α) (index : Int) (element : α) :
    Option (Int × Option (Option α) × LlData α) :=
  if index < lld.size then do
    let p ← walkTo lld index.toNat lld.sentinel.next
    let n ← lld.read p
    let e ← n.element
    let lld ← lld.setElement p (some element)
    some (1, some e, lld)
  else some (0, none, lld)

/-- The loop of genArray (linkedlist.c 322-323) with `n` iterations left, at
`p`: the values stored in the array. -/
def collect (lld : LlData α) : Nat → Ptr → Option (List (Option α))
  | 0, _ => some []
  | n + 1, p => do
    let nd ← lld.read p
    let e ← nd.element
    let rest ← collect lld n nd.next
    some (e :: rest)

/-- genArray (linkedlist.c 314-327): the array, NULL (inner `none`) when
size is not positive or malloc fails. -/
def genArray (lld : LlData α) (mallocOk : Bool) : Option (Option (List (Option α))) :=
  if lld.size > 0 then
    if mallocOk then (collect lld lld.size.toNat lld.sentinel.next).map some
    else some none
  else some none

/-- ll_toArray (linkedlist.c 329-336): the array and the value written to *len. -/
def ll_toArray (lld : LlData α) (mallocOk : Bool) :
    Option (Option (List (Option α)) × Option Int) := do
  let tmp ← genArray lld mallocOk
  match tmp with
  | none => some (none, none)
  | some a => some (some a, some lld.size)

/-- The pointer to the node at position `k` of the address list `ps`, the
pointer `stop` past its end. -/
def ptrAt (stop : Ptr) (ps : List Nat) (k : Nat) : Ptr :=
  match ps[k]? with
  | some i => .node i
  | none => stop

/-- The pointer to the node before position `k` of `ps`, the sentinel before
position 0. -/
def ptrBefore (ps : List Nat) : Nat → Ptr
  | 0 => .sentinel
  | k + 1 => ptrAt .sentinel ps k

/-- The state holds the list `xs` in the nodes at the addresses `ps`, with
the free list at the addresses `fs`: the node at `ps[k]` holds `xs[k]`, its
next field points to the node at `ps[k+1]` (the sentinel after the last) and
its prev field to the node at `ps[k-1]` (the sentinel before the first); the
sentinel points to the first and the last node (to itself when there is
none); the free list runs from `freel` through the next fields of the nodes
at `fs` and ends with NULL; no address occurs twice; the size field is the
number of elements. -/
def LlRepAt (lld : LlData α) (xs : List α) (ps fs : List Nat) : Prop :=
  ps.length = xs.length ∧ (ps ++ fs).Nodup ∧ lld.size = xs.length ∧
  lld.sentinel.next = ptrAt .sentinel ps 0 ∧
  lld.sentinel.prev = ptrBefore ps ps.length ∧
  (∀ k i x, ps[k]? = some i → xs[k]? = some x →
    lld.read (.node i) = some (LLNode.mk (ptrAt .sentinel ps (k + 1)) (ptrBefore ps k)
      (some (some x)))) ∧
  lld.freel = ptrAt .null fs 0 ∧
  (∀ k i, fs[k]? = some i → ∃ n, lld.read (.node i) = some n ∧ n.next = ptrAt .null fs (k + 1))

/-- The state is a well-formed linked list holding `xs` from first to last. -/
def LlRep (lld : LlData α) (xs : List α) : Prop :=
  ∃ ps fs, LlRepAt lld xs ps fs

/-- The list made by LinkedList_create, add(A), add(B), every malloc
succeeding. -/
def listAB : Option (LlData String) :=
  (ll_add (LinkedList_create : LlData String) "A" FL_INCREMENT).bind (fun r =>
    (ll_add r.2 "B" FL_INCREMENT).map (fun r => r.2))

end LinkedList

namespace UQueue

open LinkedList

/-- The struct uq_data. -/
structure UqData (α : Type) where
  ll : LlData α
deriving DecidableEq

variable {α : Type}

/-- UQueue_create (uqueue.c 116-139), allocations succeeding. -/
def UQueue_create : UqData α := { ll := LinkedList_create }

/-- uq_add (uqueue.c 56-61). -/
def uq_add (uqd : UqData α) (element : α) (mallocs : Nat) : Option (Int × UqData α) := do
  let res ← ll_add uqd.ll element mallocs
  some (res.1, { ll := res.2 })

/-- uq_peek (uqueue.c 63-68). -/
def uq_peek (uqd : UqData α) : Option (Int × Option (Option α) × UqData α) := do
  let res ← ll_getFirst uqd.ll
  some (res.1, res.2.1, { ll := res.2.2 })

/-- uq_remove (uqueue.c 70-75). -/
def uq_remove (uqd : UqData α) : Option (Int × Option (Option α) × UqData α) := do
  let res ← ll_removeFirst uqd.ll
  some (res.1, res.2.1, { ll := res.2.2 })

/-- uq_size (uqueue.c 77-82). -/
def uq_size (uqd : UqData α) : Int := ll_size uqd.ll

/-- uq_toArray (uqueue.c 89-94). -/
def uq_toArray (uqd : UqData α) (mallocOk : Bool) :
    Option (Option (List (Option α)) × Option Int) :=
  ll_toArray uqd.ll mallocOk

/-- A call on the unbounded queue. -/
inductive UOp (α : Type) where
  | add (element : α) : UOp α
  | remove : UOp α
deriving DecidableEq

/-- One call: its return value, the value it yields through its out
parameter, and the new state. Every malloc of add succeeds. -/
def uqStep (uqd : UqData α) : UOp α → Option ((Int × Option (Option α)) × UqData α)
  | .add e => (uq_add uqd e FL_INCREMENT).map (fun r => ((r.1, none), r.2))
  | .remove => (uq_remove uqd).map (fun r => ((r.1, r.2.1), r.2.2))

/-- A sequence of calls: what each call returned and yielded, and the final state. -/
def uqRun : List (UOp α) → UqData α → Option (List (Int × Option (Option α)) × UqData α)
  | [], uqd => some ([], uqd)
  | op :: ops, uqd => do
    let r ← uqStep uqd op
    let rest ← uqRun ops r.2
    some (r.1 :: rest.1, rest.2)

/-- The FIFO list the queue is specified by: add appends at the tail and
returns 1; remove takes the head and returns 1, or returns 0 on the empty
list. -/
def fifoStep (xs : List α) : UOp α → (Int × Option α) × List α
  | .add e => ((1, none), xs ++ [e])
  | .remove =>
    match xs with
    | [] => ((0, none), [])
    | x :: rest => ((1, some x), rest)

/-- A sequence of calls on the FIFO list. -/
def fifoRun : List (UOp α) → List α → List (Int × Option α) × List α
  | [], xs => ([], xs)
  | op :: ops, xs =>
    ((fifoStep xs op).1 :: (fifoRun ops (fifoStep xs op).2).1, (fifoRun ops (fifoStep xs op).2).2)

/-- The elements passed to add, in call order. -/
def addedOf : List (UOp α) → List α
  | [] => []
  | .add e :: ops => e :: addedOf ops
  | .remove :: ops => addedOf ops

/-- The elements yielded by the removes that returned 1, in call order. -/
def removedOf : List (Int × Option α) → List α
  | [] => []
  | (_, some x) :: rs => x :: removedOf rs
  | (_, none) :: rs => removedOf rs

end UQueue

/-! # The hash map (hashmap.c)

A key is the list of the bytes of a C string; a byte 0 ends it. A bucket is
the list of the entries on its chain, first entry first. The three fields of
type double (load, loadFactor, increment) are left out; the one place that
reads them, the test `load > loadFactor` of hm_put, is a parameter. -/

namespace HashMap

/-- The struct hmentry; the field next is the rest of the chain. -/
structure HMEntry (α : Type) where
  key : List Nat
  element : α
deriving DecidableEq

/-- The struct hm_data without its three fields of type double. -/
structure HmData (α : Type) where
  size : Int
  capacity : Int
  changes : Int
  buckets : List (List (HMEntry α))
deriving DecidableEq

variable {α : Type}

/-- DEFAULT_CAPACITY (hashmap.c 36). -/
def DEFAULT_CAPACITY : Int := 16

/-- MAX_CAPACITY (hashmap.c 37). -/
def MAX_CAPACITY : Int := 134217728

/-- TRIGGER (hashmap.c 39). -/
def TRIGGER : Int := 100

/-- SHIFT (hashmap.c 60). -/
def SHIFT : Int := 7

/-- The largest value of type long. -/
def LONG_MAX : Int := 9223372036854775807

/-- The smallest value of type long. -/
def LONG_MIN : Int := -9223372036854775808

/-- The value of `*sp` for a byte of the key, the type char being signed. -/
def charVal (b : Nat) : Int := if b < 128 then (b : Int) else (b : Int) - 256

/-- The bytes of a C string before its terminating NUL. -/
def cstr (s : List Nat) : List Nat := s.takeWhile (fun b => b ≠ 0)

/-- The loop of hash (hashmap.c 65-66), `%` truncating as in C: `none` on a
division by zero or when `SHIFT * ans + *sp` leaves the range of long. -/
def hashLoop (N : Int) : List Nat → Int → Option Int
  | [], ans => some ans
  | b :: sp, ans =>
    if b = 0 then some ans
    else if N = 0 ∨ SHIFT * ans + charVal b < LONG_MIN ∨ LONG_MAX < SHIFT * ans + charVal b then
      none
    else hashLoop N sp (Int.tmod (SHIFT * ans + charVal b) N)

/-- hash (hashmap.c 61-68). -/
def hash (key : List Nat) (N : Int) : Option Int := hashLoop N key 0

/-- The test `strcmp(a, b) == 0`. -/
def strcmpEq (a b : List Nat) : Bool := decide (cstr a = cstr b)

/-- findKey (hashmap.c 115-126): the position on the chain of the entry found
(NULL is `none`) and the bucket index written to *bucket; `none` when the
index lies outside the array of buckets. -/
def findKey (hmd : HmData α) (key : List Nat) : Option (Option Nat × Int) := do
  let i ← hash key hmd.capacity
  if 0 ≤ i then do
    let chain ← hmd.buckets[i.toNat]?
    some (chain.findIdx? (fun p => strcmpEq p.key key), i)
  else none

/-- hm_containsKey (hashmap.c 128-133). -/
def hm_containsKey (hmd : HmData α) (key : List Nat) : Option Int := do
  let res ← findKey hmd key
  some (if res.1.isSome then 1 else 0)

/-- hm_get (hashmap.c 169-181): return value and the value written to *element. -/
def hm_get (hmd : HmData α) (key : List Nat) : Option (Int × Option α) := do
  let res ← findKey hmd key
  match res.1 with
  | none => some (0, none)
  | some k => do
    let chain ← hmd.buckets[res.2.toNat]?
    let p ← chain[k]?
    some (1, some p.element)

/-- hm_size (hashmap.c 353-356). -/
def hm_size (hmd : HmData α) : Int := hmd.size

/-- The value of an expression of type long stored in a variable of type int. -/
def toInt32 (x : Int) : Int := (x + 2147483648) % 4294967296 - 2147483648

/-- The redistribution loop of resize (hashmap.c 243-250) over the entries of
one chain: each entry is put at the head of its new chain. -/
def rehashChain (N : Int) : List (HMEntry α) → List (List (HMEntry α)) →
    Option (List (List (HMEntry α)))
  | [], array => some array
  | p :: q, array => do
    let j ← hash p.key N
    if 0 ≤ j then do
      let chain ← array[j.toNat]?
      rehashChain N q (array.set j.toNat (p :: chain))
    else none

/-- The outer loop of resize over the old buckets. -/
def rehashAll (N : Int) : List (List (HMEntry α)) → List (List (HMEntry α)) →
    Option (List (List (HMEntry α)))
  | [], array => some array
  | b :: bs, array => do
    let array1 ← rehashChain N b array
    rehashAll N bs array1

/-- resize (hashmap.c 225-257); `mallocOk` is the allocation of the new array. -/
def resize (hmd : HmData α) (mallocOk : Bool) : Option (HmData α) :=
  let N0 : Int := toInt32 (2 * hmd.capacity)
  let N : Int := if N0 > MAX_CAPACITY then toInt32 MAX_CAPACITY else N0
  if N = hmd.capacity then some hmd
  else if mallocOk = false then some hmd
  else if N < 0 then none
  else do
    let array ← rehashAll N (hmd.buckets.take hmd.capacity.toNat)
      (List.replicate N.toNat [])
    if hmd.capacity.toNat ≤ hmd.buckets.length then
      some { size := hmd.size, capacity := N, changes := 0, buckets := array }
    else none

/-- insertEntry (hashmap.c 262-282): return value and new state; `mallocOk`
is the allocation of the entry, `strdupOk` that of the copy of the key. -/
def insertEntry (hmd : HmData α) (key : List Nat) (element : α) (i : Int)
    (mallocOk strdupOk : Bool) : Option (Int × HmData α) :=
  if mallocOk then
    if strdupOk then
      if 0 ≤ i then do
        let chain ← hmd.buckets[i.toNat]?
        some (1, { size := hmd.size + 1, capacity := hmd.capacity, changes := hmd.changes + 1,
                   buckets := hmd.buckets.set i.toNat
                     ({ key := cstr key, element := element } :: chain) })
      else none
    else some (0, hmd)
  else some (0, hmd)

/-- The first lines of hm_put and hm_putUnique (hashmap.c 290-294): the load
check; `overLoad` is the outcome of the test `load > loadFactor`. -/
def loadCheck (hmd : HmData α) (overLoad resizeOk : Bool) : Option (HmData α) :=
  if hmd.changes > TRIGGER then
    let hmd1 : HmData α := { size := hmd.size, capacity := hmd.capacity, changes := 0,
                             buckets := hmd.buckets }
    if overLoad then resize hmd1 resizeOk else some hmd1
  else some hmd

/-- hm_put (hashmap.c 284-306): return value, the value written to *previous
(`none` when nothing is written, `some none` when NULL is written) and the
new state; `previous` says whether the pointer passed is non-null. -/
def hm_put (hmd : HmData α) (key : List Nat) (element : α) (previous : Bool)
    (overLoad resizeOk mallocOk strdupOk : Bool) :
    Option (Int × Option (Option α) × HmData α) := do
  let hmd1 ← loadCheck hmd overLoad resizeOk
  let res ← findKey hmd1 key
  match res.1, previous with
  | some k, true => do
    let chain ← hmd1.buckets[res.2.toNat]?
    let p ← chain[k]?
    some (1, some (some p.element),
      { size := hmd1.size, capacity := hmd1.capacity, changes := hmd1.changes,
        buckets := hmd1.buckets.set res.2.toNat
          (chain.set k { key := p.key, element := element }) })
  | _, _ => do
    let ins ← insertEntry hmd1 key element res.2 mallocOk strdupOk
    some (ins.1, if previous then some none else none, ins.2)

/-- HashMap_create (hashmap.c 385-424), allocations succeeding. -/
def HashMap_create (capacity : Int) : HmData α :=
  let N0 : Int := if capacity > 0 then capacity else DEFAULT_CAPACITY
  let N : Int := if N0 > MAX_CAPACITY then MAX_CAPACITY else N0
  { size := 0, capacity := N, changes := 0, buckets := List.replicate N.toNat [] }

/-- The number of entries of the map whose key equals `key`. -/
def countKey (hmd : HmData α) (key : List Nat) : Nat :=
  (hmd.buckets.map (fun chain => chain.countP (fun p => strcmpEq p.key key))).sum

/-- The map made by the calls create(4), put("a", 1, &prev). -/
def mapA : Option (HmData Int) :=
  (hm_put (HashMap_create 4) [97] 1 true false true true true).map (fun res => res.2.2)

end HashMap

/-! # The stack (stack.c)

The array holds a slot per index below capacity; a slot never written is
`none`. -/

namespace Stack

/-- The struct st_data. -/
structure StData (α : Type) where
  capacity : Int
  delta : Int
  next : Int
  theArray : List (Option α)
deriving DecidableEq

variable {α : Type}

/-- DEFAULT_CAPACITY (stack.c 39). -/
def DEFAULT_CAPACITY : Int := 50

/-- MAX_INIT_CAPACITY (stack.c 40). -/
def MAX_INIT_CAPACITY : Int := 1000

/-- Stack_create (stack.c 181-212), allocations succeeding. -/
def Stack_create (capacity : Int) : StData α :=
  let cap0 : Int := if capacity ≤ 0 then DEFAULT_CAPACITY else capacity
  let cap : Int := if cap0 > MAX_INIT_CAPACITY then MAX_INIT_CAPACITY else cap0
  { capacity := cap, delta := cap, next := 0, theArray := List.replicate cap.toNat none }

/-- st_push (stack.c 79-97): return value and new state; `reallocOk` is the
outcome of realloc when the array has to grow; `none` when the store falls
outside the array. -/
def st_push (std : StData α) (element : α) (reallocOk : Bool) : Option (Int × StData α) :=
  let grown : Option (StData α) :=
    if std.capacity ≤ std.next then
      if reallocOk then
        some { capacity := std.capacity + std.delta, delta := std.delta, next := std.next,
               theArray := (std.theArray ++ List.replicate (std.capacity + std.delta).toNat none).take
                 (std.capacity + std.delta).toNat }
      else none
    else some std
  match grown with
  | none => some (0, std)
  | some s =>
    if 0 ≤ s.next ∧ s.next.toNat < s.theArray.length then
      some (1, { capacity := s.capacity, delta := s.delta, next := s.next + 1,
                 theArray := s.theArray.set s.next.toNat (some element) })
    else none

/-- st_pop (stack.c 99-108): return value, the value written to *element and
the new state. -/
def st_pop (std : StData α) : Option (Int × Option (Option α) × StData α) :=
  if std.next > 0 then do
    let v ← std.theArray[(std.next - 1).toNat]?
    some (1, some v, { capacity := std.capacity, delta := std.delta, next := std.next - 1,
                       theArray := std.theArray })
  else some (0, none, std)

/-- st_peek (stack.c 110-119). -/
def st_peek (std : StData α) : Option (Int × Option (Option α)) :=
  if std.next > 0 then do
    let v ← std.theArray[(std.next - 1).toNat]?
    some (1, some v)
  else some (0, none)

/-- st_size (stack.c 121-125). -/
def st_size (std : StData α) : Int := std.next

/-- arrayDupl (stack.c 138-152): the copy of the slots 0 .. next-1, NULL
(inner `none`) when the stack is empty or malloc fails. -/
def arrayDupl (std : StData α) (mallocOk : Bool) : Option (Option (List (Option α))) :=
  if std.next > 0 then
    if mallocOk then
      if std.next.toNat ≤ std.theArray.length then some (some (std.theArray.take std.next.toNat))
      else none
    else some none
  else some none

/-- st_toArray (stack.c 154-161): the array and the value written to *len. -/
def st_toArray (std : StData α) (mallocOk : Bool) :
    Option (Option (List (Option α)) × Option Int) := do
  let tmp ← arrayDupl std mallocOk
  match tmp with
  | none => some (none, none)
  | some a => some (some a, some std.next)

/-- st_itCreate (stack.c 163-174); `itOk` is the allocation in Iterator_create. -/
def st_itCreate (std : StData α) (mallocOk itOk : Bool) :
    Option (Option (Iterator.ItData (Option α))) := do
  let tmp ← arrayDupl std mallocOk
  match tmp with
  | none => some none
  | some a => some (Iterator.Iterator_create std.next a itOk)

/-- The pushes of a list of elements, first element first, on a stack. -/
def pushAll : List α → StData α → Option (StData α)
  | [], std => some std
  | e :: es, std => do
    let res ← st_push std e true
    pushAll es res.2

end Stack

/-! # The array list (arraylist.c)

The array holds a slot per index below the number of slots allocated; a slot
never written is `none`. -/

namespace ArrayList

/-- The struct al_data. -/
structure AlData (α : Type) where
  capacity : Int
  size : Int
  theArray : List (Option α)
deriving DecidableEq

variable {α : Type}

/-- DEFAULT_CAPACITY (arraylist.c 39). -/
def DEFAULT_CAPACITY : Int := 10

/-- ArrayList_create (arraylist.c 245-273), allocations succeeding. -/
def ArrayList_create (capacity : Int) : AlData α :=
  let cap : Int := if capacity ≤ 0 then DEFAULT_CAPACITY else capacity
  { capacity := cap, size := 0, theArray := List.replicate cap.toNat none }

/-- The array returned by a successful realloc to `n` slots: the old slots
that fit, then slots not yet written. -/
def reallocTo (a : List (Option α)) (n : Int) : List (Option α) :=
  (a ++ List.replicate n.toNat none).take n.toNat

/-- The block `if (ald->capacity <= ald->size) ...` of al_add and al_insert
(arraylist.c 74-83, 128-137): the state after it, `none` when realloc fails
(status 0). -/
def grow (ald : AlData α) (reallocOk : Bool) : Option (AlData α) :=
  if ald.capacity ≤ ald.size then
    if reallocOk then
      some { capacity := ald.capacity * 2, size := ald.size,
             theArray := reallocTo ald.theArray (2 * ald.capacity) }
    else none
  else some ald

/-- al_add (arraylist.c 70-87): return value and new state; `none` when the
store `theArray[size++] = element` falls outside the array. -/
def al_add (ald : AlData α) (element : α) (reallocOk : Bool) : Option (Int × AlData α) :=
  match grow ald reallocOk with
  | none => some (0, ald)
  | some s =>
    if 0 ≤ s.size ∧ s.size.toNat < s.theArray.length then
      some (1, { capacity := s.capacity, size := s.size + 1,
                 theArray := s.theArray.set s.size.toNat (some element) })
    else none

/-- al_ensureCapacity (arraylist.c 95-109). -/
def al_ensureCapacity (ald : AlData α) (minCapacity : Int) (reallocOk : Bool) :
    Int × AlData α :=
  if ald.capacity < minCapacity then
    if reallocOk then
      (1, { capacity := minCapacity, size := ald.size,
            theArray := reallocTo ald.theArray minCapacity })
    else (0, ald)
  else (1, ald)

/-- al_insert (arraylist.c 122-146): return value and new state; `none` when
a load or store of the slide loop or the store `theArray[i] = element` falls
outside the array. -/
def al_insert (ald : AlData α) (i : Int) (element : α) (reallocOk : Bool) :
    Option (Int × AlData α) :=
  if i > ald.size then some (0, ald)
  else
    match grow ald reallocOk with
    | none => some (0, ald)
    | some s =>
      if 0 ≤ i ∧ s.size.toNat < s.theArray.length then
        some (1, { capacity := s.capacity, size := s.size + 1,
                   theArray := s.theArray.take i.toNat ++ some element ::
                     ((s.theArray.drop i.toNat).take (s.size.toNat - i.toNat) ++
                       s.theArray.drop (s.size.toNat + 1)) })
      else none

/-- al_trimToSize (arraylist.c 214-225): return value and new state;
`reallocOk` says whether realloc returns a pointer that is not NULL. -/
def al_trimToSize (ald : AlData α) (reallocOk : Bool) : Int × AlData α :=
  if reallocOk then
    (1, { capacity := ald.size, size := ald.size,
          theArray := reallocTo ald.theArray ald.size })
  else (0, ald)

end ArrayList

/-!
# The ordered set (orderedset.c), an AVL tree with stored balance factors

Shallow embedding of `src/src/orderedset.c`.

* A `TNode *` is a value of the inductive type `TNode`; `NULL` is `TNode.null`.
  The heap is a forest (no node is shared), so in-place updates of a node are
  modelled by rebuilding the node.
* Dereferencing `NULL` is undefined behaviour in C; every function that can
  dereference returns an `Option`, and `none` stands for that crash.
* `int *done` is an in/out flag: it is passed in and returned.
* `malloc` is modelled by a flag `mallocOk` given to `newNode`.
* Calls of the destructor `uf` are recorded in a list (the log), in call order;
  `uf : Bool` says whether the function pointer is non-NULL.
* `int` and `long` are modelled by `Int`; the balance stays within -2..2 and
  the size would need 2^63 successful adds to overflow.
* The comparator `osd->cmp` is written once by `OrderedSet_create` and never
  assigned again; it is carried as a parameter `cmp`.
-/

namespace OrderedSet

/-- The struct tnode: link[0] is `left`, link[1] is `right`. -/
inductive TNode (α : Type) where
  | null : TNode α
  | node (left : TNode α) (element : α) (balance : Int) (right : TNode α) : TNode α
deriving DecidableEq

/-- The struct os_data without the comparator field. -/
structure OsData (α : Type) where
  size : Int
  root : TNode α
deriving DecidableEq

variable {α : Type}

/-- Pointer test `t == NULL`. -/
def TNode.isNull : TNode α → Bool
  | .null => true
  | .node _ _ _ _ => false

/-- Read of `t->link[dir]` (dir = false is 0, dir = true is 1). -/
def TNode.link : TNode α → Bool → Option (TNode α)
  | .null, _ => none
  | .node l _ _ r, dir => some (if dir then r else l)

/-- Assignment `t->link[dir] = c`. -/
def TNode.setLink : TNode α → Bool → TNode α → Option (TNode α)
  | .null, _, _ => none
  | .node l e b r, dir, c => some (if dir then .node l e b c else .node c e b r)

/-- Read of `t->balance`. -/
def TNode.bal : TNode α → Option Int
  | .null => none
  | .node _ _ b _ => some b

/-- Assignment `t->balance = b`. -/
def TNode.setBal : TNode α → Int → Option (TNode α)
  | .null, _ => none
  | .node l e _ r, b => some (.node l e b r)

/-- newNode (orderedset.c 67-76): a leaf with balance 0, or NULL when malloc fails. -/
def newNode (mallocOk : Bool) (element : α) : TNode α :=
  if mallocOk then .node .null element 0 .null else .null

/-- singleRotate (orderedset.c 78-84). -/
def singleRotate (root : TNode α) (dir : Bool) : Option (TNode α) := do
  let save ← root.link (!dir)
  let root ← root.setLink (!dir) (← save.link dir)
  save.setLink dir root

/-- doubleRotate (orderedset.c 86-96), statement by statement. -/
def doubleRotate (root : TNode α) (dir : Bool) : Option (TNode α) := do
  let c ← root.link (!dir)
  let save ← c.link dir
  let c ← c.setLink dir (← save.link (!dir))
  let save ← save.setLink (!dir) c
  let root ← root.setLink (!dir) save
  let save ← root.link (!dir)
  let root ← root.setLink (!dir) (← save.link dir)
  save.setLink dir root

/-- adjustBalance (orderedset.c 98-112). -/
def adjustBalance (root : TNode α) (dir : Bool) (bal : Int) : Option (TNode α) := do
  let n ← root.link dir
  let nn ← n.link (!dir)
  let nnb ← nn.bal
  let rb : Int := if nnb = 0 then 0 else if nnb = bal then -bal else 0
  let nb : Int := if nnb = 0 then 0 else if nnb = bal then 0 else bal
  let nn ← nn.setBal 0
  let n ← (← n.setBal nb).setLink (!dir) nn
  (← root.setBal rb).setLink dir n

/-- insertBalance (orderedset.c 114-126). -/
def insertBalance (root : TNode α) (dir : Bool) : Option (TNode α) := do
  let n ← root.link dir
  let bal : Int := if dir = false then -1 else 1
  if (← n.bal) = bal then
    let n ← n.setBal 0
    let root ← (← root.setBal 0).setLink dir n
    singleRotate root (!dir)
  else
    let root ← adjustBalance root dir bal
    doubleRotate root (!dir)

/-- The block `if (! *done) ...` of insert (orderedset.c 136-144), run on the
node whose link[dir] has just been assigned. -/
def insertRetrace (root : TNode α) (dir : Bool) (done : Bool) : Option (TNode α × Bool) :=
  if done = false then do
    let b ← root.bal
    let b1 : Int := b + (if dir = false then -1 else 1)
    let root ← root.setBal b1
    if b1 = 0 then
      some (root, true)
    else if Int.natAbs b1 > 1 then do
      let root ← insertBalance root dir
      some (root, true)
    else
      some (root, done)
  else
    some (root, done)

/-- insert (orderedset.c 128-147). -/
def insert (cmp : α → α → Int) (mallocOk : Bool) :
    TNode α → α → Bool → Option (TNode α × Bool)
  | .null, element, done => some (newNode mallocOk element, done)
  | .node l e b r, element, done => do
    let dir : Bool := decide (cmp e element < 0)
    let res ← if dir then insert cmp mallocOk r element done
              else insert cmp mallocOk l element done
    let root : TNode α := if dir then .node l e b res.1 else .node res.1 e b r
    insertRetrace root dir res.2

/-- removeBalance (orderedset.c 149-166). -/
def removeBalance (root : TNode α) (dir : Bool) (done : Bool) : Option (TNode α × Bool) := do
  let n ← root.link (!dir)
  let bal : Int := if dir = false then -1 else 1
  let nb ← n.bal
  if nb = -bal then
    let n ← n.setBal 0
    let root ← (← root.setBal 0).setLink (!dir) n
    let root ← singleRotate root dir
    some (root, done)
  else if nb = bal then
    let root ← adjustBalance root (!dir) (-bal)
    let root ← doubleRotate root dir
    some (root, done)
  else
    let n ← n.setBal bal
    let root ← (← root.setBal (-bal)).setLink (!dir) n
    let root ← singleRotate root dir
    some (root, true)

/-- The block `if (! *done) ...` of remove (orderedset.c 194-200), run on the
node whose link[dir] has just been assigned. -/
def removeRetrace (root : TNode α) (dir : Bool) (done : Bool) : Option (TNode α × Bool) :=
  if done = false then do
    let b ← root.bal
    let b1 : Int := b + (if dir != false then -1 else 1)
    let root ← root.setBal b1
    if Int.natAbs b1 = 1 then
      some (root, true)
    else if Int.natAbs b1 > 1 then
      removeBalance root dir done
    else
      some (root, done)
  else
    some (root, done)

/-- The loop `while (heir->link[1] != NULL) heir = heir->link[1];`
(orderedset.c 186-187), returning the element of the node it stops at. -/
def heirElement : TNode α → Option α
  | .null => none
  | .node _ e _ r => if r.isNull then some e else heirElement r

/-- remove (orderedset.c 168-203). The result is the new subtree, the done
flag and the list of elements the destructor was called on. -/
def remove (cmp : α → α → Int) (uf : Bool) :
    TNode α → α → Bool → Option (TNode α × Bool × List α)
  | .null, _, done => some (.null, done, [])
  | .node l e b r, element, done =>
    if cmp element e = 0 ∧ (l.isNull ∨ r.isNull) then
      let dir : Bool := l.isNull
      let save : TNode α := if dir then r else l
      some (save, done, if uf then [e] else [])
    else do
      let heir ← if cmp element e = 0 then heirElement l else some e
      let e1 : α := heir
      let element1 : α := if cmp element e = 0 then heir else element
      let dir : Bool := decide (cmp e1 element1 < 0)
      let res ← if dir then remove cmp uf r element1 done
                else remove cmp uf l element1 done
      let root : TNode α := if dir then .node l e1 b res.1 else .node res.1 e1 b r
      let out ← removeRetrace root dir res.2.1
      some (out.1, out.2, res.2.2)

/-- find (orderedset.c 208-220); NULL when the element is not found. -/
def find (cmp : α → α → Int) (element : α) : TNode α → TNode α
  | .null => .null
  | .node l e b r =>
    if cmp element e < 0 then find cmp element l
    else if cmp element e > 0 then find cmp element r
    else .node l e b r

/-- populate (orderedset.c 225-231): the in-order sequence of elements. -/
def populate : TNode α → List α
  | .null => []
  | .node l e _ r => populate l ++ e :: populate r

/-- postpurge (orderedset.c 236-244): the elements the destructor is called
on, in post-order. -/
def postpurge (uf : Bool) : TNode α → List α
  | .null => []
  | .node l e _ r => postpurge uf l ++ postpurge uf r ++ (if uf then [e] else [])

/-- findMin (orderedset.c 324-329). -/
def findMin : TNode α → TNode α
  | .null => .null
  | .node l e b r => if l.isNull then .node l e b r else findMin l

/-- findMax (orderedset.c 392-397). -/
def findMax : TNode α → TNode α
  | .null => .null
  | .node l e b r => if r.isNull then .node l e b r else findMax r

/-- OrderedSet_create (orderedset.c 518-535), allocations succeeding. -/
def OrderedSet_create : OsData α := { size := 0, root := .null }

/-- os_add (orderedset.c 253-262): return value and new state. -/
def os_add (cmp : α → α → Int) (mallocOk : Bool) (osd : OsData α) (element : α) :
    Option (Int × OsData α) :=
  if (find cmp element osd.root).isNull = false then
    some (0, osd)
  else do
    let res ← insert cmp mallocOk osd.root element false
    some (1, { size := osd.size + 1, root := res.1 })

/-- os_remove (orderedset.c 453-462): return value, new state, destructor log. -/
def os_remove (cmp : α → α → Int) (osd : OsData α) (element : α) (freeFxn : Bool) :
    Option (Int × OsData α × List α) :=
  if (find cmp element osd.root).isNull then
    some (0, osd, [])
  else do
    let res ← remove cmp freeFxn osd.root element false
    some (1, { size := osd.size - 1, root := res.1 }, res.2.2)

/-- os_first (orderedset.c 331-339): return value and the value written to *element. -/
def os_first (osd : OsData α) : Int × Option α :=
  match findMin osd.root with
  | .null => (0, none)
  | .node _ e _ _ => (1, some e)

/-- os_last (orderedset.c 399-407). -/
def os_last (osd : OsData α) : Int × Option α :=
  match findMax osd.root with
  | .null => (0, none)
  | .node _ e _ _ => (1, some e)

/-- os_pollFirst (orderedset.c 429-439): return value, *element, new state. -/
def os_pollFirst (cmp : α → α → Int) (osd : OsData α) : Option (Int × Option α × OsData α) :=
  match findMin osd.root with
  | .null => some (0, none, osd)
  | .node _ e _ _ => do
    let res ← remove cmp false osd.root e false
    some (1, some e, { size := osd.size, root := res.1 })

/-- os_pollLast (orderedset.c 441-451). -/
def os_pollLast (cmp : α → α → Int) (osd : OsData α) : Option (Int × Option α × OsData α) :=
  match findMax osd.root with
  | .null => some (0, none, osd)
  | .node _ e _ _ => do
    let res ← remove cmp false osd.root e false
    some (1, some e, { size := osd.size, root := res.1 })

/-- os_clear (orderedset.c 309-314): new state and destructor log. -/
def os_clear (osd : OsData α) (freeFxn : Bool) : OsData α × List α :=
  ({ size := 0, root := .null }, postpurge freeFxn osd.root)

/-- os_contains (orderedset.c 316-319). -/
def os_contains (cmp : α → α → Int) (osd : OsData α) (element : α) : Int :=
  if (find cmp element osd.root).isNull = false then 1 else 0

/-- os_isEmpty (orderedset.c 384-387). -/
def os_isEmpty (osd : OsData α) : Int :=
  if osd.size = 0 then 1 else 0

/-- os_size (orderedset.c 464-467). -/
def os_size (osd : OsData α) : Int := osd.size

/-! ## Specification vocabulary -/

/-- Number of nodes on the longest path from the node down to a leaf. -/
def height : TNode α → Nat
  | .null => 0
  | .node l _ _ r => 1 + max (height l) (height r)

/-- Number of nodes reachable from the node. -/
def count : TNode α → Nat
  | .null => 0
  | .node l _ _ r => count l + 1 + count r

/-- Stored balance factors are right: at every node the balance field equals
height(right) - height(left) and lies in -1..1. -/
def AvlOK : TNode α → Prop
  | .null => True
  | .node l _ b r =>
    AvlOK l ∧ AvlOK r ∧ b = (height r : Int) - (height l : Int) ∧ -1 ≤ b ∧ b ≤ 1

/-- The node exists and its balance field is not 0. -/
def BalNZ : TNode α → Prop
  | .null => False
  | .node _ _ b _ => b ≠ 0

/-- The comparator contract of OrderedSet_create (orderedset.h 45-52): the sign
of `cmp a b` tells a < b, a == b, a > b consistently, i.e. `cmp` is a strict
total order on the classes of comparator-equal elements. -/
structure CmpLaw (cmp : α → α → Int) : Prop where
  antisymm : ∀ a b, cmp a b < 0 ↔ 0 < cmp b a
  trans : ∀ a b c, cmp a b ≤ 0 → cmp b c ≤ 0 → cmp a c ≤ 0

/-- The in-order traversal is strictly increasing under the comparator. -/
def SearchTree (cmp : α → α → Int) (t : TNode α) : Prop :=
  (populate t).Pairwise (fun a b => cmp a b < 0)

/-- A valid AVL search tree. -/
def Valid (cmp : α → α → Int) (t : TNode α) : Prop :=
  SearchTree cmp t ∧ AvlOK t

/-! ## Call sequences -/

/-- One call on the interface of the set. Allocation succeeds in `add`. -/
inductive Op (α : Type) where
  | add (element : α) : Op α
  | remove (element : α) (freeFxn : Bool) : Op α
  | pollFirst : Op α
  | pollLast : Op α
  | clear (freeFxn : Bool) : Op α
deriving DecidableEq

/-- The state after one call; `none` when the call dereferences NULL. -/
def step (cmp : α → α → Int) (osd : OsData α) : Op α → Option (OsData α)
  | .add x => (os_add cmp true osd x).map (fun res => res.2)
  | .remove x uf => (os_remove cmp osd x uf).map (fun res => res.2.1)
  | .pollFirst => (os_pollFirst cmp osd).map (fun res => res.2.2)
  | .pollLast => (os_pollLast cmp osd).map (fun res => res.2.2)
  | .clear uf => some (os_clear osd uf).1

/-- The state after a sequence of calls, first call first. -/
def run (cmp : α → α → Int) : List (Op α) → OsData α → Option (OsData α)
  | [], osd => some osd
  | op :: ops, osd => (step cmp osd op).bind (run cmp ops)

/-- The loop of tsostest.c 84-99 run `n` times: `first`, then `remove` of the
element it yielded. The result says whether every call returned 1, lists the
elements yielded by `first`, and gives the final state. -/
def firstRemoveLoop (cmp : α → α → Int) (freeFxn : Bool) :
    Nat → OsData α → Option (Bool × List α × OsData α)
  | 0, osd => some (true, [], osd)
  | n + 1, osd =>
    match os_first osd with
    | (_, none) => some (false, [], osd)
    | (_, some e) => do
      let res ← os_remove cmp osd e freeFxn
      if res.1 = 0 then some (false, [e], res.2.1)
      else do
        let rest ← firstRemoveLoop cmp freeFxn n res.2.1
        some (rest.1, e :: rest.2.1, rest.2.2)

/-- The call `pollFirst` repeated `n` times: the return value and the yielded
element of each call, and the final state. -/
def pollFirstLoop (cmp : α → α → Int) :
    Nat → OsData α → Option (List (Int × Option α) × OsData α)
  | 0, osd => some ([], osd)
  | n + 1, osd => do
    let res ← os_pollFirst cmp osd
    let rest ← pollFirstLoop cmp n res.2.2
    some ((res.1, res.2.1) :: rest.1, rest.2)

/-- An integer comparator: the sign of a - b. -/
def icmp (a b : Int) : Int := a - b

/-- The set holding 1, 2, 3 with 2 at the root. -/
def set123 : OsData Int :=
  { size := 3, root := .node (.node .null 1 0 .null) 2 0 (.node .null 3 0 .null) }

/-- The set holding 1, 2 with 2 at the root. -/
def set12 : OsData Int :=
  { size := 2, root := .node (.node .null 1 0 .null) 2 (-1) .null }

/-! ## Navigation queries, toArray and the iterator factory -/

/-- Min (orderedset.c 264-273). -/
def Min (cmp : α → α → Int) : TNode α → TNode α → TNode α
  | .null, n2 => n2
  | .node l1 e1 b1 r1, .null => .node l1 e1 b1 r1
  | .node l1 e1 b1 r1, .node l2 e2 b2 r2 =>
    if cmp e1 e2 > 0 then .node l2 e2 b2 r2 else .node l1 e1 b1 r1

/-- Max (orderedset.c 275-284). -/
def Max (cmp : α → α → Int) : TNode α → TNode α → TNode α
  | .null, n2 => n2
  | .node l1 e1 b1 r1, .null => .node l1 e1 b1 r1
  | .node l1 e1 b1 r1, .node l2 e2 b2 r2 =>
    if cmp e1 e2 < 0 then .node l2 e2 b2 r2 else .node l1 e1 b1 r1

/-- The while loop of os_ceiling (orderedset.c 291-302) from the state `t`,
`current`; the result is the final `current`. -/
def ceilingLoop (cmp : α → α → Int) (element : α) : TNode α → TNode α → TNode α
  | .null, current => current
  | .node l e b r, current =>
    if cmp element e = 0 then .node l e b r
    else if cmp element e < 0 then
      ceilingLoop cmp element l (Min cmp (.node l e b r) current)
    else ceilingLoop cmp element r current

/-- The while loop of os_floor (orderedset.c 346-357). -/
def floorLoop (cmp : α → α → Int) (element : α) : TNode α → TNode α → TNode α
  | .null, current => current
  | .node l e b r, current =>
    if cmp element e = 0 then .node l e b r
    else if cmp element e > 0 then
      floorLoop cmp element r (Max cmp (.node l e b r) current)
    else floorLoop cmp element l current

/-- The while loop of os_higher (orderedset.c 369-377). -/
def higherLoop (cmp : α → α → Int) (element : α) : TNode α → TNode α → TNode α
  | .null, current => current
  | .node l e b r, current =>
    if cmp element e < 0 then
      higherLoop cmp element l (Min cmp (.node l e b r) current)
    else higherLoop cmp element r current

/-- The while loop of os_lower (orderedset.c 414-422). -/
def lowerLoop (cmp : α → α → Int) (element : α) : TNode α → TNode α → TNode α
  | .null, current => current
  | .node l e b r, current =>
    if cmp element e > 0 then
      lowerLoop cmp element r (Max cmp (.node l e b r) current)
    else lowerLoop cmp element l current

/-- The tail of the four navigation queries: 0 when `current` is NULL,
otherwise 1 with `current->element` written to the out parameter. -/
def yieldCurrent : TNode α → Int × Option α
  | .null => (0, none)
  | .node _ e _ _ => (1, some e)

/-- os_ceiling (orderedset.c 286-307). -/
def os_ceiling (cmp : α → α → Int) (osd : OsData α) (element : α) : Int × Option α :=
  yieldCurrent (ceilingLoop cmp element osd.root .null)

/-- os_floor (orderedset.c 341-362). -/
def os_floor (cmp : α → α → Int) (osd : OsData α) (element : α) : Int × Option α :=
  yieldCurrent (floorLoop cmp element osd.root .null)

/-- os_higher (orderedset.c 364-382). -/
def os_higher (cmp : α → α → Int) (osd : OsData α) (element : α) : Int × Option α :=
  yieldCurrent (higherLoop cmp element osd.root .null)

/-- os_lower (orderedset.c 409-427). -/
def os_lower (cmp : α → α → Int) (osd : OsData α) (element : α) : Int × Option α :=
  yieldCurrent (lowerLoop cmp element osd.root .null)

/-- The struct popstruct: the array being filled (a slot is `none` until it
is written) and the number of slots written so far. -/
structure PopStruct (α : Type) where
  a : List (Option α)
  len : Nat

/-- populate (orderedset.c 225-231) with its PopStruct: the in-order walk
writing `(ps->a)[ps->len++] = node->element`; `none` when a write falls
outside the array. -/
def populatePs : PopStruct α → TNode α → Option (PopStruct α)
  | ps, .null => some ps
  | ps, .node l e _ r => do
    let ps1 ← populatePs ps l
    let ps2 ← if ps1.len < ps1.a.length then
        some { a := ps1.a.set ps1.len (some e), len := ps1.len + 1 }
      else none
    populatePs ps2 r

/-- genArray (orderedset.c 475-488): the array (NULL is `none`) of
`osd->size` slots filled by populate. -/
def genArray (osd : OsData α) (mallocOk : Bool) : Option (Option (List (Option α))) :=
  if osd.size > 0 then
    if mallocOk then do
      let ps ← populatePs { a := List.replicate osd.size.toNat none, len := 0 } osd.root
      some (some ps.a)
    else some none
  else some none

/-- os_toArray (orderedset.c 490-497): the returned array and the value
written to *len (none when nothing is written). -/
def os_toArray (osd : OsData α) (mallocOk : Bool) :
    Option (Option (List (Option α)) × Option Int) := do
  let array ← genArray osd mallocOk
  match array with
  | none => some (none, none)
  | some a => some (some a, some osd.size)

/-- os_itCreate (orderedset.c 499-510): the iterator or NULL; `mallocOk` is
the allocation of the array, `itOk` the allocations of Iterator_create. -/
def os_itCreate (osd : OsData α) (mallocOk itOk : Bool) :
    Option (Option (Iterator.ItData (Option α))) := do
  let tmp ← genArray osd mallocOk
  match tmp with
  | none => some none
  | some a => some (Iterator.Iterator_create osd.size a itOk)

/-- The call is an add or a remove. -/
def Op.isAddRemove : Op α → Bool
  | .add _ => true
  | .remove _ _ => true
  | _ => false

/-! ## The thread-safe wrapper (tsorderedset.c)

Each wrapper function returns, next to its result and the new state, the
trace of the calls it has made: the trace starts empty, and each
pthread_mutex_lock, each call of the wrapped set and each
pthread_mutex_unlock appends its entry when it is made. -/

/-- The struct tsos_data. -/
structure TSOsData (α : Type) where
  os : OsData α
  lock : Pthread.Mutex

/-- An entry of the trace of a wrapper function: a pthread_mutex_lock that
returned, the call of the member function of the wrapped set together with
the number of holds of the mutex at that moment, a pthread_mutex_unlock. -/
inductive TsEv where
  | lock : TsEv
  | call (holds : Nat) : TsEv
  | unlock : TsEv
deriving DecidableEq

/-- The mutex of the wrapper together with the trace of the calls the running
wrapper function has made so far. -/
structure Traced where
  lock : Pthread.Mutex
  trace : List TsEv

/-- The statement `pthread_mutex_lock(LOCK(osd));`: the mutex is locked and
the call is appended to the trace; `none` when the call does not return. -/
def Traced.mutexLock (t : Traced) : Option Traced := do
  let l1 ← Pthread.pthread_mutex_lock t.lock
  some { lock := l1, trace := t.trace ++ [.lock] }

/-- The statement `pthread_mutex_unlock(LOCK(osd));`. -/
def Traced.mutexUnlock (t : Traced) : Traced :=
  { lock := Pthread.pthread_mutex_unlock t.lock, trace := t.trace ++ [.unlock] }

/-- The call `osd->os->f(osd->os, ...)` of a member function of the wrapped
set: the trace records it with the number of holds the mutex has then. -/
def Traced.called (t : Traced) : Traced :=
  { lock := t.lock, trace := t.trace ++ [.call t.lock.holds] }

/-- What a call returns and writes: the return value (0 for a function of
type void or one that returns an array), the value written to the out
parameter, the array returned and the value written to *len by toArray, and
the destructor log. -/
structure Res (α : Type) where
  ret : Int
  out : Option α
  array : Option (List (Option α))
  len : Option Int
  freed : List α

/-- TSOrderedSet_create (tsorderedset.c 248-275), allocations succeeding. -/
def TSOrderedSet_create : TSOsData α :=
  { os := OrderedSet_create, lock := Pthread.recursiveMutex }

/-- tsos_lock (tsorderedset.c 60-64). -/
def tsos_lock (d : TSOsData α) : Option (TSOsData α) := do
  let l1 ← Pthread.pthread_mutex_lock d.lock
  some { os := d.os, lock := l1 }

/-- tsos_unlock (tsorderedset.c 66-70). -/
def tsos_unlock (d : TSOsData α) : TSOsData α :=
  { os := d.os, lock := Pthread.pthread_mutex_unlock d.lock }

/-- tsos_add (tsorderedset.c 72-80). -/
def tsos_add (cmp : α → α → Int) (mallocOk : Bool) (d : TSOsData α) (element : α) :
    Option (Int × TSOsData α × List TsEv) := do
  let t ← Traced.mutexLock { lock := d.lock, trace := [] }
  let t := t.called
  let result ← os_add cmp mallocOk d.os element
  let t := t.mutexUnlock
  some (result.1, { os := result.2, lock := t.lock }, t.trace)

/-- tsos_ceiling (tsorderedset.c 82-91). -/
def tsos_ceiling (cmp : α → α → Int) (d : TSOsData α) (element : α) :
    Option ((Int × Option α) × TSOsData α × List TsEv) := do
  let t ← Traced.mutexLock { lock := d.lock, trace := [] }
  let t := t.called
  let result := os_ceiling cmp d.os element
  let t := t.mutexUnlock
  some (result, { os := d.os, lock := t.lock }, t.trace)

/-- tsos_clear (tsorderedset.c 93-100): new state, destructor log, trace. -/
def tsos_clear (d : TSOsData α) (freeFxn : Bool) :
    Option (TSOsData α × List α × List TsEv) := do
  let t ← Traced.mutexLock { lock := d.lock, trace := [] }
  let t := t.called
  let result := os_clear d.os freeFxn
  let t := t.mutexUnlock
  some ({ os := result.1, lock := t.lock }, result.2,
    t.trace)

/-- tsos_contains (tsorderedset.c 102-110). -/
def tsos_contains (cmp : α → α → Int) (d : TSOsData α) (element : α) :
    Option (Int × TSOsData α × List TsEv) := do
  let t ← Traced.mutexLock { lock := d.lock, trace := [] }
  let t := t.called
  let result := os_contains cmp d.os element
  let t := t.mutexUnlock
  some (result, { os := d.os, lock := t.lock }, t.trace)

/-- tsos_first (tsorderedset.c 112-120). -/
def tsos_first (d : TSOsData α) : Option ((Int × Option α) × TSOsData α × List TsEv) := do
  let t ← Traced.mutexLock { lock := d.lock, trace := [] }
  let t := t.called
  let result := os_first d.os
  let t := t.mutexUnlock
  some (result, { os := d.os, lock := t.lock }, t.trace)

/-- tsos_floor (tsorderedset.c 122-130). -/
def tsos_floor (cmp : α → α → Int) (d : TSOsData α) (element : α) :
    Option ((Int × Option α) × TSOsData α × List TsEv) := do
  let t ← Traced.mutexLock { lock := d.lock, trace := [] }
  let t := t.called
  let result := os_floor cmp d.os element
  let t := t.mutexUnlock
  some (result, { os := d.os, lock := t.lock }, t.trace)

/-- tsos_higher (tsorderedset.c 132-140). -/
def tsos_higher (cmp : α → α → Int) (d : TSOsData α) (element : α) :
    Option ((Int × Option α) × TSOsData α × List TsEv) := do
  let t ← Traced.mutexLock { lock := d.lock, trace := [] }
  let t := t.called
  let result := os_higher cmp d.os element
  let t := t.mutexUnlock
  some (result, { os := d.os, lock := t.lock }, t.trace)

/-- tsos_isEmpty (tsorderedset.c 142-150). -/
def tsos_isEmpty (d : TSOsData α) : Option (Int × TSOsData α × List TsEv) := do
  let t ← Traced.mutexLock { lock := d.lock, trace := [] }
  let t := t.called
  let result := os_isEmpty d.os
  let t := t.mutexUnlock
  some (result, { os := d.os, lock := t.lock }, t.trace)

/-- tsos_last (tsorderedset.c 152-160). -/
def tsos_last (d : TSOsData α) : Option ((Int × Option α) × TSOsData α × List TsEv) := do
  let t ← Traced.mutexLock { lock := d.lock, trace := [] }
  let t := t.called
  let result := os_last d.os
  let t := t.mutexUnlock
  some (result, { os := d.os, lock := t.lock }, t.trace)

/-- tsos_lower (tsorderedset.c 162-170). -/
def tsos_lower (cmp : α → α → Int) (d : TSOsData α) (element : α) :
    Option ((Int × Option α) × TSOsData α × List TsEv) := do
  let t ← Traced.mutexLock { lock := d.lock, trace := [] }
  let t := t.called
  let result := os_lower cmp d.os element
  let t := t.mutexUnlock
  some (result, { os := d.os, lock := t.lock }, t.trace)

/-- tsos_pollFirst (tsorderedset.c 172-180). -/
def tsos_pollFirst (cmp : α → α → Int) (d : TSOsData α) :
    Option ((Int × Option α) × TSOsData α × List TsEv) := do
  let t ← Traced.mutexLock { lock := d.lock, trace := [] }
  let t := t.called
  let result ← os_pollFirst cmp d.os
  let t := t.mutexUnlock
  some ((result.1, result.2.1), { os := result.2.2, lock := t.lock }, t.trace)

/-- tsos_pollLast (tsorderedset.c 182-190). -/
def tsos_pollLast (cmp : α → α → Int) (d : TSOsData α) :
    Option ((Int × Option α) × TSOsData α × List TsEv) := do
  let t ← Traced.mutexLock { lock := d.lock, trace := [] }
  let t := t.called
  let result ← os_pollLast cmp d.os
  let t := t.mutexUnlock
  some ((result.1, result.2.1), { os := result.2.2, lock := t.lock }, t.trace)

/-- tsos_remove (tsorderedset.c 192-201): return value, destructor log, new
state, trace. -/
def tsos_remove (cmp : α → α → Int) (d : TSOsData α) (element : α) (freeFxn : Bool) :
    Option ((Int × List α) × TSOsData α × List TsEv) := do
  let t ← Traced.mutexLock { lock := d.lock, trace := [] }
  let t := t.called
  let result ← os_remove cmp d.os element freeFxn
  let t := t.mutexUnlock
  some ((result.1, result.2.2), { os := result.2.1, lock := t.lock }, t.trace)

/-- tsos_size (tsorderedset.c 203-211). -/
def tsos_size (d : TSOsData α) : Option (Int × TSOsData α × List TsEv) := do
  let t ← Traced.mutexLock { lock := d.lock, trace := [] }
  let t := t.called
  let result := os_size d.os
  let t := t.mutexUnlock
  some (result, { os := d.os, lock := t.lock }, t.trace)

/-- tsos_toArray (tsorderedset.c 213-221): the array and the value written
to *len, the new state, the trace. -/
def tsos_toArray (d : TSOsData α) (mallocOk : Bool) :
    Option ((Option (List (Option α)) × Option Int) × TSOsData α × List TsEv) := do
  let t ← Traced.mutexLock { lock := d.lock, trace := [] }
  let t := t.called
  let result ← os_toArray d.os mallocOk
  let t := t.mutexUnlock
  some (result, { os := d.os, lock := t.lock }, t.trace)

/-- tsos_itCreate (tsorderedset.c 223-239): the iterator (NULL is `none`) and
the new state; `mallocOk` is the allocation of the array, `itOk` the
allocations of TSIterator_create. -/
def tsos_itCreate (d : TSOsData α) (mallocOk itOk : Bool) :
    Option (Option (TSIterator.TSItData (Option α)) × TSOsData α) := do
  let l1 ← Pthread.pthread_mutex_lock d.lock
  let res ← os_toArray d.os mallocOk
  match res.1 with
  | none => some (none, { os := d.os, lock := Pthread.pthread_mutex_unlock l1 })
  | some tmp => do
    let len ← res.2
    match TSIterator.TSIterator_create len tmp itOk with
    | none => some (none, { os := d.os, lock := Pthread.pthread_mutex_unlock l1 })
    | some it => some (some it, { os := d.os, lock := l1 })

/-- A call of a function of the interface other than lock, unlock, itCreate
and destroy, with its arguments. -/
inductive Call (α : Type) where
  | add (element : α) : Call α
  | ceiling (element : α) : Call α
  | clear (freeFxn : Bool) : Call α
  | contains (element : α) : Call α
  | first : Call α
  | floor (element : α) : Call α
  | higher (element : α) : Call α
  | isEmpty : Call α
  | last : Call α
  | lower (element : α) : Call α
  | pollFirst : Call α
  | pollLast : Call α
  | remove (element : α) (freeFxn : Bool) : Call α
  | size : Call α
  | toArray : Call α

/-- The result of a function that returns a value and writes an element. -/
def Res.ofPair (p : Int × Option α) : Res α :=
  { ret := p.1, out := p.2, array := none, len := none, freed := [] }

/-- The result of a function that only returns a value. -/
def Res.ofInt (r : Int) : Res α :=
  { ret := r, out := none, array := none, len := none, freed := [] }

/-- The call made through the dispatch table of the OrderedSet: result and
new state. -/
def osCall (cmp : α → α → Int) (mallocOk : Bool) (osd : OsData α) :
    Call α → Option (Res α × OsData α)
  | .add e => (os_add cmp mallocOk osd e).map (fun r => (Res.ofInt r.1, r.2))
  | .ceiling e => some (Res.ofPair (os_ceiling cmp osd e), osd)
  | .clear uf =>
    some ({ ret := 0, out := none, array := none, len := none, freed := (os_clear osd uf).2 },
      (os_clear osd uf).1)
  | .contains e => some (Res.ofInt (os_contains cmp osd e), osd)
  | .first => some (Res.ofPair (os_first osd), osd)
  | .floor e => some (Res.ofPair (os_floor cmp osd e), osd)
  | .higher e => some (Res.ofPair (os_higher cmp osd e), osd)
  | .isEmpty => some (Res.ofInt (os_isEmpty osd), osd)
  | .last => some (Res.ofPair (os_last osd), osd)
  | .lower e => some (Res.ofPair (os_lower cmp osd e), osd)
  | .pollFirst => (os_pollFirst cmp osd).map (fun r => (Res.ofPair (r.1, r.2.1), r.2.2))
  | .pollLast => (os_pollLast cmp osd).map (fun r => (Res.ofPair (r.1, r.2.1), r.2.2))
  | .remove e uf =>
    (os_remove cmp osd e uf).map (fun r =>
      ({ ret := r.1, out := none, array := none, len := none, freed := r.2.2 }, r.2.1))
  | .size => some (Res.ofInt (os_size osd), osd)
  | .toArray =>
    (os_toArray osd mallocOk).map (fun r =>
      ({ ret := 0, out := none, array := r.1, len := r.2, freed := [] }, osd))

/-- The call made through the dispatch table of the TSOrderedSet: result,
new state and trace. -/
def tsosCall (cmp : α → α → Int) (mallocOk : Bool) (d : TSOsData α) :
    Call α → Option (Res α × TSOsData α × List TsEv)
  | .add e => (tsos_add cmp mallocOk d e).map (fun r => (Res.ofInt r.1, r.2))
  | .ceiling e => (tsos_ceiling cmp d e).map (fun r => (Res.ofPair r.1, r.2))
  | .clear uf =>
    (tsos_clear d uf).map (fun r =>
      ({ ret := 0, out := none, array := none, len := none, freed := r.2.1 }, r.1, r.2.2))
  | .contains e => (tsos_contains cmp d e).map (fun r => (Res.ofInt r.1, r.2))
  | .first => (tsos_first d).map (fun r => (Res.ofPair r.1, r.2))
  | .floor e => (tsos_floor cmp d e).map (fun r => (Res.ofPair r.1, r.2))
  | .higher e => (tsos_higher cmp d e).map (fun r => (Res.ofPair r.1, r.2))
  | .isEmpty => (tsos_isEmpty d).map (fun r => (Res.ofInt r.1, r.2))
  | .last => (tsos_last d).map (fun r => (Res.ofPair r.1, r.2))
  | .lower e => (tsos_lower cmp d e).map (fun r => (Res.ofPair r.1, r.2))
  | .pollFirst => (tsos_pollFirst cmp d).map (fun r => (Res.ofPair r.1, r.2))
  | .pollLast => (tsos_pollLast cmp d).map (fun r => (Res.ofPair r.1, r.2))
  | .remove e uf =>
    (tsos_remove cmp d e uf).map (fun r =>
      ({ ret := r.1.1, out := none, array := none, len := none, freed := r.1.2 }, r.2))
  | .size => (tsos_size d).map (fun r => (Res.ofInt r.1, r.2))
  | .toArray =>
    (tsos_toArray d mallocOk).map (fun r =>
      ({ ret := 0, out := none, array := r.1.1, len := r.1.2, freed := [] }, r.2))

/-- The wrapper made by TSOrderedSet_create, then lock, then add(1). -/
def tsSet1 : TSOsData Int :=
  { os := { size := 1, root := .node .null 1 0 .null }, lock := { recursive := true, holds := 1 } }

/-! ## Insert and remove with the log of their rebalancing calls

The functions below are insert and remove with one more result: the elements
of the nodes on which insertBalance, respectively removeBalance, is called,
in call order (the deepest node first). -/

/-- The element of a node, as a list; NULL has none. -/
def TNode.elementList : TNode α → List α
  | .null => []
  | .node _ e _ _ => [e]

/-- The block `if (! *done) ...` of insert (orderedset.c 136-144) with the
log of the call of insertBalance. -/
def insertRetraceLog (root : TNode α) (dir : Bool) (done : Bool) :
    Option (TNode α × Bool × List α) :=
  if done = false then do
    let b ← root.bal
    let b1 : Int := b + (if dir = false then -1 else 1)
    let root ← root.setBal b1
    if b1 = 0 then
      some (root, true, [])
    else if Int.natAbs b1 > 1 then do
      let root1 ← insertBalance root dir
      some (root1, true, root.elementList)
    else
      some (root, done, [])
  else
    some (root, done, [])

/-- insert (orderedset.c 128-147) with the log of the calls of insertBalance. -/
def insertLog (cmp : α → α → Int) (mallocOk : Bool) :
    TNode α → α → Bool → Option (TNode α × Bool × List α)
  | .null, element, done => some (newNode mallocOk element, done, [])
  | .node l e b r, element, done => do
    let dir : Bool := decide (cmp e element < 0)
    let res ← if dir then insertLog cmp mallocOk r element done
              else insertLog cmp mallocOk l element done
    let root : TNode α := if dir then .node l e b res.1 else .node res.1 e b r
    let out ← insertRetraceLog root dir res.2.1
    some (out.1, out.2.1, res.2.2 ++ out.2.2)

/-- The block `if (! *done) ...` of remove (orderedset.c 194-200) with the
log of the call of removeBalance. -/
def removeRetraceLog (root : TNode α) (dir : Bool) (done : Bool) :
    Option (TNode α × Bool × List α) :=
  if done = false then do
    let b ← root.bal
    let b1 : Int := b + (if dir != false then -1 else 1)
    let root ← root.setBal b1
    if Int.natAbs b1 = 1 then
      some (root, true, [])
    else if Int.natAbs b1 > 1 then do
      let out ← removeBalance root dir done
      some (out.1, out.2, root.elementList)
    else
      some (root, done, [])
  else
    some (root, done, [])

/-- remove (orderedset.c 168-203), the destructor being NULL, with the log of
the calls of removeBalance. -/
def removeLog (cmp : α → α → Int) :
    TNode α → α → Bool → Option (TNode α × Bool × List α)
  | .null, _, done => some (.null, done, [])
  | .node l e b r, element, done =>
    if cmp element e = 0 ∧ (l.isNull ∨ r.isNull) then
      let dir : Bool := l.isNull
      let save : TNode α := if dir then r else l
      some (save, done, [])
    else do
      let heir ← if cmp element e = 0 then heirElement l else some e
      let e1 : α := heir
      let element1 : α := if cmp element e = 0 then heir else element
      let dir : Bool := decide (cmp e1 element1 < 0)
      let res ← if dir then removeLog cmp r element1 done
                else removeLog cmp l element1 done
      let root : TNode α := if dir then .node l e1 b res.1 else .node res.1 e1 b r
      let out ← removeRetraceLog root dir res.2.1
      some (out.1, out.2.1, res.2.2 ++ out.2.2)

/-- A leaf holding `e`. -/
def leaf (e : α) : TNode α := .node .null e 0 .null

/-- The tree with root 2 and the leaves 1 and 3. -/
def tree213 : TNode Int := .node (leaf 1) 2 0 (leaf 3)

/-- The tree with root 5, left subtree `tree213` and right leaf 6. -/
def tree5 : TNode Int := .node tree213 5 (-1) (leaf 6)

/-- A valid tree of twelve nodes, the one built by adding 5, 2, 8, 1, 3, 6,
10, 4, 7, 9, 11, 12 in this order: every node but the leaves 1 and 9 leans
to the right. -/
def tree12 : TNode Int :=
  .node (.node (leaf 1) 2 1 (.node .null 3 1 (leaf 4))) 5 1
    (.node (.node .null 6 1 (leaf 7)) 8 1
      (.node (leaf 9) 10 1 (.node .null 11 1 (leaf 12))))

/-! ## Lemmas on the rotations and the rebalancing steps -/

theorem singleRotate_false (l : TNode α) (e : α) (b : Int) (rl : TNode α) (re : α) (rb : Int)
    (rr : TNode α) :
    singleRotate (.node l e b (.node rl re rb rr)) false
      = some (.node (.node l e b rl) re rb rr) := rfl

theorem singleRotate_true (ll : TNode α) (le : α) (lb : Int) (lr : TNode α) (e : α) (b : Int)
    (r : TNode α) :
    singleRotate (.node (.node ll le lb lr) e b r) true
      = some (.node ll le lb (.node lr e b r)) := rfl

theorem doubleRotate_false (l : TNode α) (e : α) (b : Int) (a : TNode α) (x : α) (xb : Int)
    (c : TNode α) (re : α) (rb : Int) (rr : TNode α) :
    doubleRotate (.node l e b (.node (.node a x xb c) re rb rr)) false
      = some (.node (.node l e b a) x xb (.node c re rb rr)) := rfl

theorem doubleRotate_true (ll : TNode α) (le : α) (lb : Int) (a : TNode α) (x : α) (xb : Int)
    (c : TNode α) (e : α) (b : Int) (r : TNode α) :
    doubleRotate (.node (.node ll le lb (.node a x xb c)) e b r) true
      = some (.node (.node ll le lb a) x xb (.node c e b r)) := rfl

theorem adjustBalance_true (l : TNode α) (e : α) (b : Int) (a : TNode α) (x : α) (xb : Int)
    (c : TNode α) (re : α) (rb : Int) (rr : TNode α) (bal : Int) :
    adjustBalance (.node l e b (.node (.node a x xb c) re rb rr)) true bal
      = some (.node l e (if xb = 0 then 0 else if xb = bal then -bal else 0)
          (.node (.node a x 0 c) re (if xb = 0 then 0 else if xb = bal then 0 else bal) rr)) := rfl

theorem adjustBalance_false (ll : TNode α) (le : α) (lb : Int) (a : TNode α) (x : α) (xb : Int)
    (c : TNode α) (e : α) (b : Int) (r : TNode α) (bal : Int) :
    adjustBalance (.node (.node ll le lb (.node a x xb c)) e b r) false bal
      = some (.node (.node ll le (if xb = 0 then 0 else if xb = bal then 0 else bal)
          (.node a x 0 c)) e (if xb = 0 then 0 else if xb = bal then -bal else 0) r) := rfl

theorem insertBalance_true_single (l : TNode α) (e : α) (b : Int) (rl : TNode α) (re : α)
    (rr : TNode α) :
    insertBalance (.node l e b (.node rl re 1 rr)) true
      = some (.node (.node l e 0 rl) re 0 rr) := rfl

theorem insertBalance_true_double (l : TNode α) (e : α) (b : Int) (a : TNode α) (x : α)
    (xb : Int) (c : TNode α) (re : α) (rr : TNode α) :
    insertBalance (.node l e b (.node (.node a x xb c) re (-1) rr)) true
      = some (.node (.node l e (if xb = 0 then 0 else if xb = 1 then -1 else 0) a) x 0
          (.node c re (if xb = 0 then 0 else if xb = 1 then 0 else 1) rr)) := rfl

theorem insertBalance_false_single (ll : TNode α) (le : α) (lr : TNode α) (e : α) (b : Int)
    (r : TNode α) :
    insertBalance (.node (.node ll le (-1) lr) e b r) false
      = some (.node ll le 0 (.node lr e 0 r)) := rfl

theorem insertBalance_false_double (ll : TNode α) (le : α) (a : TNode α) (x : α)
    (xb : Int) (c : TNode α) (e : α) (b : Int) (r : TNode α) :
    insertBalance (.node (.node ll le 1 (.node a x xb c)) e b r) false
      = some (.node (.node ll le (if xb = 0 then 0 else if xb = -1 then 0 else -1) a) x 0
          (.node c e (if xb = 0 then 0 else if xb = -1 then 1 else 0) r)) := rfl

theorem insertBalance_true_spec (l : TNode α) (e : α) (b : Int) (r : TNode α)
    (hl : AvlOK l) (hr : AvlOK r) (hh : height r = height l + 2) (hnz : BalNZ r) :
    ∃ t, insertBalance (.node l e b r) true = some t ∧ AvlOK t ∧
      populate t = populate l ++ e :: populate r ∧ height t = height l + 2 := by
  cases r with
  | null => simp [BalNZ] at hnz
  | node rl re rb rr =>
    obtain ⟨hrl, hrr, hrb, hrb1, hrb2⟩ := hr
    simp only [BalNZ] at hnz
    simp only [height] at hh hrb
    have hc : rb = 1 ∨ rb = -1 := by omega
    rcases hc with h | h
    · subst h
      refine ⟨_, insertBalance_true_single l e b rl re rr, ?_, ?_, ?_⟩
      · simp only [AvlOK, height]; refine ⟨⟨hl, hrl, ?_, ?_, ?_⟩, hrr, ?_, ?_, ?_⟩ <;> omega
      · simp [populate]
      · simp only [height]; omega
    · subst h
      cases rl with
      | null => simp only [height] at hrb; omega
      | node a x xb c =>
        obtain ⟨ha, hc, hxb, hxb1, hxb2⟩ := hrl
        simp only [height] at hh hrb
        refine ⟨_, insertBalance_true_double l e b a x xb c re rr, ?_, ?_, ?_⟩
        · simp only [AvlOK, height]
          refine ⟨⟨hl, ha, ?_, ?_, ?_⟩, ⟨hc, hrr, ?_, ?_, ?_⟩, ?_, ?_, ?_⟩ <;> (try split_ifs) <;> omega
        · simp [populate]
        · simp only [height]; omega

theorem insertBalance_false_spec (l : TNode α) (e : α) (b : Int) (r : TNode α)
    (hl : AvlOK l) (hr : AvlOK r) (hh : height l = height r + 2) (hnz : BalNZ l) :
    ∃ t, insertBalance (.node l e b r) false = some t ∧ AvlOK t ∧
      populate t = populate l ++ e :: populate r ∧ height t = height r + 2 := by
  cases l with
  | null => simp [BalNZ] at hnz
  | node ll le lb lr =>
    obtain ⟨hll, hlr, hlb, hlb1, hlb2⟩ := hl
    simp only [BalNZ] at hnz
    simp only [height] at hh hlb
    have hc : lb = -1 ∨ lb = 1 := by omega
    rcases hc with h | h
    · subst h
      refine ⟨_, insertBalance_false_single ll le lr e b r, ?_, ?_, ?_⟩
      · simp only [AvlOK, height]; refine ⟨hll, ⟨hlr, hr, ?_, ?_, ?_⟩, ?_, ?_, ?_⟩ <;> omega
      · simp [populate]
      · simp only [height]; omega
    · subst h
      cases lr with
      | null => simp only [height] at hlb; omega
      | node a x xb c =>
        obtain ⟨ha, hc, hxb, hxb1, hxb2⟩ := hlr
        simp only [height] at hh hlb
        refine ⟨_, insertBalance_false_double ll le a x xb c e b r, ?_, ?_, ?_⟩
        · simp only [AvlOK, height]
          refine ⟨⟨hll, ha, ?_, ?_, ?_⟩, ⟨hc, hr, ?_, ?_, ?_⟩, ?_, ?_, ?_⟩ <;>
            (try split_ifs) <;> omega
        · simp [populate]
        · simp only [height]; omega

theorem insertRetrace_true_spec (l : TNode α) (e : α) (b : Int) (r : TNode α)
    (hl : AvlOK l) (hr : AvlOK r)
    (hb : b = (height r : Int) - 1 - (height l : Int)) (hb1 : -1 ≤ b) (hb2 : b ≤ 1)
    (hg : height r = 1 ∨ BalNZ r) :
    ∃ t d, insertRetrace (.node l e b r) true false = some (t, d) ∧ AvlOK t ∧
      populate t = populate l ++ e :: populate r ∧
      (d = true → height t + 1 = 1 + max (height l + 1) (height r)) ∧
      (d = false → height t = 1 + max (height l + 1) (height r) ∧ BalNZ t) := by
  have hcases : b = -1 ∨ b = 0 ∨ b = 1 := by omega
  rcases hcases with h | h | h
  · subst h
    refine ⟨.node l e 0 r, true, by rfl, ?_, rfl, ?_, ?_⟩
    · simp only [AvlOK]; refine ⟨hl, hr, ?_, ?_, ?_⟩ <;> omega
    · intro _; simp only [height]; omega
    · intro h; cases h
  · subst h
    refine ⟨.node l e 1 r, false, by rfl, ?_, rfl, ?_, ?_⟩
    · simp only [AvlOK]; refine ⟨hl, hr, ?_, ?_, ?_⟩ <;> omega
    · intro h; cases h
    · intro _; simp only [height, BalNZ]; refine ⟨?_, ?_⟩ <;> omega
  · subst h
    have hh : height r = height l + 2 := by omega
    have hnz : BalNZ r := by
      rcases hg with hg | hg
      · omega
      · exact hg
    obtain ⟨t, ht, hA, hp, hht⟩ := insertBalance_true_spec l e (1 + 1) r hl hr hh hnz
    refine ⟨t, true, ?_, hA, hp, ?_, ?_⟩
    · show (insertBalance (.node l e (1 + 1) r) true).bind (fun root => some (root, true)) = _
      rw [ht]; rfl
    · intro _; omega
    · intro h; cases h

theorem insertRetrace_false_spec (l : TNode α) (e : α) (b : Int) (r : TNode α)
    (hl : AvlOK l) (hr : AvlOK r)
    (hb : b = (height r : Int) - ((height l : Int) - 1)) (hb1 : -1 ≤ b) (hb2 : b ≤ 1)
    (hg : height l = 1 ∨ BalNZ l) :
    ∃ t d, insertRetrace (.node l e b r) false false = some (t, d) ∧ AvlOK t ∧
      populate t = populate l ++ e :: populate r ∧
      (d = true → height t + 1 = 1 + max (height l) (height r + 1)) ∧
      (d = false → height t = 1 + max (height l) (height r + 1) ∧ BalNZ t) := by
  have hcases : b = -1 ∨ b = 0 ∨ b = 1 := by omega
  rcases hcases with h | h | h
  · subst h
    have hh : height l = height r + 2 := by omega
    have hnz : BalNZ l := by
      rcases hg with hg | hg
      · omega
      · exact hg
    obtain ⟨t, ht, hA, hp, hht⟩ := insertBalance_false_spec l e (-1 + -1) r hl hr hh hnz
    refine ⟨t, true, ?_, hA, hp, ?_, ?_⟩
    · show (insertBalance (.node l e (-1 + -1) r) false).bind (fun root => some (root, true)) = _
      rw [ht]; rfl
    · intro _; omega
    · intro h; cases h
  · subst h
    refine ⟨.node l e (-1) r, false, by rfl, ?_, rfl, ?_, ?_⟩
    · simp only [AvlOK]; refine ⟨hl, hr, ?_, ?_, ?_⟩ <;> omega
    · intro h; cases h
    · intro _; simp only [height, BalNZ]; refine ⟨?_, ?_⟩ <;> omega
  · subst h
    refine ⟨.node l e 0 r, true, by rfl, ?_, rfl, ?_, ?_⟩
    · simp only [AvlOK]; refine ⟨hl, hr, ?_, ?_, ?_⟩ <;> omega
    · intro _; simp only [height]; omega
    · intro h; cases h

theorem CmpLaw.refl {cmp : α → α → Int} (hc : CmpLaw cmp) (a : α) : cmp a a = 0 := by
  have h := hc.antisymm a a
  omega

theorem CmpLaw.symm {cmp : α → α → Int} (hc : CmpLaw cmp) {a b : α} (h : cmp a b = 0) :
    cmp b a = 0 := by
  have h1 := hc.antisymm a b
  have h2 := hc.antisymm b a
  omega

theorem CmpLaw.lt_of_lt_of_le {cmp : α → α → Int} (hc : CmpLaw cmp) {a b c : α}
    (h1 : cmp a b < 0) (h2 : cmp b c ≤ 0) : cmp a c < 0 := by
  by_contra hn
  have h3 : cmp c a ≤ 0 := by
    have := hc.antisymm a c
    omega
  have h4 := hc.trans b c a h2 h3
  have h5 := hc.antisymm a b
  omega

theorem CmpLaw.lt_of_le_of_lt {cmp : α → α → Int} (hc : CmpLaw cmp) {a b c : α}
    (h1 : cmp a b ≤ 0) (h2 : cmp b c < 0) : cmp a c < 0 := by
  by_contra hn
  have h3 : cmp c a ≤ 0 := by
    have := hc.antisymm a c
    omega
  have h4 := hc.trans c a b h3 h1
  have h5 := hc.antisymm b c
  omega

theorem CmpLaw.lt_trans {cmp : α → α → Int} (hc : CmpLaw cmp) {a b c : α}
    (h1 : cmp a b < 0) (h2 : cmp b c < 0) : cmp a c < 0 :=
  hc.lt_of_lt_of_le h1 (by omega)

theorem CmpLaw.gt_of_not {cmp : α → α → Int} (hc : CmpLaw cmp) {a b : α}
    (h1 : ¬ cmp a b < 0) (h2 : cmp b a ≠ 0) : cmp b a < 0 := by
  have h3 := hc.antisymm b a
  have h4 := hc.antisymm a b
  omega

theorem searchTree_node (cmp : α → α → Int) (l : TNode α) (e : α) (b : Int) (r : TNode α) :
    SearchTree cmp (.node l e b r) ↔
      SearchTree cmp l ∧ SearchTree cmp r ∧ (∀ a ∈ populate l, cmp a e < 0) ∧
      (∀ c ∈ populate r, cmp e c < 0) ∧ (∀ a ∈ populate l, ∀ c ∈ populate r, cmp a c < 0) := by
  simp only [SearchTree, populate, List.pairwise_append, List.pairwise_cons, List.mem_cons]
  constructor
  · rintro ⟨h1, ⟨h2, h3⟩, h4⟩
    exact ⟨h1, h3, fun a ha => h4 a ha e (Or.inl rfl), h2, fun a ha c hc => h4 a ha c (Or.inr hc)⟩
  · rintro ⟨h1, h2, h3, h4, h5⟩
    refine ⟨h1, ⟨h4, h2⟩, ?_⟩
    rintro a ha c (rfl | hc)
    · exact h3 a ha
    · exact h5 a ha c hc

theorem insert_node_true (cmp : α → α → Int) (m : Bool) (l : TNode α) (e : α) (b : Int)
    (r : TNode α) (x : α) (d : Bool) (h : cmp e x < 0) :
    insert cmp m (.node l e b r) x d
      = (insert cmp m r x d).bind (fun res => insertRetrace (.node l e b res.1) true res.2) := by
  simp [insert, h]

theorem insert_node_false (cmp : α → α → Int) (m : Bool) (l : TNode α) (e : α) (b : Int)
    (r : TNode α) (x : α) (d : Bool) (h : ¬ cmp e x < 0) :
    insert cmp m (.node l e b r) x d
      = (insert cmp m l x d).bind (fun res => insertRetrace (.node res.1 e b r) false res.2) := by
  simp [insert, h]

theorem insert_spec {cmp : α → α → Int} (hc : CmpLaw cmp) (x : α) (t : TNode α)
    (hA : AvlOK t) (hS : SearchTree cmp t) (hx : ∀ m ∈ populate t, cmp x m ≠ 0) :
    ∃ t1 d, insert cmp true t x false = some (t1, d) ∧ AvlOK t1 ∧
      (d = true → height t1 = height t) ∧
      (d = false → height t1 = height t + 1 ∧ (height t1 = 1 ∨ BalNZ t1)) ∧
      ∃ l1 l2, populate t = l1 ++ l2 ∧ populate t1 = l1 ++ x :: l2 ∧
        (∀ a ∈ l1, cmp a x < 0) ∧ (∀ c ∈ l2, cmp x c < 0) := by
  induction t with
  | null =>
    refine ⟨.node .null x 0 .null, false, rfl, ?_, ?_, ?_, [], [], rfl, rfl, ?_, ?_⟩
    · simp [AvlOK, height]
    · intro h; cases h
    · intro _; simp [height]
    · simp
    · simp
  | node l e b r ihl ihr =>
    obtain ⟨hAl, hAr, hb, hb1, hb2⟩ := hA
    obtain ⟨hSl, hSr, hle, her, hlr⟩ := (searchTree_node cmp l e b r).1 hS
    have hxe : cmp x e ≠ 0 := hx e (by simp [populate])
    by_cases hd : cmp e x < 0
    · obtain ⟨r1, d1, hins, hA1, hd1, hd0, l1, l2, hp, hp1, hl1, hl2⟩ :=
        ihr hAr hSr (fun m hm => hx m (by simp [populate, hm]))
      rw [insert_node_true cmp true l e b r x false hd, hins]
      have hlist : ∃ k1 k2, populate (.node l e b r) = k1 ++ k2 ∧
          populate l ++ e :: populate r1 = k1 ++ x :: k2 ∧
          (∀ a ∈ k1, cmp a x < 0) ∧ (∀ c ∈ k2, cmp x c < 0) := by
        refine ⟨populate l ++ e :: l1, l2, ?_, ?_, ?_, hl2⟩
        · simp [populate, hp]
        · simp [hp1]
        · intro a ha
          simp only [List.mem_append, List.mem_cons] at ha
          rcases ha with ha | rfl | ha
          · exact hc.lt_trans (hle a ha) hd
          · exact hd
          · exact hl1 a ha
      cases d1 with
      | true =>
        have hh := hd1 rfl
        refine ⟨.node l e b r1, true, rfl, ?_, ?_, ?_, ?_⟩
        · exact ⟨hAl, hA1, by rw [hh]; exact hb, hb1, hb2⟩
        · intro _; simp only [height, hh]
        · intro h; cases h
        · simpa [populate] using hlist
      | false =>
        obtain ⟨hh, hg⟩ := hd0 rfl
        obtain ⟨t1, d, ht, hAt, hpt, hdt, hdf⟩ :=
          insertRetrace_true_spec l e b r1 hAl hA1 (by omega) hb1 hb2 hg
        refine ⟨t1, d, ht, hAt, ?_, ?_, ?_⟩
        · intro h; have := hdt h; simp only [height]; omega
        · intro h; obtain ⟨h1, h2⟩ := hdf h
          refine ⟨?_, Or.inr h2⟩
          simp only [height]; omega
        · rw [hpt]; exact hlist
    · have hd2 : cmp x e < 0 := hc.gt_of_not hd hxe
      obtain ⟨l0, d1, hins, hA1, hd1, hd0, l1, l2, hp, hp1, hl1, hl2⟩ :=
        ihl hAl hSl (fun m hm => hx m (by simp [populate, hm]))
      rw [insert_node_false cmp true l e b r x false hd, hins]
      have hlist : ∃ k1 k2, populate (.node l e b r) = k1 ++ k2 ∧
          populate l0 ++ e :: populate r = k1 ++ x :: k2 ∧
          (∀ a ∈ k1, cmp a x < 0) ∧ (∀ c ∈ k2, cmp x c < 0) := by
        refine ⟨l1, l2 ++ e :: populate r, ?_, ?_, hl1, ?_⟩
        · simp [populate, hp]
        · simp [hp1]
        · intro a ha
          simp only [List.mem_append, List.mem_cons] at ha
          rcases ha with ha | rfl | ha
          · exact hl2 a ha
          · exact hd2
          · exact hc.lt_trans hd2 (her a ha)
      cases d1 with
      | true =>
        have hh := hd1 rfl
        refine ⟨.node l0 e b r, true, rfl, ?_, ?_, ?_, ?_⟩
        · exact ⟨hA1, hAr, by rw [hh]; exact hb, hb1, hb2⟩
        · intro _; simp only [height, hh]
        · intro h; cases h
        · simpa [populate] using hlist
      | false =>
        obtain ⟨hh, hg⟩ := hd0 rfl
        obtain ⟨t1, d, ht, hAt, hpt, hdt, hdf⟩ :=
          insertRetrace_false_spec l0 e b r hA1 hAr (by omega) hb1 hb2 hg
        refine ⟨t1, d, ht, hAt, ?_, ?_, ?_⟩
        · intro h; have := hdt h; simp only [height]; omega
        · intro h; obtain ⟨h1, h2⟩ := hdf h
          refine ⟨?_, Or.inr h2⟩
          simp only [height]; omega
        · rw [hpt]; exact hlist

theorem removeBalance_false_single (l : TNode α) (e : α) (b : Int) (rl : TNode α) (re : α)
    (rr : TNode α) (d : Bool) :
    removeBalance (.node l e b (.node rl re 1 rr)) false d
      = some (.node (.node l e 0 rl) re 0 rr, d) := rfl

theorem removeBalance_false_double (l : TNode α) (e : α) (b : Int) (a : TNode α) (x : α)
    (xb : Int) (c : TNode α) (re : α) (rr : TNode α) (d : Bool) :
    removeBalance (.node l e b (.node (.node a x xb c) re (-1) rr)) false d
      = some (.node (.node l e (if xb = 0 then 0 else if xb = 1 then -1 else 0) a) x 0
          (.node c re (if xb = 0 then 0 else if xb = 1 then 0 else 1) rr), d) := rfl

theorem removeBalance_false_even (l : TNode α) (e : α) (b : Int) (rl : TNode α) (re : α)
    (rr : TNode α) (d : Bool) :
    removeBalance (.node l e b (.node rl re 0 rr)) false d
      = some (.node (.node l e 1 rl) re (-1) rr, true) := rfl

theorem removeBalance_true_single (ll : TNode α) (le : α) (lr : TNode α) (e : α) (b : Int)
    (r : TNode α) (d : Bool) :
    removeBalance (.node (.node ll le (-1) lr) e b r) true d
      = some (.node ll le 0 (.node lr e 0 r), d) := rfl

theorem removeBalance_true_double (ll : TNode α) (le : α) (a : TNode α) (x : α)
    (xb : Int) (c : TNode α) (e : α) (b : Int) (r : TNode α) (d : Bool) :
    removeBalance (.node (.node ll le 1 (.node a x xb c)) e b r) true d
      = some (.node (.node ll le (if xb = 0 then 0 else if xb = -1 then 0 else -1) a) x 0
          (.node c e (if xb = 0 then 0 else if xb = -1 then 1 else 0) r), d) := rfl

theorem removeBalance_true_even (ll : TNode α) (le : α) (lr : TNode α) (e : α) (b : Int)
    (r : TNode α) (d : Bool) :
    removeBalance (.node (.node ll le 0 lr) e b r) true d
      = some (.node ll le 1 (.node lr e (-1) r), true) := rfl

theorem removeBalance_false_spec (l : TNode α) (e : α) (b : Int) (r : TNode α) (d : Bool)
    (hl : AvlOK l) (hr : AvlOK r) (hh : height r = height l + 2) :
    ∃ t d1, removeBalance (.node l e b r) false d = some (t, d1) ∧ AvlOK t ∧
      populate t = populate l ++ e :: populate r ∧
      ((d1 = d ∧ height t = height l + 2) ∨ (d1 = true ∧ height t = height l + 3)) := by
  cases r with
  | null => simp only [height] at hh; omega
  | node rl re rb rr =>
    obtain ⟨hrl, hrr, hrb, hrb1, hrb2⟩ := hr
    simp only [height] at hh hrb
    have hc : rb = 1 ∨ rb = 0 ∨ rb = -1 := by omega
    rcases hc with h | h | h
    · subst h
      refine ⟨_, _, removeBalance_false_single l e b rl re rr d, ?_, ?_, Or.inl ⟨rfl, ?_⟩⟩
      · simp only [AvlOK, height]; refine ⟨⟨hl, hrl, ?_, ?_, ?_⟩, hrr, ?_, ?_, ?_⟩ <;> omega
      · simp [populate]
      · simp only [height]; omega
    · subst h
      refine ⟨_, _, removeBalance_false_even l e b rl re rr d, ?_, ?_, Or.inr ⟨rfl, ?_⟩⟩
      · simp only [AvlOK, height]; refine ⟨⟨hl, hrl, ?_, ?_, ?_⟩, hrr, ?_, ?_, ?_⟩ <;> omega
      · simp [populate]
      · simp only [height]; omega
    · subst h
      cases rl with
      | null => simp only [height] at hrb; omega
      | node a x xb c =>
        obtain ⟨ha, hc, hxb, hxb1, hxb2⟩ := hrl
        simp only [height] at hh hrb
        refine ⟨_, _, removeBalance_false_double l e b a x xb c re rr d, ?_, ?_,
          Or.inl ⟨rfl, ?_⟩⟩
        · simp only [AvlOK, height]
          refine ⟨⟨hl, ha, ?_, ?_, ?_⟩, ⟨hc, hrr, ?_, ?_, ?_⟩, ?_, ?_, ?_⟩ <;>
            (try split_ifs) <;> omega
        · simp [populate]
        · simp only [height]; omega

theorem removeBalance_true_spec (l : TNode α) (e : α) (b : Int) (r : TNode α) (d : Bool)
    (hl : AvlOK l) (hr : AvlOK r) (hh : height l = height r + 2) :
    ∃ t d1, removeBalance (.node l e b r) true d = some (t, d1) ∧ AvlOK t ∧
      populate t = populate l ++ e :: populate r ∧
      ((d1 = d ∧ height t = height r + 2) ∨ (d1 = true ∧ height t = height r + 3)) := by
  cases l with
  | null => simp only [height] at hh; omega
  | node ll le lb lr =>
    obtain ⟨hll, hlr, hlb, hlb1, hlb2⟩ := hl
    simp only [height] at hh hlb
    have hc : lb = -1 ∨ lb = 0 ∨ lb = 1 := by omega
    rcases hc with h | h | h
    · subst h
      refine ⟨_, _, removeBalance_true_single ll le lr e b r d, ?_, ?_, Or.inl ⟨rfl, ?_⟩⟩
      · simp only [AvlOK, height]; refine ⟨hll, ⟨hlr, hr, ?_, ?_, ?_⟩, ?_, ?_, ?_⟩ <;> omega
      · simp [populate]
      · simp only [height]; omega
    · subst h
      refine ⟨_, _, removeBalance_true_even ll le lr e b r d, ?_, ?_, Or.inr ⟨rfl, ?_⟩⟩
      · simp only [AvlOK, height]; refine ⟨hll, ⟨hlr, hr, ?_, ?_, ?_⟩, ?_, ?_, ?_⟩ <;> omega
      · simp [populate]
      · simp only [height]; omega
    · subst h
      cases lr with
      | null => simp only [height] at hlb; omega
      | node a x xb c =>
        obtain ⟨ha, hc, hxb, hxb1, hxb2⟩ := hlr
        simp only [height] at hh hlb
        refine ⟨_, _, removeBalance_true_double ll le a x xb c e b r d, ?_, ?_,
          Or.inl ⟨rfl, ?_⟩⟩
        · simp only [AvlOK, height]
          refine ⟨⟨hll, ha, ?_, ?_, ?_⟩, ⟨hc, hr, ?_, ?_, ?_⟩, ?_, ?_, ?_⟩ <;>
            (try split_ifs) <;> omega
        · simp [populate]
        · simp only [height]; omega

theorem removeRetrace_done (root : TNode α) (dir : Bool) :
    removeRetrace root dir true = some (root, true) := rfl

/-- Retrace after the left subtree lost one level. -/
theorem removeRetrace_false_spec (l : TNode α) (e : α) (b : Int) (r : TNode α)
    (hl : AvlOK l) (hr : AvlOK r)
    (hb : b = (height r : Int) - ((height l : Int) + 1)) (hb1 : -1 ≤ b) (hb2 : b ≤ 1) :
    ∃ t d, removeRetrace (.node l e b r) false false = some (t, d) ∧ AvlOK t ∧
      populate t = populate l ++ e :: populate r ∧
      (d = true → height t = 1 + max (height l + 1) (height r)) ∧
      (d = false → height t + 1 = 1 + max (height l + 1) (height r)) := by
  have hcases : b = -1 ∨ b = 0 ∨ b = 1 := by omega
  rcases hcases with h | h | h
  · subst h
    refine ⟨.node l e 0 r, false, by rfl, ?_, rfl, ?_, ?_⟩
    · simp only [AvlOK]; refine ⟨hl, hr, ?_, ?_, ?_⟩ <;> omega
    · intro h; cases h
    · intro _; simp only [height]; omega
  · subst h
    refine ⟨.node l e 1 r, true, by rfl, ?_, rfl, ?_, ?_⟩
    · simp only [AvlOK]; refine ⟨hl, hr, ?_, ?_, ?_⟩ <;> omega
    · intro _; simp only [height]; omega
    · intro h; cases h
  · subst h
    have hh : height r = height l + 2 := by omega
    obtain ⟨t, d, ht, hA, hp, hht⟩ := removeBalance_false_spec l e (1 + 1) r false hl hr hh
    refine ⟨t, d, ?_, hA, hp, ?_, ?_⟩
    · show removeBalance (.node l e (1 + 1) r) false false = _
      exact ht
    · intro h; rcases hht with ⟨h1, _⟩ | ⟨_, h2⟩
      · rw [h1] at h; cases h
      · omega
    · intro h; rcases hht with ⟨_, h2⟩ | ⟨h1, _⟩
      · omega
      · rw [h1] at h; cases h

/-- Retrace after the right subtree lost one level. -/
theorem removeRetrace_true_spec (l : TNode α) (e : α) (b : Int) (r : TNode α)
    (hl : AvlOK l) (hr : AvlOK r)
    (hb : b = (height r : Int) + 1 - (height l : Int)) (hb1 : -1 ≤ b) (hb2 : b ≤ 1) :
    ∃ t d, removeRetrace (.node l e b r) true false = some (t, d) ∧ AvlOK t ∧
      populate t = populate l ++ e :: populate r ∧
      (d = true → height t = 1 + max (height l) (height r + 1)) ∧
      (d = false → height t + 1 = 1 + max (height l) (height r + 1)) := by
  have hcases : b = -1 ∨ b = 0 ∨ b = 1 := by omega
  rcases hcases with h | h | h
  · subst h
    have hh : height l = height r + 2 := by omega
    obtain ⟨t, d, ht, hA, hp, hht⟩ := removeBalance_true_spec l e (-1 + -1) r false hl hr hh
    refine ⟨t, d, ?_, hA, hp, ?_, ?_⟩
    · show removeBalance (.node l e (-1 + -1) r) true false = _
      exact ht
    · intro h; rcases hht with ⟨h1, _⟩ | ⟨_, h2⟩
      · rw [h1] at h; cases h
      · omega
    · intro h; rcases hht with ⟨_, h2⟩ | ⟨h1, _⟩
      · omega
      · rw [h1] at h; cases h
  · subst h
    refine ⟨.node l e (-1) r, true, by rfl, ?_, rfl, ?_, ?_⟩
    · simp only [AvlOK]; refine ⟨hl, hr, ?_, ?_, ?_⟩ <;> omega
    · intro _; simp only [height]; omega
    · intro h; cases h
  · subst h
    refine ⟨.node l e 0 r, false, by rfl, ?_, rfl, ?_, ?_⟩
    · simp only [AvlOK]; refine ⟨hl, hr, ?_, ?_, ?_⟩ <;> omega
    · intro h; cases h
    · intro _; simp only [height]; omega

/-! ## Lemmas on remove -/

theorem isNull_iff (t : TNode α) : t.isNull = true ↔ t = .null := by
  cases t <;> simp [TNode.isNull]

theorem remove_node_splice (cmp : α → α → Int) (uf : Bool) (l : TNode α) (e : α) (b : Int)
    (r : TNode α) (x : α) (d : Bool) (h : cmp x e = 0) (hn : l.isNull = true ∨ r.isNull = true) :
    remove cmp uf (.node l e b r) x d
      = some (if l.isNull then r else l, d, if uf then [e] else []) := by
  simp [remove, h, hn]

theorem remove_node_heir (cmp : α → α → Int) (uf : Bool) (l : TNode α) (e : α) (b : Int)
    (r : TNode α) (x : α) (d : Bool) (h : cmp x e = 0) (hl : l.isNull = false)
    (hr : r.isNull = false) (y : α) (hy : heirElement l = some y) (hyy : ¬ cmp y y < 0) :
    remove cmp uf (.node l e b r) x d
      = (remove cmp uf l y d).bind (fun res =>
          (removeRetrace (.node res.1 y b r) false res.2.1).bind (fun out =>
            some (out.1, out.2, res.2.2))) := by
  simp [remove, h, hl, hr, hy, hyy]

theorem remove_node_true (cmp : α → α → Int) (uf : Bool) (l : TNode α) (e : α) (b : Int)
    (r : TNode α) (x : α) (d : Bool) (h : cmp x e ≠ 0) (hd : cmp e x < 0) :
    remove cmp uf (.node l e b r) x d
      = (remove cmp uf r x d).bind (fun res =>
          (removeRetrace (.node l e b res.1) true res.2.1).bind (fun out =>
            some (out.1, out.2, res.2.2))) := by
  simp [remove, h, hd]

theorem remove_node_false (cmp : α → α → Int) (uf : Bool) (l : TNode α) (e : α) (b : Int)
    (r : TNode α) (x : α) (d : Bool) (h : cmp x e ≠ 0) (hd : ¬ cmp e x < 0) :
    remove cmp uf (.node l e b r) x d
      = (remove cmp uf l x d).bind (fun res =>
          (removeRetrace (.node res.1 e b r) false res.2.1).bind (fun out =>
            some (out.1, out.2, res.2.2))) := by
  simp [remove, h, hd]

theorem heirElement_spec (t : TNode α) (h : t.isNull = false) :
    ∃ y init, heirElement t = some y ∧ populate t = init ++ [y] := by
  induction t with
  | null => simp [TNode.isNull] at h
  | node l e b r _ ihr =>
    cases hr : r.isNull with
    | true =>
      have : r = .null := (isNull_iff r).1 hr
      subst this
      exact ⟨e, populate l, by simp [heirElement, TNode.isNull], by simp [populate]⟩
    | false =>
      obtain ⟨y, init, hy, hp⟩ := ihr hr
      refine ⟨y, populate l ++ e :: init, ?_, ?_⟩
      · simp [heirElement, hr, hy]
      · simp [populate, hp]

theorem filter_keep_lt {cmp : α → α → Int} (hc : CmpLaw cmp) (x : α) (L : List α)
    (h : ∀ y ∈ L, cmp y x < 0) : L.filter (fun y => decide (cmp x y ≠ 0)) = L := by
  rw [List.filter_eq_self]
  intro y hy
  have h1 := h y hy
  have h2 := hc.antisymm y x
  simp only [decide_eq_true_eq]
  omega

theorem filter_keep_gt {cmp : α → α → Int} (x : α) (L : List α)
    (h : ∀ y ∈ L, cmp x y < 0) : L.filter (fun y => decide (cmp x y ≠ 0)) = L := by
  rw [List.filter_eq_self]
  intro y hy
  have h1 := h y hy
  simp only [decide_eq_true_eq]
  omega

theorem remove_spec {cmp : α → α → Int} (hc : CmpLaw cmp) (uf : Bool) (t : TNode α) :
    ∀ (x : α), AvlOK t → SearchTree cmp t → (∃ m ∈ populate t, cmp x m = 0) →
    ∃ t1 d log, remove cmp uf t x false = some (t1, d, log) ∧ AvlOK t1 ∧
      populate t1 = (populate t).filter (fun y => decide (cmp x y ≠ 0)) ∧
      (d = true → height t1 = height t) ∧ (d = false → height t1 + 1 = height t) ∧
      log.length = (if uf then 1 else 0) := by
  induction t with
  | null => intro x _ _ hx; simp [populate] at hx
  | node l e b r ihl ihr =>
    intro x hA hS hx
    obtain ⟨hAl, hAr, hb, hb1, hb2⟩ := hA
    obtain ⟨hSl, hSr, hle, her, hlr⟩ := (searchTree_node cmp l e b r).1 hS
    by_cases hxe : cmp x e = 0
    · -- x is found at this node
      have hex : cmp e x = 0 := hc.symm hxe
      have hfl : (populate l).filter (fun y => decide (cmp x y ≠ 0)) = populate l :=
        filter_keep_lt hc x _ (fun y hy => hc.lt_of_lt_of_le (hle y hy) (by omega))
      have hfr : (populate r).filter (fun y => decide (cmp x y ≠ 0)) = populate r :=
        filter_keep_gt x _ (fun y hy => hc.lt_of_le_of_lt (by omega) (her y hy))
      have hfil : (populate (.node l e b r)).filter (fun y => decide (cmp x y ≠ 0))
          = populate l ++ populate r := by
        simp only [populate, List.filter_append, List.filter_cons, hfl, hfr]
        simp [hxe]
      by_cases hn : l.isNull = true ∨ r.isNull = true
      · rw [remove_node_splice cmp uf l e b r x false hxe hn, hfil]
        refine ⟨_, _, _, rfl, ?_, ?_, ?_, ?_, ?_⟩
        · split_ifs <;> assumption
        · rcases hn with h | h
          · have := (isNull_iff l).1 h; subst this; simp [populate, TNode.isNull]
          · have := (isNull_iff r).1 h; subst this
            cases l <;> simp [populate, TNode.isNull]
        · intro h; cases h
        · intro _
          rcases hn with h | h
          · have := (isNull_iff l).1 h; subst this
            simp only [TNode.isNull, if_true, height]; omega
          · have := (isNull_iff r).1 h; subst this
            cases l with
            | null => simp only [TNode.isNull, if_true, height]; omega
            | node _ _ _ _ => simp [TNode.isNull, height]; omega
        · cases uf <;> simp
      · have hl : l.isNull = false := by
          cases h : l.isNull
          · rfl
          · exact absurd (Or.inl h) hn
        have hr : r.isNull = false := by
          cases h : r.isNull
          · rfl
          · exact absurd (Or.inr h) hn
        obtain ⟨y, init, hy, hpl⟩ := heirElement_spec l hl
        have hyy : ¬ cmp y y < 0 := by have := hc.refl y; omega
        have hyl : y ∈ populate l := by simp [hpl]
        obtain ⟨l1, d1, log, hrem, hA1, hp1, hd1, hd0, hlog⟩ :=
          ihl y hAl hSl ⟨y, hyl, hc.refl y⟩
        have hinit : ∀ a ∈ init, cmp a y < 0 := by
          have hS2 : (init ++ [y]).Pairwise (fun a c => cmp a c < 0) := by
            rw [← hpl]; exact hSl
          rw [List.pairwise_append] at hS2
          intro a ha
          exact hS2.2.2 a ha y (by simp)
        have hp1b : populate l1 = init := by
          rw [hp1, hpl, List.filter_append, filter_keep_lt hc y init hinit]
          simp [hc.refl y]
        rw [remove_node_heir cmp uf l e b r x false hxe hl hr y hy hyy, hrem, hfil]
        have hlist : populate l1 ++ y :: populate r = populate l ++ populate r := by
          rw [hp1b, hpl]; simp
        cases d1 with
        | true =>
          have hh := hd1 rfl
          refine ⟨.node l1 y b r, true, log, rfl, ?_, hlist, ?_, ?_, hlog⟩
          · exact ⟨hA1, hAr, by rw [hh]; exact hb, hb1, hb2⟩
          · intro _; simp only [height, hh]
          · intro h; cases h
        | false =>
          have hh := hd0 rfl
          obtain ⟨t1, d, ht, hAt, hpt, hdt, hdf⟩ :=
            removeRetrace_false_spec l1 y b r hA1 hAr (by omega) hb1 hb2
          refine ⟨t1, d, log, ?_, hAt, ?_, ?_, ?_, hlog⟩
          · show (removeRetrace (.node l1 y b r) false false).bind _ = _
            rw [ht]; rfl
          · rw [hpt]; exact hlist
          · intro h; have := hdt h; simp only [height]; omega
          · intro h; have := hdf h; simp only [height]; omega
    · obtain ⟨m, hm, hxm⟩ := hx
      have hmx : cmp m x = 0 := hc.symm hxm
      simp only [populate, List.mem_append, List.mem_cons] at hm
      by_cases hd : cmp e x < 0
      · have hmr : m ∈ populate r := by
          rcases hm with hm | rfl | hm
          · have := hc.lt_trans (hle m hm) hd; omega
          · exact absurd hxm hxe
          · exact hm
        obtain ⟨r1, d1, log, hrem, hA1, hp1, hd1, hd0, hlog⟩ := ihr x hAr hSr ⟨m, hmr, hxm⟩
        have hfl : (populate l).filter (fun y => decide (cmp x y ≠ 0)) = populate l :=
          filter_keep_lt hc x _ (fun y hy => hc.lt_trans (hle y hy) hd)
        have hlist : populate l ++ e :: populate r1
            = (populate (.node l e b r)).filter (fun y => decide (cmp x y ≠ 0)) := by
          simp only [populate, List.filter_append, List.filter_cons, hfl, hp1]
          simp [hxe]
        rw [remove_node_true cmp uf l e b r x false hxe hd, hrem]
        cases d1 with
        | true =>
          have hh := hd1 rfl
          refine ⟨.node l e b r1, true, log, rfl, ?_, hlist, ?_, ?_, hlog⟩
          · exact ⟨hAl, hA1, by rw [hh]; exact hb, hb1, hb2⟩
          · intro _; simp only [height, hh]
          · intro h; cases h
        | false =>
          have hh := hd0 rfl
          obtain ⟨t1, d, ht, hAt, hpt, hdt, hdf⟩ :=
            removeRetrace_true_spec l e b r1 hAl hA1 (by omega) hb1 hb2
          refine ⟨t1, d, log, ?_, hAt, ?_, ?_, ?_, hlog⟩
          · show (removeRetrace (.node l e b r1) true false).bind _ = _
            rw [ht]; rfl
          · rw [hpt]; exact hlist
          · intro h; have := hdt h; simp only [height]; omega
          · intro h; have := hdf h; simp only [height]; omega
      · have hd2 : cmp x e < 0 := hc.gt_of_not hd hxe
        have hml : m ∈ populate l := by
          rcases hm with hm | rfl | hm
          · exact hm
          · exact absurd hxm hxe
          · have := hc.lt_trans hd2 (her m hm); omega
        obtain ⟨l1, d1, log, hrem, hA1, hp1, hd1, hd0, hlog⟩ := ihl x hAl hSl ⟨m, hml, hxm⟩
        have hfr : (populate r).filter (fun y => decide (cmp x y ≠ 0)) = populate r :=
          filter_keep_gt x _ (fun y hy => hc.lt_trans hd2 (her y hy))
        have hlist : populate l1 ++ e :: populate r
            = (populate (.node l e b r)).filter (fun y => decide (cmp x y ≠ 0)) := by
          simp only [populate, List.filter_append, List.filter_cons, hfr, hp1]
          simp [hxe]
        rw [remove_node_false cmp uf l e b r x false hxe hd, hrem]
        cases d1 with
        | true =>
          have hh := hd1 rfl
          refine ⟨.node l1 e b r, true, log, rfl, ?_, hlist, ?_, ?_, hlog⟩
          · exact ⟨hA1, hAr, by rw [hh]; exact hb, hb1, hb2⟩
          · intro _; simp only [height, hh]
          · intro h; cases h
        | false =>
          have hh := hd0 rfl
          obtain ⟨t1, d, ht, hAt, hpt, hdt, hdf⟩ :=
            removeRetrace_false_spec l1 e b r hA1 hAr (by omega) hb1 hb2
          refine ⟨t1, d, log, ?_, hAt, ?_, ?_, ?_, hlog⟩
          · show (removeRetrace (.node l1 e b r) false false).bind _ = _
            rw [ht]; rfl
          · rw [hpt]; exact hlist
          · intro h; have := hdt h; simp only [height]; omega
          · intro h; have := hdf h; simp only [height]; omega

/-! ## Lemmas on the operations of the interface -/

theorem find_spec {cmp : α → α → Int} (hc : CmpLaw cmp) (x : α) (t : TNode α)
    (hS : SearchTree cmp t) :
    (find cmp x t).isNull = false ↔ ∃ m ∈ populate t, cmp x m = 0 := by
  induction t with
  | null => simp [find, TNode.isNull, populate]
  | node l e b r ihl ihr =>
    obtain ⟨hSl, hSr, hle, her, _⟩ := (searchTree_node cmp l e b r).1 hS
    by_cases h1 : cmp x e < 0
    · have hfind : find cmp x (.node l e b r) = find cmp x l := by simp [find, h1]
      rw [hfind, ihl hSl]
      constructor
      · rintro ⟨m, hm, hxm⟩
        exact ⟨m, by simp [populate, hm], hxm⟩
      · rintro ⟨m, hm, hxm⟩
        simp only [populate, List.mem_append, List.mem_cons] at hm
        rcases hm with hm | rfl | hm
        · exact ⟨m, hm, hxm⟩
        · omega
        · have := hc.lt_trans h1 (her m hm); omega
    · by_cases h2 : cmp x e > 0
      · have hfind : find cmp x (.node l e b r) = find cmp x r := by simp [find, h1, h2]
        have hex : cmp e x < 0 := (hc.antisymm e x).2 h2
        rw [hfind, ihr hSr]
        constructor
        · rintro ⟨m, hm, hxm⟩
          exact ⟨m, by simp [populate, hm], hxm⟩
        · rintro ⟨m, hm, hxm⟩
          simp only [populate, List.mem_append, List.mem_cons] at hm
          rcases hm with hm | rfl | hm
          · have h3 := hc.lt_trans (hle m hm) hex
            have h4 := hc.symm hxm
            omega
          · omega
          · exact ⟨m, hm, hxm⟩
      · have hfind : find cmp x (.node l e b r) = .node l e b r := by simp [find, h1, h2]
        rw [hfind]
        simp only [TNode.isNull, true_iff]
        exact ⟨e, by simp [populate], by omega⟩

theorem findMin_spec (t : TNode α) (h : t.isNull = false) :
    ∃ l e b r rest, findMin t = .node l e b r ∧ populate t = e :: rest := by
  induction t with
  | null => simp [TNode.isNull] at h
  | node l e b r ihl _ =>
    cases hl : l.isNull with
    | true =>
      have : l = .null := (isNull_iff l).1 hl
      subst this
      exact ⟨.null, e, b, r, populate r, by simp [findMin, TNode.isNull], by simp [populate]⟩
    | false =>
      obtain ⟨l1, e1, b1, r1, rest, hf, hp⟩ := ihl hl
      exact ⟨l1, e1, b1, r1, rest ++ e :: populate r, by simp [findMin, hl, hf],
        by simp [populate, hp]⟩

theorem findMax_spec (t : TNode α) (h : t.isNull = false) :
    ∃ l e b r init, findMax t = .node l e b r ∧ populate t = init ++ [e] := by
  induction t with
  | null => simp [TNode.isNull] at h
  | node l e b r _ ihr =>
    cases hr : r.isNull with
    | true =>
      have : r = .null := (isNull_iff r).1 hr
      subst this
      exact ⟨l, e, b, .null, populate l, by simp [findMax, TNode.isNull], by simp [populate]⟩
    | false =>
      obtain ⟨l1, e1, b1, r1, init, hf, hp⟩ := ihr hr
      exact ⟨l1, e1, b1, r1, populate l ++ e :: init, by simp [findMax, hr, hf],
        by simp [populate, hp]⟩

theorem count_eq_length (t : TNode α) : count t = (populate t).length := by
  induction t with
  | null => rfl
  | node l e b r ihl ihr => simp [count, populate, ihl, ihr]; omega

theorem pairwise_insert {cmp : α → α → Int} (x : α) (l1 l2 : List α)
    (h : (l1 ++ l2).Pairwise (fun a c => cmp a c < 0))
    (h1 : ∀ a ∈ l1, cmp a x < 0) (h2 : ∀ c ∈ l2, cmp x c < 0) :
    (l1 ++ x :: l2).Pairwise (fun a c => cmp a c < 0) := by
  rw [List.pairwise_append] at h ⊢
  refine ⟨h.1, List.pairwise_cons.2 ⟨h2, h.2.1⟩, ?_⟩
  intro a ha c hc
  rcases List.mem_cons.1 hc with rfl | hc
  · exact h1 a ha
  · exact h.2.2 a ha c hc

/-- In a strictly increasing list, deleting the comparator-equal elements
deletes one element at one position. -/
theorem filter_split {cmp : α → α → Int} (hc : CmpLaw cmp) (x m : α) (L : List α)
    (hS : L.Pairwise (fun a c => cmp a c < 0)) (hm : m ∈ L) (hxm : cmp x m = 0) :
    ∃ l1 l2, L = l1 ++ m :: l2 ∧ L.filter (fun y => decide (cmp x y ≠ 0)) = l1 ++ l2 := by
  obtain ⟨l1, l2, rfl⟩ := List.append_of_mem hm
  refine ⟨l1, l2, rfl, ?_⟩
  rw [List.pairwise_append, List.pairwise_cons] at hS
  have hmx := hc.symm hxm
  have hf1 : l1.filter (fun y => decide (cmp x y ≠ 0)) = l1 :=
    filter_keep_lt hc x l1 (fun y hy =>
      hc.lt_of_lt_of_le (hS.2.2 y hy m (by simp)) (by omega))
  have hf2 : l2.filter (fun y => decide (cmp x y ≠ 0)) = l2 :=
    filter_keep_gt x l2 (fun y hy => hc.lt_of_le_of_lt (by omega) (hS.2.1.1 y hy))
  simp only [List.filter_append, List.filter_cons, hf1, hf2]
  simp [hxm]

theorem valid_null (cmp : α → α → Int) : Valid cmp (.null : TNode α) :=
  ⟨List.Pairwise.nil, trivial⟩

theorem find_absent {cmp : α → α → Int} (hc : CmpLaw cmp) (x : α) (t : TNode α)
    (hS : SearchTree cmp t) (hx : ∀ m ∈ populate t, cmp x m ≠ 0) :
    (find cmp x t).isNull = true := by
  cases h : (find cmp x t).isNull with
  | true => rfl
  | false =>
    obtain ⟨m, hm, hxm⟩ := (find_spec hc x t hS).1 h
    exact absurd hxm (hx m hm)

theorem os_add_spec {cmp : α → α → Int} (hc : CmpLaw cmp) (s : OsData α) (x : α)
    (hv : Valid cmp s.root) (hx : ∀ m ∈ populate s.root, cmp x m ≠ 0) :
    ∃ t1, os_add cmp true s x = some (1, { size := s.size + 1, root := t1 }) ∧ Valid cmp t1 ∧
      ∃ l1 l2, populate s.root = l1 ++ l2 ∧ populate t1 = l1 ++ x :: l2 ∧
        (∀ a ∈ l1, cmp a x < 0) ∧ (∀ c ∈ l2, cmp x c < 0) := by
  obtain ⟨t1, d, hins, hA, _, _, l1, l2, hp, hp1, hl1, hl2⟩ := insert_spec hc x s.root hv.2 hv.1 hx
  refine ⟨t1, ?_, ⟨?_, hA⟩, l1, l2, hp, hp1, hl1, hl2⟩
  · simp [os_add, find_absent hc x s.root hv.1 hx, hins]
  · show (populate t1).Pairwise _
    rw [hp1]
    exact pairwise_insert x l1 l2 (by rw [← hp]; exact hv.1) hl1 hl2

theorem os_add_present {cmp : α → α → Int} (hc : CmpLaw cmp) (mallocOk : Bool) (s : OsData α)
    (x : α) (hS : SearchTree cmp s.root) (hx : ∃ m ∈ populate s.root, cmp x m = 0) :
    os_add cmp mallocOk s x = some (0, s) := by
  simp [os_add, (find_spec hc x s.root hS).2 hx]

theorem os_remove_spec {cmp : α → α → Int} (hc : CmpLaw cmp) (s : OsData α) (x : α) (uf : Bool)
    (hv : Valid cmp s.root) (hx : ∃ m ∈ populate s.root, cmp x m = 0) :
    ∃ t1 log, os_remove cmp s x uf = some (1, { size := s.size - 1, root := t1 }, log) ∧
      Valid cmp t1 ∧ populate t1 = (populate s.root).filter (fun y => decide (cmp x y ≠ 0)) ∧
      log.length = (if uf then 1 else 0) := by
  obtain ⟨t1, d, log, hrem, hA, hp, _, _, hlog⟩ := remove_spec hc uf s.root x hv.2 hv.1 hx
  refine ⟨t1, log, ?_, ⟨?_, hA⟩, hp, hlog⟩
  · simp [os_remove, (find_spec hc x s.root hv.1).2 hx, hrem]
  · show (populate t1).Pairwise _
    rw [hp]
    exact List.Pairwise.filter _ hv.1

theorem os_remove_absent {cmp : α → α → Int} (hc : CmpLaw cmp) (s : OsData α) (x : α)
    (uf : Bool) (hS : SearchTree cmp s.root) (hx : ∀ m ∈ populate s.root, cmp x m ≠ 0) :
    os_remove cmp s x uf = some (0, s, []) := by
  simp [os_remove, find_absent hc x s.root hS hx]

theorem os_pollFirst_spec {cmp : α → α → Int} (hc : CmpLaw cmp) (s : OsData α)
    (hv : Valid cmp s.root) (hn : s.root.isNull = false) :
    ∃ e rest t1, populate s.root = e :: rest ∧ os_first s = (1, some e) ∧
      os_pollFirst cmp s = some (1, some e, { size := s.size, root := t1 }) ∧
      Valid cmp t1 ∧ populate t1 = rest := by
  obtain ⟨l, e, b, r, rest, hf, hp⟩ := findMin_spec s.root hn
  obtain ⟨t1, d, log, hrem, hA, hp1, _, _, _⟩ :=
    remove_spec hc false s.root e hv.2 hv.1 ⟨e, by simp [hp], hc.refl e⟩
  have hS : (e :: rest).Pairwise (fun a c => cmp a c < 0) := by rw [← hp]; exact hv.1
  have hrest : populate t1 = rest := by
    rw [hp1, hp, List.filter_cons, filter_keep_gt e rest (List.pairwise_cons.1 hS).1]
    simp [hc.refl e]
  refine ⟨e, rest, t1, hp, ?_, ?_, ⟨?_, hA⟩, hrest⟩
  · simp [os_first, hf]
  · simp [os_pollFirst, hf, hrem]
  · show (populate t1).Pairwise _
    rw [hrest]; exact (List.pairwise_cons.1 hS).2

theorem os_pollLast_spec {cmp : α → α → Int} (hc : CmpLaw cmp) (s : OsData α)
    (hv : Valid cmp s.root) (hn : s.root.isNull = false) :
    ∃ e init t1, populate s.root = init ++ [e] ∧ os_last s = (1, some e) ∧
      os_pollLast cmp s = some (1, some e, { size := s.size, root := t1 }) ∧
      Valid cmp t1 ∧ populate t1 = init := by
  obtain ⟨l, e, b, r, init, hf, hp⟩ := findMax_spec s.root hn
  obtain ⟨t1, d, log, hrem, hA, hp1, _, _, _⟩ :=
    remove_spec hc false s.root e hv.2 hv.1 ⟨e, by simp [hp], hc.refl e⟩
  have hS : (init ++ [e]).Pairwise (fun a c => cmp a c < 0) := by rw [← hp]; exact hv.1
  rw [List.pairwise_append] at hS
  have hinit : populate t1 = init := by
    rw [hp1, hp, List.filter_append,
      filter_keep_lt hc e init (fun y hy => hS.2.2 y hy e (by simp))]
    simp [hc.refl e]
  refine ⟨e, init, t1, hp, ?_, ?_, ⟨?_, hA⟩, hinit⟩
  · simp [os_last, hf]
  · simp [os_pollLast, hf, hrem]
  · show (populate t1).Pairwise _
    rw [hinit]; exact hS.1

theorem step_valid {cmp : α → α → Int} (hc : CmpLaw cmp) (s : OsData α) (op : Op α)
    (hv : Valid cmp s.root) : ∃ s1, step cmp s op = some s1 ∧ Valid cmp s1.root := by
  cases op with
  | add x =>
    by_cases hx : ∃ m ∈ populate s.root, cmp x m = 0
    · exact ⟨s, by simp [step, os_add_present hc true s x hv.1 hx], hv⟩
    · have hx2 : ∀ m ∈ populate s.root, cmp x m ≠ 0 := fun m hm h => hx ⟨m, hm, h⟩
      obtain ⟨t1, hadd, hv1, _⟩ := os_add_spec hc s x hv hx2
      exact ⟨{ size := s.size + 1, root := t1 }, by simp [step, hadd], hv1⟩
  | remove x uf =>
    by_cases hx : ∃ m ∈ populate s.root, cmp x m = 0
    · obtain ⟨t1, log, hrem, hv1, _⟩ := os_remove_spec hc s x uf hv hx
      exact ⟨{ size := s.size - 1, root := t1 }, by simp [step, hrem], hv1⟩
    · have hx2 : ∀ m ∈ populate s.root, cmp x m ≠ 0 := fun m hm h => hx ⟨m, hm, h⟩
      exact ⟨s, by simp [step, os_remove_absent hc s x uf hv.1 hx2], hv⟩
  | pollFirst =>
    cases hn : s.root.isNull with
    | true =>
      have h0 : s.root = .null := (isNull_iff _).1 hn
      exact ⟨s, by simp [step, os_pollFirst, h0, findMin], hv⟩
    | false =>
      obtain ⟨e, rest, t1, _, _, hpoll, hv1, _⟩ := os_pollFirst_spec hc s hv hn
      exact ⟨{ size := s.size, root := t1 }, by simp [step, hpoll], hv1⟩
  | pollLast =>
    cases hn : s.root.isNull with
    | true =>
      have h0 : s.root = .null := (isNull_iff _).1 hn
      exact ⟨s, by simp [step, os_pollLast, h0, findMax], hv⟩
    | false =>
      obtain ⟨e, init, t1, _, _, hpoll, hv1, _⟩ := os_pollLast_spec hc s hv hn
      exact ⟨{ size := s.size, root := t1 }, by simp [step, hpoll], hv1⟩
  | clear uf => exact ⟨_, rfl, valid_null cmp⟩

theorem run_valid {cmp : α → α → Int} (hc : CmpLaw cmp) (ops : List (Op α)) :
    ∀ s : OsData α, Valid cmp s.root → ∃ s1, run cmp ops s = some s1 ∧ Valid cmp s1.root := by
  induction ops with
  | nil => intro s hv; exact ⟨s, rfl, hv⟩
  | cons op ops ih =>
    intro s hv
    obtain ⟨s1, hs1, hv1⟩ := step_valid hc s op hv
    obtain ⟨s2, hs2, hv2⟩ := ih s1 hv1
    exact ⟨s2, by simp [run, hs1, hs2], hv2⟩

theorem icmp_law : CmpLaw icmp :=
  ⟨fun a b => by unfold icmp; omega, fun a b c => by unfold icmp; omega⟩

/-! ## Lemmas on the loops and on insert with arbitrary balance fields -/

theorem populate_eq_nil (t : TNode α) (h : populate t = []) : t = .null := by
  cases t with
  | null => rfl
  | node l e b r => simp [populate] at h

theorem isNull_of_populate_cons (t : TNode α) (e : α) (rest : List α)
    (h : populate t = e :: rest) : t.isNull = false := by
  cases t with
  | null => simp [populate] at h
  | node l e b r => rfl

theorem firstRemoveLoop_spec {cmp : α → α → Int} (hc : CmpLaw cmp) (uf : Bool) (n : Nat) :
    ∀ s : OsData α, Valid cmp s.root → (populate s.root).length = n →
      firstRemoveLoop cmp uf n s
        = some (true, populate s.root, { size := s.size - n, root := .null }) := by
  induction n with
  | zero =>
    intro s hv hlen
    have h0 : s.root = .null := populate_eq_nil _ (List.length_eq_zero.1 hlen)
    cases s with
    | mk size root =>
      simp only at h0
      subst h0
      simp [firstRemoveLoop, populate]
  | succ n ih =>
    intro s hv hlen
    obtain ⟨e, rest, hp⟩ : ∃ e rest, populate s.root = e :: rest := by
      cases h : populate s.root with
      | nil => rw [h] at hlen; simp at hlen
      | cons e rest => exact ⟨e, rest, rfl⟩
    have hn := isNull_of_populate_cons _ e rest hp
    obtain ⟨e1, rest1, _, hp1, hfirst, _, _, _⟩ := os_pollFirst_spec hc s hv hn
    rw [hp] at hp1
    obtain ⟨rfl, rfl⟩ := List.cons_eq_cons.1 hp1
    obtain ⟨t1, log, hrem, hv1, hpt, _⟩ :=
      os_remove_spec hc s e uf hv ⟨e, by simp [hp], hc.refl e⟩
    have hS : (e :: rest).Pairwise (fun a c => cmp a c < 0) := by rw [← hp]; exact hv.1
    have hrest : populate t1 = rest := by
      rw [hpt, hp, List.filter_cons, filter_keep_gt e rest (List.pairwise_cons.1 hS).1]
      simp [hc.refl e]
    have hlen1 : (populate t1).length = n := by
      rw [hrest]; rw [hp] at hlen; simpa using hlen
    have hih := ih { size := s.size - 1, root := t1 } hv1 hlen1
    simp only [firstRemoveLoop, hfirst, hrem, Option.bind_eq_bind, Option.some_bind]
    simp only [hih, hrest, hp]
    simp
    omega

theorem pollFirstLoop_spec {cmp : α → α → Int} (hc : CmpLaw cmp) (n : Nat) :
    ∀ s : OsData α, Valid cmp s.root → (populate s.root).length = n →
      pollFirstLoop cmp n s
        = some ((populate s.root).map (fun e => ((1 : Int), some e)),
            { size := s.size, root := .null }) := by
  induction n with
  | zero =>
    intro s hv hlen
    have h0 : s.root = .null := populate_eq_nil _ (List.length_eq_zero.1 hlen)
    cases s with
    | mk size root =>
      simp only at h0
      subst h0
      simp [pollFirstLoop, populate]
  | succ n ih =>
    intro s hv hlen
    have hn : s.root.isNull = false := by
      cases h : s.root with
      | null => rw [h] at hlen; simp [populate] at hlen
      | node _ _ _ _ => rfl
    obtain ⟨e, rest, t1, hp, _, hpoll, hv1, hrest⟩ := os_pollFirst_spec hc s hv hn
    have hlen1 : (populate t1).length = n := by
      rw [hrest]; rw [hp] at hlen; simpa using hlen
    have hih := ih { size := s.size, root := t1 } hv1 hlen1
    simp only [pollFirstLoop, hpoll, Option.bind_eq_bind, Option.some_bind]
    simp only [hih, hrest, hp]
    simp

/-! ## Main results -/

/-- C2. For a comparator that is a consistent strict total order, after every
finite sequence of add, remove, pollFirst and pollLast calls (and clear) on an
initially empty set the in-order traversal of the tree is strictly increasing
under the comparator, so no two stored elements are comparator-equal. -/
theorem C2_inorder_strictly_increasing (cmp : α → α → Int) (hc : CmpLaw cmp)
    (ops : List (Op α)) :
    ∃ s, run cmp ops OrderedSet_create = some s ∧
      (populate s.root).Pairwise (fun a c => cmp a c < 0) := by
  obtain ⟨s, hs, hv⟩ := run_valid hc ops OrderedSet_create (valid_null cmp)
  exact ⟨s, hs, hv.1⟩

/-- Instance of C2: the integer comparator and a sequence with a duplicate add and both polls. -/
theorem C2_inorder_strictly_increasing_witness :
    CmpLaw icmp ∧
    ∃ s, run icmp [.add 5, .add 3, .add 8, .add 3, .pollFirst, .add 1, .remove 5 false,
        .pollLast] OrderedSet_create = some s ∧
      (populate s.root).Pairwise (fun a c => icmp a c < 0) :=
  ⟨icmp_law, C2_inorder_strictly_increasing icmp icmp_law _⟩

/-- C3 (the code departs from it). After add 1 and pollFirst on an empty set
the tree has no node but size() is still 1: os_pollFirst never decrements
the size field. -/
theorem C3_size_stale_after_pollFirst :
    (run icmp [.add 1, .pollFirst] OrderedSet_create).map
      (fun s => (os_size s, count s.root)) = some (1, 0) := by
  rfl

/-- C4 (the code departs from it). On the set built by add 2, add 1, add 3 the
member 2 sits in a node with two children; remove(2, destructor) calls the
destructor once, on the element 1, which is still stored in the set (now at
the root) after the call, and never on the removed element 2. -/
theorem C4_destructor_called_on_heir :
    (run icmp [.add 2, .add 1, .add 3] OrderedSet_create).bind
      (fun s => os_remove icmp s 2 true)
      = some (1, { size := 2, root := .node .null 1 1 (.node .null 3 0 .null) }, [1]) := by
  rfl

/-- C5. On a set whose tree is a valid AVL search tree: when x is
comparator-equal to a member m, remove(x) returns 1, the in-order sequence
loses exactly m (everything before and after it stays, in order) and the size
drops by 1; when no member is comparator-equal to x, remove(x) returns 0 and
the set is unchanged. When moreover the size field equals the number n of
elements, running first() and then remove of the yielded element n times
succeeds every time, yields the elements in increasing order and ends with
size 0 and an empty tree. -/
theorem C5_remove_deletes_member (cmp : α → α → Int) (hc : CmpLaw cmp) (s : OsData α)
    (hv : Valid cmp s.root) (uf : Bool) :
    (∀ x m, m ∈ populate s.root → cmp x m = 0 →
      ∃ s1 log l1 l2, os_remove cmp s x uf = some (1, s1, log) ∧
        populate s.root = l1 ++ m :: l2 ∧ populate s1.root = l1 ++ l2 ∧
        os_size s1 = os_size s - 1 ∧ Valid cmp s1.root) ∧
    (∀ x, (∀ m ∈ populate s.root, cmp x m ≠ 0) → os_remove cmp s x uf = some (0, s, [])) ∧
    (os_size s = (populate s.root).length →
      ∃ s1, firstRemoveLoop cmp uf (populate s.root).length s
          = some (true, populate s.root, s1) ∧
        (populate s.root).Pairwise (fun a c => cmp a c < 0) ∧
        os_size s1 = 0 ∧ s1.root = .null) := by
  refine ⟨?_, ?_, ?_⟩
  · intro x m hm hxm
    obtain ⟨t1, log, hrem, hv1, hp, _⟩ := os_remove_spec hc s x uf hv ⟨m, hm, hxm⟩
    obtain ⟨l1, l2, hs, hf⟩ := filter_split hc x m (populate s.root) hv.1 hm hxm
    exact ⟨{ size := s.size - 1, root := t1 }, log, l1, l2, hrem, hs, by rw [hp, hf], rfl, hv1⟩
  · intro x hx
    exact os_remove_absent hc s x uf hv.1 hx
  · intro hsize
    refine ⟨_, firstRemoveLoop_spec hc uf _ s hv rfl, hv.1, ?_, rfl⟩
    simp only [os_size] at hsize ⊢
    omega

/-- Instance of C5: removal of the root 2, a node with two children, from the set holding 1, 2, 3. -/
theorem C5_remove_deletes_member_witness :
    CmpLaw icmp ∧
    Valid icmp set123.root ∧
    (∃ s1 log l1 l2,
      os_remove icmp set123
        2 true = some (1, s1, log) ∧
      populate set123.root = l1 ++ 2 :: l2 ∧
      populate s1.root = l1 ++ l2 ∧ os_size s1 = 3 - 1 ∧ Valid icmp s1.root) :=
  have hv : Valid icmp set123.root := by
    simp [set123, Valid, SearchTree, populate, AvlOK, height, icmp]
  ⟨icmp_law, hv,
    (C5_remove_deletes_member icmp icmp_law
      set123
      hv true).1 2 2 (by simp [set123, populate]) (by simp [icmp])⟩

/-- C7. On a set whose tree is a search tree (as every set built through the
interface is), for x comparator-equal to a member, add(x) returns 0 and the
set is unchanged: same tree, same elements, same balance factors, same size;
this holds whether or not an allocation would succeed. -/
theorem C7_add_duplicate_rejected (cmp : α → α → Int) (hc : CmpLaw cmp) (s : OsData α)
    (hS : SearchTree cmp s.root) (x m : α) (hm : m ∈ populate s.root) (hxm : cmp x m = 0)
    (mallocOk : Bool) :
    os_add cmp mallocOk s x = some (0, s) :=
  os_add_present hc mallocOk s x hS ⟨m, hm, hxm⟩

/-- Instance of C7: adding 3 to the set holding 1, 2, 3. -/
theorem C7_add_duplicate_rejected_witness :
    CmpLaw icmp ∧
    SearchTree icmp set123.root ∧
    (3 : Int) ∈ populate set123.root ∧
    icmp 3 3 = 0 ∧
    os_add icmp true
        set123 3
      = some (0, set123) :=
  have hS : SearchTree icmp set123.root := by
    simp [set123, set12, SearchTree, populate, icmp]
  have hm : (3 : Int) ∈
      populate set123.root := by
    simp [set123, populate]
  ⟨icmp_law, hS, hm, by simp [icmp],
    C7_add_duplicate_rejected icmp icmp_law _ hS 3 3 hm (by simp [icmp]) true⟩

/-- C8 (the code departs from it). On the set built by add 7, pollFirst
returns 1 and empties the tree, yet size() is still 1 and isEmpty() returns 0:
os_pollFirst does not touch the size field. -/
theorem C8_pollFirst_leaves_size :
    ((run icmp [.add 7] OrderedSet_create).bind (fun s => os_pollFirst icmp s)).map
      (fun res => (res.1, res.2.1, os_size res.2.2, os_isEmpty res.2.2, count res.2.2.root))
      = some (1, some 7, 1, 0, 0) := by
  rfl

/-- C9. On a set whose tree is a valid AVL search tree and has a node,
pollFirst returns 1, yields the least element, the one first() yields, and
leaves the in-order sequence without its first element; pollLast returns 1,
yields the greatest element, the one last() yields, and leaves the sequence
without its last element. On a set without nodes both return 0 and change
nothing. Calling pollFirst as many times as there are elements returns 1 each
time and yields the elements in increasing order, leaving an empty tree. -/
theorem C9_poll_removes_extreme (cmp : α → α → Int) (hc : CmpLaw cmp) (s : OsData α)
    (hv : Valid cmp s.root) :
    (s.root ≠ .null →
      (∃ e rest s1, populate s.root = e :: rest ∧ (∀ y ∈ rest, cmp e y < 0) ∧
        os_first s = (1, some e) ∧ os_pollFirst cmp s = some (1, some e, s1) ∧
        populate s1.root = rest ∧ Valid cmp s1.root) ∧
      (∃ e init s1, populate s.root = init ++ [e] ∧ (∀ y ∈ init, cmp y e < 0) ∧
        os_last s = (1, some e) ∧ os_pollLast cmp s = some (1, some e, s1) ∧
        populate s1.root = init ∧ Valid cmp s1.root)) ∧
    (s.root = .null →
      os_pollFirst cmp s = some (0, none, s) ∧ os_pollLast cmp s = some (0, none, s)) ∧
    (∃ s1, pollFirstLoop cmp (populate s.root).length s
        = some ((populate s.root).map (fun e => ((1 : Int), some e)), s1) ∧
      (populate s.root).Pairwise (fun a c => cmp a c < 0) ∧ s1.root = .null) := by
  refine ⟨?_, ?_, ?_⟩
  · intro hne
    have hn : s.root.isNull = false := by
      cases h : s.root with
      | null => exact absurd h hne
      | node _ _ _ _ => rfl
    constructor
    · obtain ⟨e, rest, t1, hp, hfirst, hpoll, hv1, hrest⟩ := os_pollFirst_spec hc s hv hn
      have hS : (e :: rest).Pairwise (fun a c => cmp a c < 0) := by rw [← hp]; exact hv.1
      exact ⟨e, rest, _, hp, (List.pairwise_cons.1 hS).1, hfirst, hpoll, hrest, hv1⟩
    · obtain ⟨e, init, t1, hp, hlast, hpoll, hv1, hinit⟩ := os_pollLast_spec hc s hv hn
      have hS : (init ++ [e]).Pairwise (fun a c => cmp a c < 0) := by rw [← hp]; exact hv.1
      rw [List.pairwise_append] at hS
      exact ⟨e, init, _, hp, fun y hy => hS.2.2 y hy e (by simp), hlast, hpoll, hinit, hv1⟩
  · intro h0
    simp [os_pollFirst, os_pollLast, h0, findMin, findMax]
  · exact ⟨_, pollFirstLoop_spec hc _ s hv rfl, hv.1, rfl⟩

/-- Instance of C9: three calls of pollFirst on the set holding 1, 2, 3. -/
theorem C9_poll_removes_extreme_witness :
    CmpLaw icmp ∧
    Valid icmp set123.root ∧
    ∃ s1, pollFirstLoop icmp 3
        set123
        = some ([(1, some 1), (1, some 2), (1, some 3)], s1) ∧
      ([1, 2, 3] : List Int).Pairwise (fun a c => icmp a c < 0) ∧ s1.root = .null :=
  have hv : Valid icmp set123.root := by
    simp [set123, Valid, SearchTree, populate, AvlOK, height, icmp]
  ⟨icmp_law, hv,
    (C9_poll_removes_extreme icmp icmp_law
      set123 hv).2.2⟩

/-- C10 (the code departs from it). On the set built by add 5, add(7) with the
allocation of the node failing returns 1, raises the size to 2 and changes
the balance factor of the root to +1, while no node is added: insert does not
test the result of newNode. -/
theorem C10_add_when_malloc_fails :
    (run icmp [.add 5] OrderedSet_create).bind (fun s => os_add icmp false s 7)
      = some (1, { size := 2, root := .node .null 5 1 .null }) := by
  rfl


theorem postpurge_perm (t : TNode α) : (postpurge true t).Perm (populate t) := by
  induction t with
  | null => exact List.Perm.refl _
  | node l e b r ihl ihr =>
    simp only [postpurge, populate, if_true]
    have h1 : (postpurge true l ++ postpurge true r ++ [e]).Perm
        (populate l ++ (populate r ++ [e])) := by
      rw [List.append_assoc]
      exact List.Perm.append ihl (List.Perm.append_right _ ihr)
    refine h1.trans (List.Perm.append_left _ ?_)
    exact List.perm_append_singleton e (populate r)

theorem postpurge_false (t : TNode α) : postpurge false t = [] := by
  induction t with
  | null => rfl
  | node l e b r ihl ihr => simp [postpurge, ihl, ihr]

/-- C14. On a set whose tree is a search tree: when the tree has a node,
first() returns 1 and yields the first element of the in-order sequence, which
is smaller than every other member, and last() returns 1 and yields the last
one, which is greater than every other member; each returns 0, writing
nothing, exactly when the tree has no node. Both functions only read the set:
they return no new state. -/
theorem C14_first_last_extremes (cmp : α → α → Int) (s : OsData α)
    (hS : SearchTree cmp s.root) :
    (s.root ≠ .null →
      (∃ e rest, populate s.root = e :: rest ∧ os_first s = (1, some e) ∧
        ∀ y ∈ rest, cmp e y < 0) ∧
      (∃ e init, populate s.root = init ++ [e] ∧ os_last s = (1, some e) ∧
        ∀ y ∈ init, cmp y e < 0)) ∧
    (os_first s = (0, none) ↔ s.root = .null) ∧ ((os_first s).1 = 0 ↔ s.root = .null) ∧
    (os_last s = (0, none) ↔ s.root = .null) ∧ ((os_last s).1 = 0 ↔ s.root = .null) ∧
    (s.root = .null ↔ populate s.root = []) := by
  have hnull : s.root = .null ↔ populate s.root = [] := by
    constructor
    · intro h; rw [h]; rfl
    · exact populate_eq_nil _
  by_cases h0 : s.root = .null
  · refine ⟨fun h => absurd h0 h, ?_, ?_, ?_, ?_, hnull⟩ <;>
      simp [os_first, os_last, h0, findMin, findMax]
  · have hn : s.root.isNull = false := by
      cases h : s.root with
      | null => exact absurd h h0
      | node _ _ _ _ => rfl
    obtain ⟨l1, e1, b1, r1, rest, hf1, hp1⟩ := findMin_spec s.root hn
    obtain ⟨l2, e2, b2, r2, init, hf2, hp2⟩ := findMax_spec s.root hn
    have hS1 : (e1 :: rest).Pairwise (fun a c => cmp a c < 0) := by rw [← hp1]; exact hS
    have hS2 : (init ++ [e2]).Pairwise (fun a c => cmp a c < 0) := by rw [← hp2]; exact hS
    rw [List.pairwise_append] at hS2
    refine ⟨fun _ => ⟨⟨e1, rest, hp1, by simp [os_first, hf1], (List.pairwise_cons.1 hS1).1⟩,
      ⟨e2, init, hp2, by simp [os_last, hf2], fun y hy => hS2.2.2 y hy e2 (by simp)⟩⟩,
      ?_, ?_, ?_, ?_, hnull⟩ <;> simp [os_first, os_last, hf1, hf2, h0]

/-- Instance of C14: the set holding 1, 2, 3. -/
theorem C14_first_last_extremes_witness :
    SearchTree icmp set123.root ∧
    (set123.root ≠ .null →
      (∃ e rest, populate set123.root = e :: rest ∧ os_first set123 = (1, some e) ∧
        ∀ y ∈ rest, icmp e y < 0) ∧
      (∃ e init, populate set123.root = init ++ [e] ∧ os_last set123 = (1, some e) ∧
        ∀ y ∈ init, icmp y e < 0)) ∧
    os_first set123 = (1, some 1) ∧ os_last set123 = (1, some 3) :=
  have hS : SearchTree icmp set123.root := by
    simp [set123, SearchTree, populate, icmp]
  ⟨hS, (C14_first_last_extremes icmp set123 hS).1, by rfl, by rfl⟩

/-- C16. For every set and every destructor argument, after clear the size is
0, isEmpty() is 1, first() returns 0, contains(y) is 0 for every y and every
comparator; with a non-null destructor the calls of the destructor are, up to
order, exactly the elements of the nodes of the tree, one call per node, and
with a NULL destructor there is no call. -/
theorem C16_clear_empties_and_destroys_once (s : OsData α) (uf : Bool) :
    os_size (os_clear s uf).1 = 0 ∧ os_isEmpty (os_clear s uf).1 = 1 ∧
    (os_clear s uf).1.root = .null ∧
    os_first (os_clear s uf).1 = (0, none) ∧
    (∀ (cmp : α → α → Int) (y : α), os_contains cmp (os_clear s uf).1 y = 0) ∧
    (uf = true → (os_clear s uf).2.Perm (populate s.root)) ∧
    (uf = false → (os_clear s uf).2 = []) := by
  refine ⟨rfl, rfl, rfl, rfl, fun _ _ => rfl, ?_, ?_⟩
  · intro h; subst h; exact postpurge_perm s.root
  · intro h; subst h; exact postpurge_false s.root


theorem Min_keeps_smaller (cmp : α → α → Int) (l : TNode α) (e : α) (b : Int) (r cur : TNode α)
    (h : ∀ c, (yieldCurrent cur).2 = some c → cmp e c < 0) :
    Min cmp (.node l e b r) cur = .node l e b r := by
  cases cur with
  | null => rfl
  | node cl c cb cr =>
    have := h c rfl
    simp only [Min]
    rw [if_neg (by omega)]

theorem Max_keeps_greater {cmp : α → α → Int} (hc : CmpLaw cmp) (l : TNode α) (e : α) (b : Int)
    (r cur : TNode α) (h : ∀ c, (yieldCurrent cur).2 = some c → cmp c e < 0) :
    Max cmp (.node l e b r) cur = .node l e b r := by
  cases cur with
  | null => rfl
  | node cl c cb cr =>
    have h1 := h c rfl
    have h2 := hc.antisymm c e
    simp only [Max]
    rw [if_neg (by omega)]

theorem find?_none_of_all {p : α → Bool} (L : List α) (h : ∀ a ∈ L, p a = false) :
    L.find? p = none := by
  rw [List.find?_eq_none]
  intro a ha
  simp [h a ha]

/-- The loop of os_ceiling returns the first in-order element that is not
below the probe, or the incoming `current` when there is none. -/
theorem ceilingLoop_spec {cmp : α → α → Int} (hc : CmpLaw cmp) (x : α) (t : TNode α)
    (hS : SearchTree cmp t) :
    ∀ cur : TNode α, (∀ c, (yieldCurrent cur).2 = some c → ∀ m ∈ populate t, cmp m c < 0) →
      yieldCurrent (ceilingLoop cmp x t cur)
        = (((populate t).find? (fun m => decide (cmp x m ≤ 0))).map
            (fun m => ((1 : Int), some m))).getD (yieldCurrent cur) := by
  induction t with
  | null => intro cur _; rfl
  | node l e b r ihl ihr =>
    intro cur hcur
    obtain ⟨hSl, hSr, hle, her, _⟩ := (searchTree_node cmp l e b r).1 hS
    simp only [populate, List.find?_append]
    by_cases h0 : cmp x e = 0
    · have hl : (populate l).find? (fun m => decide (cmp x m ≤ 0)) = none :=
        find?_none_of_all _ (fun a ha => by
          have h1 := hc.lt_of_lt_of_le (hle a ha) (by have := hc.symm h0; omega : cmp e x ≤ 0)
          have h2 := hc.antisymm a x
          simp only [decide_eq_false_iff_not]; omega)
      have he : (e :: populate r).find? (fun m => decide (cmp x m ≤ 0)) = some e :=
        List.find?_cons_of_pos _ (by simp only [decide_eq_true_eq]; omega)
      simp [ceilingLoop, h0, hl, he, yieldCurrent]
    · by_cases h1 : cmp x e < 0
      · have hmin := Min_keeps_smaller cmp l e b r cur
          (fun c hcc => hcur c hcc e (by simp [populate]))
        have he : (e :: populate r).find? (fun m => decide (cmp x m ≤ 0)) = some e :=
          List.find?_cons_of_pos _ (by simp only [decide_eq_true_eq]; omega)
        have ih := ihl hSl (.node l e b r) (fun c hcc m hm => by
          simp only [yieldCurrent, Option.some.injEq] at hcc
          subst hcc
          exact hle m hm)
        simp only [ceilingLoop, h0, h1, if_true, if_false, hmin, ih, he]
        cases (populate l).find? (fun m => decide (cmp x m ≤ 0)) <;> simp [yieldCurrent]
      · have hex : cmp e x < 0 := (hc.antisymm e x).2 (by omega)
        have hl : (populate l).find? (fun m => decide (cmp x m ≤ 0)) = none :=
          find?_none_of_all _ (fun a ha => by
            have h2 := hc.lt_trans (hle a ha) hex
            have h3 := hc.antisymm a x
            simp only [decide_eq_false_iff_not]; omega)
        have he : (e :: populate r).find? (fun m => decide (cmp x m ≤ 0))
            = (populate r).find? (fun m => decide (cmp x m ≤ 0)) :=
          List.find?_cons_of_neg _ (by simp only [decide_eq_true_eq]; omega)
        have ih := ihr hSr cur (fun c hcc m hm => hcur c hcc m (by simp [populate, hm]))
        simp only [ceilingLoop, h0, h1, if_false, ih, hl, he, Option.none_or]


/-- The loop of os_higher returns the first in-order element above the probe,
or the incoming `current` when there is none. -/
theorem higherLoop_spec {cmp : α → α → Int} (hc : CmpLaw cmp) (x : α) (t : TNode α)
    (hS : SearchTree cmp t) :
    ∀ cur : TNode α, (∀ c, (yieldCurrent cur).2 = some c → ∀ m ∈ populate t, cmp m c < 0) →
      yieldCurrent (higherLoop cmp x t cur)
        = (((populate t).find? (fun m => decide (cmp x m < 0))).map
            (fun m => ((1 : Int), some m))).getD (yieldCurrent cur) := by
  induction t with
  | null => intro cur _; rfl
  | node l e b r ihl ihr =>
    intro cur hcur
    obtain ⟨hSl, hSr, hle, her, _⟩ := (searchTree_node cmp l e b r).1 hS
    simp only [populate, List.find?_append]
    by_cases h1 : cmp x e < 0
    · have hmin := Min_keeps_smaller cmp l e b r cur
        (fun c hcc => hcur c hcc e (by simp [populate]))
      have he : (e :: populate r).find? (fun m => decide (cmp x m < 0)) = some e :=
        List.find?_cons_of_pos _ (by simp only [decide_eq_true_eq]; omega)
      have ih := ihl hSl (.node l e b r) (fun c hcc m hm => by
        simp only [yieldCurrent, Option.some.injEq] at hcc
        subst hcc
        exact hle m hm)
      simp only [higherLoop, h1, if_true, hmin, ih, he]
      cases (populate l).find? (fun m => decide (cmp x m < 0)) <;> simp [yieldCurrent]
    · have hl : (populate l).find? (fun m => decide (cmp x m < 0)) = none :=
        find?_none_of_all _ (fun a ha => by
          have h2 : ¬ cmp x a < 0 := fun h3 => h1 (hc.lt_trans h3 (hle a ha))
          simp only [decide_eq_false_iff_not]; exact h2)
      have he : (e :: populate r).find? (fun m => decide (cmp x m < 0))
          = (populate r).find? (fun m => decide (cmp x m < 0)) :=
        List.find?_cons_of_neg _ (by simp only [decide_eq_true_eq]; omega)
      have ih := ihr hSr cur (fun c hcc m hm => hcur c hcc m (by simp [populate, hm]))
      simp only [higherLoop, h1, if_false, ih, hl, he, Option.none_or]

/-- The loop of os_floor returns the last in-order element that is not above
the probe, or the incoming `current` when there is none. -/
theorem floorLoop_spec {cmp : α → α → Int} (hc : CmpLaw cmp) (x : α) (t : TNode α)
    (hS : SearchTree cmp t) :
    ∀ cur : TNode α, (∀ c, (yieldCurrent cur).2 = some c → ∀ m ∈ populate t, cmp c m < 0) →
      yieldCurrent (floorLoop cmp x t cur)
        = (((populate t).reverse.find? (fun m => decide (cmp x m ≥ 0))).map
            (fun m => ((1 : Int), some m))).getD (yieldCurrent cur) := by
  induction t with
  | null => intro cur _; rfl
  | node l e b r ihl ihr =>
    intro cur hcur
    obtain ⟨hSl, hSr, hle, her, _⟩ := (searchTree_node cmp l e b r).1 hS
    simp only [populate, List.reverse_append, List.reverse_cons, List.append_assoc,
      List.singleton_append, List.find?_append]
    by_cases h0 : cmp x e = 0
    · have hr : (populate r).reverse.find? (fun m => decide (cmp x m ≥ 0)) = none :=
        find?_none_of_all _ (fun a ha => by
          have h1 := hc.lt_of_le_of_lt (by omega : cmp x e ≤ 0) (her a (List.mem_reverse.1 ha))
          simp only [decide_eq_false_iff_not]; omega)
      have he : (e :: (populate l).reverse).find? (fun m => decide (cmp x m ≥ 0)) = some e :=
        List.find?_cons_of_pos _ (by simp only [decide_eq_true_eq]; omega)
      simp [floorLoop, h0, hr, he, yieldCurrent]
    · by_cases h1 : cmp x e > 0
      · have hex : cmp e x < 0 := (hc.antisymm e x).2 h1
        have hmax := Max_keeps_greater hc l e b r cur
          (fun c hcc => hcur c hcc e (by simp [populate]))
        have he : (e :: (populate l).reverse).find? (fun m => decide (cmp x m ≥ 0)) = some e :=
          List.find?_cons_of_pos _ (by simp only [decide_eq_true_eq]; omega)
        have ih := ihr hSr (.node l e b r) (fun c hcc m hm => by
          simp only [yieldCurrent, Option.some.injEq] at hcc
          subst hcc
          exact her m hm)
        simp only [floorLoop, h0, h1, if_true, if_false, hmax, ih, he]
        cases (populate r).reverse.find? (fun m => decide (cmp x m ≥ 0)) <;>
          simp [yieldCurrent]
      · have hxe : cmp x e < 0 := by omega
        have hr : (populate r).reverse.find? (fun m => decide (cmp x m ≥ 0)) = none :=
          find?_none_of_all _ (fun a ha => by
            have h2 := hc.lt_trans hxe (her a (List.mem_reverse.1 ha))
            simp only [decide_eq_false_iff_not]; omega)
        have he : (e :: (populate l).reverse).find? (fun m => decide (cmp x m ≥ 0))
            = (populate l).reverse.find? (fun m => decide (cmp x m ≥ 0)) :=
          List.find?_cons_of_neg _ (by simp only [decide_eq_true_eq]; omega)
        have ih := ihl hSl cur (fun c hcc m hm => hcur c hcc m (by simp [populate, hm]))
        simp only [floorLoop, h0, h1, if_false, ih, hr, he, Option.none_or]

/-- The loop of os_lower returns the last in-order element below the probe,
or the incoming `current` when there is none. -/
theorem lowerLoop_spec {cmp : α → α → Int} (hc : CmpLaw cmp) (x : α) (t : TNode α)
    (hS : SearchTree cmp t) :
    ∀ cur : TNode α, (∀ c, (yieldCurrent cur).2 = some c → ∀ m ∈ populate t, cmp c m < 0) →
      yieldCurrent (lowerLoop cmp x t cur)
        = (((populate t).reverse.find? (fun m => decide (cmp x m > 0))).map
            (fun m => ((1 : Int), some m))).getD (yieldCurrent cur) := by
  induction t with
  | null => intro cur _; rfl
  | node l e b r ihl ihr =>
    intro cur hcur
    obtain ⟨hSl, hSr, hle, her, _⟩ := (searchTree_node cmp l e b r).1 hS
    simp only [populate, List.reverse_append, List.reverse_cons, List.append_assoc,
      List.singleton_append, List.find?_append]
    by_cases h1 : cmp x e > 0
    · have hmax := Max_keeps_greater hc l e b r cur
        (fun c hcc => hcur c hcc e (by simp [populate]))
      have he : (e :: (populate l).reverse).find? (fun m => decide (cmp x m > 0)) = some e :=
        List.find?_cons_of_pos _ (by simp only [decide_eq_true_eq]; omega)
      have ih := ihr hSr (.node l e b r) (fun c hcc m hm => by
        simp only [yieldCurrent, Option.some.injEq] at hcc
        subst hcc
        exact her m hm)
      simp only [lowerLoop, h1, if_true, hmax, ih, he]
      cases (populate r).reverse.find? (fun m => decide (cmp x m > 0)) <;>
        simp [yieldCurrent]
    · have hr : (populate r).reverse.find? (fun m => decide (cmp x m > 0)) = none :=
        find?_none_of_all _ (fun a ha => by
          have h2 : ¬ cmp x a > 0 := fun h3 => by
            have h4 : cmp a x < 0 := (hc.antisymm a x).2 h3
            have h5 := hc.lt_trans (her a (List.mem_reverse.1 ha)) h4
            have h6 := hc.antisymm e x
            omega
          simp only [decide_eq_false_iff_not]; exact h2)
      have he : (e :: (populate l).reverse).find? (fun m => decide (cmp x m > 0))
          = (populate l).reverse.find? (fun m => decide (cmp x m > 0)) :=
        List.find?_cons_of_neg _ (by simp only [decide_eq_true_eq]; omega)
      have ih := ihl hSl cur (fun c hcc m hm => hcur c hcc m (by simp [populate, hm]))
      simp only [lowerLoop, h1, if_false, ih, hr, he, Option.none_or]

/-- In a list ordered by `R`, the first element satisfying `p` is in the
list, satisfies `p`, and precedes every other element satisfying `p`. -/
theorem find?_first {R : α → α → Prop} {p : α → Bool} (L : List α) (hL : L.Pairwise R) (c : α)
    (h : L.find? p = some c) : c ∈ L ∧ p c = true ∧ ∀ y ∈ L, p y = true → y = c ∨ R c y := by
  induction L with
  | nil => simp at h
  | cons a t ih =>
    rw [List.pairwise_cons] at hL
    by_cases hp : p a = true
    · rw [List.find?_cons_of_pos _ hp] at h
      cases h
      refine ⟨by simp, hp, ?_⟩
      intro y hy _
      rcases List.mem_cons.1 hy with rfl | hy
      · exact Or.inl rfl
      · exact Or.inr (hL.1 y hy)
    · rw [List.find?_cons_of_neg _ hp] at h
      obtain ⟨h1, h2, h3⟩ := ih hL.2 h
      refine ⟨by simp [h1], h2, ?_⟩
      intro y hy hpy
      rcases List.mem_cons.1 hy with rfl | hy
      · exact absurd hpy hp
      · exact h3 y hy hpy

theorem find?_isSome_of_mem {p : α → Bool} (L : List α) (m : α) (hm : m ∈ L) (hp : p m = true) :
    ∃ c, L.find? p = some c := by
  cases h : L.find? p with
  | some c => exact ⟨c, rfl⟩
  | none =>
    rw [List.find?_eq_none] at h
    exact absurd hp (h m hm)

/-- In a strictly increasing list comparator-equal members are the same
element. -/
theorem eq_of_cmp_zero {cmp : α → α → Int} (hc : CmpLaw cmp) (L : List α)
    (hL : L.Pairwise (fun a c => cmp a c < 0)) (a b : α) (ha : a ∈ L) (hb : b ∈ L)
    (h : cmp a b = 0) : a = b := by
  induction L with
  | nil => simp at ha
  | cons u t ih =>
    rw [List.pairwise_cons] at hL
    rcases List.mem_cons.1 ha with rfl | ha1 <;> rcases List.mem_cons.1 hb with rfl | hb1
    · rfl
    · have := hL.1 b hb1; omega
    · have h1 := hL.1 a ha1
      have h2 := hc.antisymm b a
      omega
    · exact ih hL.2 ha1 hb1


theorem CmpLaw.le_iff_ge {cmp : α → α → Int} (hc : CmpLaw cmp) (a b : α) :
    cmp a b ≤ 0 ↔ cmp b a ≥ 0 := by
  have := hc.antisymm b a
  omega

theorem os_ceiling_eq {cmp : α → α → Int} (hc : CmpLaw cmp) (s : OsData α) (x : α)
    (hS : SearchTree cmp s.root) :
    os_ceiling cmp s x = (((populate s.root).find? (fun m => decide (cmp x m ≤ 0))).map
      (fun m => ((1 : Int), some m))).getD (0, none) :=
  ceilingLoop_spec hc x s.root hS .null (fun c h => by simp [yieldCurrent] at h)

theorem os_higher_eq {cmp : α → α → Int} (hc : CmpLaw cmp) (s : OsData α) (x : α)
    (hS : SearchTree cmp s.root) :
    os_higher cmp s x = (((populate s.root).find? (fun m => decide (cmp x m < 0))).map
      (fun m => ((1 : Int), some m))).getD (0, none) :=
  higherLoop_spec hc x s.root hS .null (fun c h => by simp [yieldCurrent] at h)

theorem os_floor_eq {cmp : α → α → Int} (hc : CmpLaw cmp) (s : OsData α) (x : α)
    (hS : SearchTree cmp s.root) :
    os_floor cmp s x = (((populate s.root).reverse.find? (fun m => decide (cmp x m ≥ 0))).map
      (fun m => ((1 : Int), some m))).getD (0, none) :=
  floorLoop_spec hc x s.root hS .null (fun c h => by simp [yieldCurrent] at h)

theorem os_lower_eq {cmp : α → α → Int} (hc : CmpLaw cmp) (s : OsData α) (x : α)
    (hS : SearchTree cmp s.root) :
    os_lower cmp s x = (((populate s.root).reverse.find? (fun m => decide (cmp x m > 0))).map
      (fun m => ((1 : Int), some m))).getD (0, none) :=
  lowerLoop_spec hc x s.root hS .null (fun c h => by simp [yieldCurrent] at h)

/-- A query that yields the first element of `L` satisfying `p`: it returns 1
with the first such element when one exists, and 0 exactly when none does. -/
theorem query_first {R : α → α → Prop} {p : α → Bool} (L : List α) (hL : L.Pairwise R)
    (res : Int × Option α)
    (hres : res = ((L.find? p).map (fun m => ((1 : Int), some m))).getD (0, none)) :
    (∀ m ∈ L, p m = true →
      ∃ c ∈ L, res = (1, some c) ∧ p c = true ∧ ∀ y ∈ L, p y = true → y = c ∨ R c y) ∧
    (res.1 = 0 ↔ ∀ m ∈ L, p m = false) ∧
    (∀ c, res.2 = some c → c ∈ L ∧ p c = true) := by
  refine ⟨?_, ?_, ?_⟩
  · intro m hm hp
    obtain ⟨c, hfc⟩ := find?_isSome_of_mem L m hm hp
    obtain ⟨h1, h2, h3⟩ := find?_first L hL c hfc
    exact ⟨c, h1, by rw [hres, hfc]; rfl, h2, h3⟩
  · cases hf : L.find? p with
    | none =>
      rw [hres, hf]
      rw [List.find?_eq_none] at hf
      simp only [Option.map_none', Option.getD_none, true_iff]
      intro m hm
      simpa using hf m hm
    | some c =>
      rw [hres, hf]
      simp only [Option.map_some', Option.getD_some, one_ne_zero, false_iff]
      intro h
      have := h c (List.mem_of_find?_eq_some hf)
      rw [List.find?_some hf] at this
      cases this
  · intro c hc2
    cases hf : L.find? p with
    | none => rw [hres, hf] at hc2; simp at hc2
    | some d =>
      rw [hres, hf] at hc2
      simp only [Option.map_some', Option.getD_some, Option.some.injEq] at hc2
      subst hc2
      exact ⟨List.mem_of_find?_eq_some hf, List.find?_some hf⟩

/-- C12. On a set whose tree is a search tree, for every probe x: when some
member is >= x, ceiling(x) returns 1 and yields the least such member, and it
returns 0 exactly when every member is < x; when some member is <= x, floor(x)
returns 1 and yields the greatest such member, and it returns 0 exactly when
every member is > x; when a member is comparator-equal to x both yield that
member. -/
theorem C12_ceiling_floor (cmp : α → α → Int) (hc : CmpLaw cmp) (s : OsData α)
    (hS : SearchTree cmp s.root) (x : α) :
    (∀ m ∈ populate s.root, cmp x m ≤ 0 →
      ∃ c ∈ populate s.root, os_ceiling cmp s x = (1, some c) ∧ cmp x c ≤ 0 ∧
        ∀ y ∈ populate s.root, cmp x y ≤ 0 → cmp c y ≤ 0) ∧
    ((os_ceiling cmp s x).1 = 0 ↔ ∀ m ∈ populate s.root, cmp m x < 0) ∧
    (∀ m ∈ populate s.root, cmp m x ≤ 0 →
      ∃ c ∈ populate s.root, os_floor cmp s x = (1, some c) ∧ cmp c x ≤ 0 ∧
        ∀ y ∈ populate s.root, cmp y x ≤ 0 → cmp y c ≤ 0) ∧
    ((os_floor cmp s x).1 = 0 ↔ ∀ m ∈ populate s.root, cmp x m < 0) ∧
    (∀ m ∈ populate s.root, cmp x m = 0 →
      os_ceiling cmp s x = (1, some m) ∧ os_floor cmp s x = (1, some m)) := by
  obtain ⟨hc1, hc0, _⟩ := query_first (populate s.root) hS _ (os_ceiling_eq hc s x hS)
  have hSr : (populate s.root).reverse.Pairwise (fun a c => cmp c a < 0) :=
    List.pairwise_reverse.2 hS
  obtain ⟨hf1, hf0, _⟩ := query_first (populate s.root).reverse hSr _ (os_floor_eq hc s x hS)
  have hceil : ∀ m ∈ populate s.root, cmp x m ≤ 0 →
      ∃ c ∈ populate s.root, os_ceiling cmp s x = (1, some c) ∧ cmp x c ≤ 0 ∧
        ∀ y ∈ populate s.root, cmp x y ≤ 0 → cmp c y ≤ 0 := by
    intro m hm hxm
    obtain ⟨c, hcL, hr, hpc, hleast⟩ := hc1 m hm (by simpa using hxm)
    refine ⟨c, hcL, hr, by simpa using hpc, ?_⟩
    intro y hy hxy
    rcases hleast y hy (by simpa using hxy) with rfl | h
    · have := hc.refl y; omega
    · omega
  have hfloor : ∀ m ∈ populate s.root, cmp m x ≤ 0 →
      ∃ c ∈ populate s.root, os_floor cmp s x = (1, some c) ∧ cmp c x ≤ 0 ∧
        ∀ y ∈ populate s.root, cmp y x ≤ 0 → cmp y c ≤ 0 := by
    intro m hm hmx
    obtain ⟨c, hcL, hr, hpc, hleast⟩ := hf1 m (List.mem_reverse.2 hm)
      (by simpa using (hc.le_iff_ge m x).1 hmx)
    refine ⟨c, List.mem_reverse.1 hcL, hr,
      (hc.le_iff_ge c x).2 (by simpa using hpc), ?_⟩
    intro y hy hyx
    rcases hleast y (List.mem_reverse.2 hy) (by simpa using (hc.le_iff_ge y x).1 hyx)
      with rfl | h
    · have := hc.refl y; omega
    · omega
  refine ⟨hceil, ?_, hfloor, ?_, ?_⟩
  · rw [hc0]
    constructor
    · intro h m hm
      have h1 := h m hm
      have h2 := hc.antisymm m x
      simp only [decide_eq_false_iff_not] at h1
      omega
    · intro h m hm
      have h1 := h m hm
      have h2 := hc.antisymm m x
      simp only [decide_eq_false_iff_not]
      omega
  · rw [hf0]
    constructor
    · intro h m hm
      have h1 := h m (List.mem_reverse.2 hm)
      simp only [decide_eq_false_iff_not] at h1
      omega
    · intro h m hm
      have h1 := h m (List.mem_reverse.1 hm)
      simp only [decide_eq_false_iff_not]
      omega
  · intro m hm hxm
    have hmx := hc.symm hxm
    obtain ⟨c, hcL, hr, hxc, hleast⟩ := hceil m hm (by omega)
    obtain ⟨d, hdL, hr2, hdx, hgreatest⟩ := hfloor m hm (by omega)
    have h1 : cmp c m = 0 := by
      have h2 := hleast m hm (by omega)
      have h3 := hc.trans m x c (by omega) hxc
      have h4 := hc.antisymm c m
      omega
    have h5 : cmp d m = 0 := by
      have h2 := hgreatest m hm (by omega)
      have h3 := hc.trans d x m hdx (by omega)
      have h4 := hc.antisymm d m
      omega
    rw [hr, hr2, eq_of_cmp_zero hc _ hS c m hcL hm h1, eq_of_cmp_zero hc _ hS d m hdL hm h5]
    exact ⟨rfl, rfl⟩

/-- Instance of C12: probe 2 on the set holding 1, 2, 3. -/
theorem C12_ceiling_floor_witness :
    CmpLaw icmp ∧ SearchTree icmp set123.root ∧
    os_ceiling icmp set123 2 = (1, some 2) ∧ os_floor icmp set123 2 = (1, some 2) :=
  have hS : SearchTree icmp set123.root := by
    simp [set123, SearchTree, populate, icmp]
  ⟨icmp_law, hS,
    (C12_ceiling_floor icmp icmp_law set123 hS 2).2.2.2.2 2 (by simp [set123, populate])
      (by simp [icmp])⟩

/-- C13. On a set whose tree is a search tree, for every probe x: when some
member is > x, higher(x) returns 1 and yields the least such member, and it
returns 0 exactly when no member is > x; when some member is < x, lower(x)
returns 1 and yields the greatest such member, and it returns 0 exactly when
no member is < x. Whatever higher yields is strictly above x and whatever
lower yields is strictly below x, so a member comparator-equal to x is never
returned. -/
theorem C13_higher_lower (cmp : α → α → Int) (hc : CmpLaw cmp) (s : OsData α)
    (hS : SearchTree cmp s.root) (x : α) :
    (∀ m ∈ populate s.root, cmp x m < 0 →
      ∃ c ∈ populate s.root, os_higher cmp s x = (1, some c) ∧ cmp x c < 0 ∧
        ∀ y ∈ populate s.root, cmp x y < 0 → cmp c y ≤ 0) ∧
    ((os_higher cmp s x).1 = 0 ↔ ∀ m ∈ populate s.root, ¬ cmp x m < 0) ∧
    (∀ m ∈ populate s.root, cmp m x < 0 →
      ∃ c ∈ populate s.root, os_lower cmp s x = (1, some c) ∧ cmp c x < 0 ∧
        ∀ y ∈ populate s.root, cmp y x < 0 → cmp y c ≤ 0) ∧
    ((os_lower cmp s x).1 = 0 ↔ ∀ m ∈ populate s.root, ¬ cmp m x < 0) ∧
    (∀ c, (os_higher cmp s x).2 = some c → c ∈ populate s.root ∧ cmp x c < 0) ∧
    (∀ c, (os_lower cmp s x).2 = some c → c ∈ populate s.root ∧ cmp c x < 0) := by
  obtain ⟨hh1, hh0, hh2⟩ := query_first (populate s.root) hS _ (os_higher_eq hc s x hS)
  have hSr : (populate s.root).reverse.Pairwise (fun a c => cmp c a < 0) :=
    List.pairwise_reverse.2 hS
  obtain ⟨hl1, hl0, hl2⟩ := query_first (populate s.root).reverse hSr _ (os_lower_eq hc s x hS)
  refine ⟨?_, ?_, ?_, ?_, ?_, ?_⟩
  · intro m hm hxm
    obtain ⟨c, hcL, hr, hpc, hleast⟩ := hh1 m hm (by simpa using hxm)
    refine ⟨c, hcL, hr, by simpa using hpc, ?_⟩
    intro y hy hxy
    rcases hleast y hy (by simpa using hxy) with rfl | h
    · have := hc.refl y; omega
    · omega
  · rw [hh0]
    constructor
    · intro h m hm
      simpa using h m hm
    · intro h m hm
      simpa using h m hm
  · intro m hm hmx
    obtain ⟨c, hcL, hr, hpc, hleast⟩ := hl1 m (List.mem_reverse.2 hm)
      (by simpa using (hc.antisymm m x).1 hmx)
    refine ⟨c, List.mem_reverse.1 hcL, hr,
      (hc.antisymm c x).2 (by simpa using hpc), ?_⟩
    intro y hy hyx
    rcases hleast y (List.mem_reverse.2 hy) (by simpa using (hc.antisymm y x).1 hyx)
      with rfl | h
    · have := hc.refl y; omega
    · omega
  · rw [hl0]
    constructor
    · intro h m hm
      have h1 := h m (List.mem_reverse.2 hm)
      have h2 := hc.antisymm m x
      simp only [decide_eq_false_iff_not] at h1
      omega
    · intro h m hm
      have h1 := h m (List.mem_reverse.1 hm)
      have h2 := hc.antisymm m x
      simp only [decide_eq_false_iff_not]
      omega
  · intro c hcc
    obtain ⟨h1, h2⟩ := hh2 c hcc
    exact ⟨h1, by simpa using h2⟩
  · intro c hcc
    obtain ⟨h1, h2⟩ := hl2 c hcc
    exact ⟨List.mem_reverse.1 h1, (hc.antisymm c x).2 (by simpa using h2)⟩

/-- Instance of C13: probe 2 on the set holding 1, 2, 3 yields 3 and 1. -/
theorem C13_higher_lower_witness :
    CmpLaw icmp ∧ SearchTree icmp set123.root ∧
    (∀ c, (os_higher icmp set123 2).2 = some c → c ∈ populate set123.root ∧ icmp 2 c < 0) ∧
    os_higher icmp set123 2 = (1, some 3) ∧ os_lower icmp set123 2 = (1, some 1) :=
  have hS : SearchTree icmp set123.root := by
    simp [set123, SearchTree, populate, icmp]
  ⟨icmp_law, hS, (C13_higher_lower icmp icmp_law set123 hS 2).2.2.2.2.1, by rfl, by rfl⟩


theorem set_at_length {β : Type} (l1 : List β) (a b : β) (l2 : List β) :
    (l1 ++ a :: l2).set l1.length b = l1 ++ b :: l2 := by
  induction l1 with
  | nil => rfl
  | cons h t ih => simp [ih]

/-- The in-order walk fills the next `count` free slots with the in-order
sequence and leaves the rest of the array alone. -/
theorem populatePs_spec (t : TNode α) :
    ∀ (pre post : List (Option α)),
      populatePs { a := pre ++ List.replicate (populate t).length none ++ post,
                   len := pre.length } t
        = some { a := pre ++ (populate t).map some ++ post,
                 len := pre.length + (populate t).length } := by
  induction t with
  | null => intro pre post; simp [populatePs, populate]
  | node l e b r ihl ihr =>
    intro pre post
    have hrep : List.replicate (populate (.node l e b r)).length (none : Option α)
        = List.replicate (populate l).length none
          ++ (none :: List.replicate (populate r).length none) := by
      simp only [populate, List.length_append, List.length_cons]
      rw [List.replicate_add, List.replicate_succ]
    have h1 : pre ++ List.replicate (populate (.node l e b r)).length (none : Option α) ++ post
        = pre ++ List.replicate (populate l).length none
          ++ (none :: List.replicate (populate r).length none ++ post) := by
      rw [hrep]; simp
    have hl := ihl pre (none :: List.replicate (populate r).length none ++ post)
    have hset : (pre ++ (populate l).map some
          ++ (none :: List.replicate (populate r).length none ++ post)).set
          (pre.length + (populate l).length) (some e)
        = (pre ++ (populate l).map some ++ [some e])
          ++ List.replicate (populate r).length none ++ post := by
      have := set_at_length (pre ++ (populate l).map some) none (some e)
        (List.replicate (populate r).length none ++ post)
      simp only [List.length_append, List.length_map] at this
      simp only [List.cons_append] at this ⊢
      rw [this]; simp
    have hr := ihr (pre ++ (populate l).map some ++ [some e]) post
    simp only [List.length_append, List.length_map, List.length_cons, List.length_nil] at hr
    simp only [populatePs, h1, hl, Option.some_bind, Option.bind_eq_bind]
    have hlt : pre.length + (populate l).length
        < (pre ++ (populate l).map some
          ++ (none :: List.replicate (populate r).length none ++ post)).length := by
      simp
    rw [if_pos hlt]
    simp only [Option.some_bind, hset]
    rw [show pre.length + (populate l).length + 1
        = pre.length + (populate l).length + (0 + 1) by omega, hr]
    simp [populate]
    omega

theorem genArray_spec (s : OsData α) (hsize : s.size = (populate s.root).length)
    (hne : s.root ≠ .null) :
    genArray s true = some (some ((populate s.root).map some)) := by
  have hpos : s.size > 0 := by
    cases h : s.root with
    | null => exact absurd h hne
    | node l e b r => rw [hsize, h]; simp [populate]; omega
  have h := populatePs_spec s.root [] []
  simp only [List.nil_append, List.append_nil, List.length_nil, Nat.zero_add] at h
  simp only [genArray, hpos, if_true]
  rw [hsize]
  simp [h]

end OrderedSet

namespace Iterator
variable {β : Type}

/-- From cursor `k` the next calls yield the elements from position `k` on,
each with return value 1, and move the cursor to the end. -/
theorem nextN_spec (L : List β) : ∀ (m k : Nat), k + m = L.length →
    nextN m { next := k, size := L.length, elements := L }
      = some ((L.drop k).map (fun e => ((1 : Int), some e)),
          { next := L.length, size := L.length, elements := L }) := by
  intro m
  induction m with
  | zero =>
    intro k hk
    simp only [Nat.add_zero] at hk
    subst hk
    simp [nextN]
  | succ m ih =>
    intro k hk
    have hlt : k < L.length := by omega
    have hget : L[k]? = some L[k] := List.getElem?_eq_getElem hlt
    have hdrop : L.drop k = L[k] :: L.drop (k + 1) := List.drop_eq_getElem_cons hlt
    have ih1 := ih (k + 1) (by omega)
    have hnext : it_next { next := (k : Int), size := (L.length : Int), elements := L }
        = some (1, some L[k], { next := (k : Int) + 1, size := L.length, elements := L }) := by
      have h1 : (k : Int) < (L.length : Int) := by omega
      have h2 : (0 : Int) ≤ (k : Int) := by omega
      simp only [it_next, h1, h2, if_true, Int.toNat_ofNat, hget]
    simp only [nextN, hnext, Option.bind_eq_bind, Option.some_bind]
    have hcast : ((k : Int) + 1) = ((k + 1 : Nat) : Int) := by push_cast; rfl
    rw [hcast, ih1, hdrop]
    rfl

end Iterator

namespace OrderedSet
variable {α : Type}

theorem step_addRemove_size {cmp : α → α → Int} (hc : CmpLaw cmp) (s : OsData α) (op : Op α)
    (hop : op.isAddRemove = true) (hv : Valid cmp s.root)
    (hsize : s.size = (populate s.root).length) :
    ∃ s1, step cmp s op = some s1 ∧ Valid cmp s1.root ∧
      s1.size = (populate s1.root).length := by
  cases op with
  | add x =>
    by_cases hx : ∃ m ∈ populate s.root, cmp x m = 0
    · exact ⟨s, by simp [step, os_add_present hc true s x hv.1 hx], hv, hsize⟩
    · have hx2 : ∀ m ∈ populate s.root, cmp x m ≠ 0 := fun m hm h => hx ⟨m, hm, h⟩
      obtain ⟨t1, hadd, hv1, l1, l2, hp, hp1, _, _⟩ := os_add_spec hc s x hv hx2
      refine ⟨{ size := s.size + 1, root := t1 }, by simp [step, hadd], hv1, ?_⟩
      simp only [hsize, hp, hp1, List.length_append, List.length_cons]
      push_cast
      omega
  | remove x uf =>
    by_cases hx : ∃ m ∈ populate s.root, cmp x m = 0
    · obtain ⟨m, hm, hxm⟩ := hx
      obtain ⟨t1, log, hrem, hv1, hp, _⟩ := os_remove_spec hc s x uf hv ⟨m, hm, hxm⟩
      obtain ⟨l1, l2, hs, hf⟩ := filter_split hc x m (populate s.root) hv.1 hm hxm
      refine ⟨{ size := s.size - 1, root := t1 }, by simp [step, hrem], hv1, ?_⟩
      have h1 : (populate t1).length = l1.length + l2.length := by
        rw [hp, hf, List.length_append]
      have h2 : (populate s.root).length = l1.length + l2.length + 1 := by
        rw [hs, List.length_append, List.length_cons]; omega
      show s.size - 1 = ((populate t1).length : Int)
      rw [hsize, h1, h2]
      push_cast
      omega
    · have hx2 : ∀ m ∈ populate s.root, cmp x m ≠ 0 := fun m hm h => hx ⟨m, hm, h⟩
      exact ⟨s, by simp [step, os_remove_absent hc s x uf hv.1 hx2], hv, hsize⟩
  | pollFirst => simp [Op.isAddRemove] at hop
  | pollLast => simp [Op.isAddRemove] at hop
  | clear uf => simp [Op.isAddRemove] at hop

theorem run_addRemove_size {cmp : α → α → Int} (hc : CmpLaw cmp) (ops : List (Op α)) :
    (∀ op ∈ ops, op.isAddRemove = true) → ∀ s : OsData α, Valid cmp s.root →
      s.size = (populate s.root).length →
      ∃ s1, run cmp ops s = some s1 ∧ Valid cmp s1.root ∧
        s1.size = (populate s1.root).length := by
  induction ops with
  | nil => intro _ s hv hsize; exact ⟨s, rfl, hv, hsize⟩
  | cons op ops ih =>
    intro hops s hv hsize
    obtain ⟨s1, hs1, hv1, hsize1⟩ :=
      step_addRemove_size hc s op (hops op (by simp)) hv hsize
    obtain ⟨s2, hs2, hv2, hsize2⟩ :=
      ih (fun o ho => hops o (by simp [ho])) s1 hv1 hsize1
    exact ⟨s2, by simp [run, hs1, hs2], hv2, hsize2⟩

/-- C15. For a set built from the empty set by add and remove calls
(comparator a consistent strict total order, allocations succeeding), the
size field equals the number of nodes; and when the tree has a node, toArray
returns an array whose slots are exactly the elements in strictly increasing
order and writes size() to *len, and the iterator made by itCreate returns 1
and yields these same elements one after the other, then has no next. -/
theorem C15_toArray_is_sorted_snapshot (cmp : α → α → Int) (hc : CmpLaw cmp)
    (ops : List (Op α)) (hops : ∀ op ∈ ops, op.isAddRemove = true) :
    ∃ s, run cmp ops OrderedSet_create = some s ∧
      os_size s = (count s.root : Int) ∧ count s.root = (populate s.root).length ∧
      (populate s.root).Pairwise (fun a c => cmp a c < 0) ∧
      (s.root ≠ .null →
        os_toArray s true = some (some ((populate s.root).map some), some (os_size s)) ∧
        ∃ it itEnd, os_itCreate s true true = some (some it) ∧
          Iterator.nextN (populate s.root).length it
            = some ((populate s.root).map (fun e => ((1 : Int), some (some e))), itEnd) ∧
          Iterator.it_hasNext itEnd = 0) := by
  obtain ⟨s, hrun, hv, hsize⟩ := run_addRemove_size hc ops hops OrderedSet_create
    (valid_null cmp) rfl
  refine ⟨s, hrun, ?_, count_eq_length _, hv.1, ?_⟩
  · rw [count_eq_length]; exact hsize
  · intro hne
    have hgen := genArray_spec s hsize hne
    refine ⟨by simp [os_toArray, hgen, os_size], ?_⟩
    have hspec := Iterator.nextN_spec ((populate s.root).map some) (populate s.root).length 0
      (by simp)
    simp only [List.length_map, List.drop_zero, List.map_map] at hspec
    refine ⟨{ next := 0, size := s.size, elements := (populate s.root).map some },
      { next := s.size, size := s.size, elements := (populate s.root).map some }, ?_, ?_, ?_⟩
    · simp [os_itCreate, hgen, Iterator.Iterator_create]
    · rw [hsize]
      exact hspec
    · simp [Iterator.it_hasNext]

/-- Instance of C15: the set built by adding 2, 1, 3, 1 and removing 2. -/
theorem C15_toArray_is_sorted_snapshot_witness :
    (∀ op ∈ [Op.add (2 : Int), .add 1, .add 3, .add 1, .remove 2 false],
      op.isAddRemove = true) ∧
    CmpLaw icmp ∧
    ∃ s, run icmp [.add 2, .add 1, .add 3, .add 1, .remove 2 false] OrderedSet_create = some s ∧
      os_size s = (count s.root : Int) ∧ count s.root = (populate s.root).length ∧
      (populate s.root).Pairwise (fun a c => icmp a c < 0) ∧
      (s.root ≠ .null →
        os_toArray s true = some (some ((populate s.root).map some), some (os_size s)) ∧
        ∃ it itEnd, os_itCreate s true true = some (some it) ∧
          Iterator.nextN (populate s.root).length it
            = some ((populate s.root).map (fun e => ((1 : Int), some (some e))), itEnd) ∧
          Iterator.it_hasNext itEnd = 0) :=
  have hops : ∀ op ∈ [Op.add (2 : Int), .add 1, .add 3, .add 1, .remove 2 false],
      op.isAddRemove = true := by
    intro op hop
    simp only [List.mem_cons, List.mem_singleton, List.not_mem_nil, or_false] at hop
    rcases hop with rfl | rfl | rfl | rfl | rfl <;> rfl
  ⟨hops, icmp_law, C15_toArray_is_sorted_snapshot icmp icmp_law _ hops⟩

end OrderedSet

/-! ## The bounded queue: representation lemmas and results -/

namespace BQueue
variable {α : Type}

theorem succ_emod (n i : Int) (h0 : 0 ≤ i) (h1 : i < n) : (i + 1) % n = wrapIdx n (i + 1) := by
  unfold wrapIdx
  split_ifs with h
  · exact Int.emod_eq_of_lt (by omega) h
  · have : i + 1 = n := by omega
    rw [this]; simp

theorem BQueue_create_size (capacity : Int) :
    (BQueue_create capacity : BqData α).size
      = (if capacity ≤ 0 then 25 else if capacity > 10240 then 10240 else capacity) := rfl

theorem BQueue_create_rep (capacity : Int) : BqRep (BQueue_create capacity : BqData α) [] := by
  have hpos : 0 < (BQueue_create capacity : BqData α).size := by
    rw [BQueue_create_size]; split_ifs <;> omega
  refine ⟨hpos, ?_, le_refl _, hpos, rfl, le_of_lt hpos, ?_, ?_⟩
  · show ((List.replicate _ none).length : Int) = _
    rw [List.length_replicate]
    exact Int.toNat_of_nonneg (le_of_lt hpos)
  · show (0 : Int) = wrapIdx _ (0 + 0)
    unfold wrapIdx
    simp [hpos]
  · intro k hk; simp at hk

theorem bq_add_full (q : BqData α) (e : α) (h : q.count = q.size) : bq_add q e = some (0, q) := by
  simp [bq_add, h]

theorem bq_add_spec (q : BqData α) (xs : List α) (e : α) (hrep : BqRep q xs)
    (h : q.count ≠ q.size) :
    ∃ q1, bq_add q e = some (1, q1) ∧ BqRep q1 (xs ++ [e]) ∧ q1.count = q.count + 1 ∧
      q1.size = q.size := by
  obtain ⟨hs, hlen, ho0, ho1, hc, hcs, hin, hslots⟩ := hrep
  have hin0 : 0 ≤ q.inIdx := by rw [hin]; unfold wrapIdx; split_ifs <;> omega
  have hin1 : q.inIdx < q.size := by rw [hin]; unfold wrapIdx; split_ifs <;> omega
  have hlt : q.inIdx.toNat < q.buffer.length := by omega
  refine ⟨{ count := q.count + 1, size := q.size, inIdx := (q.inIdx + 1) % q.size,
            out := q.out, buffer := q.buffer.set q.inIdx.toNat (some e) }, ?_, ?_, rfl, rfl⟩
  · have hcond : 0 ≤ q.inIdx ∧ q.inIdx < (q.buffer.length : Int) ∧ q.size ≠ 0 :=
      ⟨hin0, by omega, by omega⟩
    unfold bq_add
    rw [if_neg h]
    exact if_pos hcond
  · refine ⟨hs, ?_, ho0, ho1, ?_, ?_, ?_, ?_⟩
    · simp only [List.length_set]; exact hlen
    · simp only [List.length_append, List.length_singleton]; push_cast; omega
    · show q.count + 1 ≤ q.size
      omega
    · show (q.inIdx + 1) % q.size = wrapIdx q.size (q.out + (q.count + 1))
      rw [succ_emod q.size q.inIdx hin0 hin1, hin]
      unfold wrapIdx
      split_ifs <;> omega
    · intro k hk
      simp only [List.length_append, List.length_singleton] at hk
      show (q.buffer.set q.inIdx.toNat (some e))[(wrapIdx q.size (q.out + k)).toNat]?
        = some (xs ++ [e])[k]?
      by_cases hkl : k < xs.length
      · have hne : q.inIdx.toNat ≠ (wrapIdx q.size (q.out + k)).toNat := by
          rw [hin]; unfold wrapIdx; split_ifs <;> omega
        rw [List.getElem?_set_ne hne, hslots k hkl, List.getElem?_append_left hkl]
      · have hk2 : k = xs.length := by omega
        subst hk2
        have heq : (wrapIdx q.size (q.out + (xs.length : Nat))).toNat = q.inIdx.toNat := by
          rw [hin, hc]
        rw [heq, List.getElem?_set_self hlt]
        simp

theorem retrieve_empty (q : BqData α) (b : Bool) (h : q.count ≤ 0) :
    retrieve q b = some (0, none, q) := by
  simp [retrieve, h]

theorem retrieve_spec (q : BqData α) (e : α) (rest : List α) (hrep : BqRep q (e :: rest)) :
    bq_peek q = some (1, some (some e), q) ∧
    ∃ q1, bq_remove q = some (1, some (some e), q1) ∧ BqRep q1 rest ∧
      q1.count = q.count - 1 ∧ q1.size = q.size := by
  obtain ⟨hs, hlen, ho0, ho1, hc, hcs, hin, hslots⟩ := hrep
  simp only [List.length_cons] at hc
  have hget : q.buffer[q.out.toNat]? = some (some e) := by
    have h0 := hslots 0 (by simp)
    have hw : wrapIdx q.size (q.out + ((0 : Nat) : Int)) = q.out := by
      unfold wrapIdx; simp [ho1]
    rw [hw] at h0
    simpa using h0
  have hcpos : ¬ q.count ≤ 0 := by omega
  have hsz : q.size ≠ 0 := by omega
  refine ⟨?_, { count := q.count - 1, size := q.size, inIdx := q.inIdx,
                out := (q.out + 1) % q.size, buffer := q.buffer }, ?_, ?_, rfl, rfl⟩
  · simp [bq_peek, retrieve, hcpos, ho0, hget]
  · simp [bq_remove, retrieve, hcpos, ho0, hget, hsz]
  · rw [succ_emod q.size q.out ho0 ho1]
    refine ⟨hs, hlen, ?_, ?_, ?_, ?_, ?_, ?_⟩
    · show 0 ≤ wrapIdx q.size (q.out + 1)
      unfold wrapIdx; split_ifs <;> omega
    · show wrapIdx q.size (q.out + 1) < q.size
      unfold wrapIdx; split_ifs <;> omega
    · show q.count - 1 = (rest.length : Int)
      omega
    · show q.count - 1 ≤ q.size
      omega
    · show q.inIdx = wrapIdx q.size (wrapIdx q.size (q.out + 1) + (q.count - 1))
      rw [hin]; unfold wrapIdx; split_ifs <;> omega
    · intro k hk
      show q.buffer[(wrapIdx q.size (wrapIdx q.size (q.out + 1) + k)).toNat]? = some rest[k]?
      have h1 := hslots (k + 1) (by simp; omega)
      have hw : wrapIdx q.size (wrapIdx q.size (q.out + 1) + k)
          = wrapIdx q.size (q.out + ((k + 1 : Nat) : Int)) := by
        unfold wrapIdx; push_cast; split_ifs <;> omega
      rw [hw, h1]
      simp

theorem walk_spec (q : BqData α) (xs : List α) (hrep : BqRep q xs) :
    ∀ (n j : Nat), j + n = xs.length →
      walk q n (wrapIdx q.size (q.out + j)) = some ((xs.drop j).map some) := by
  obtain ⟨hs, hlen, ho0, ho1, hc, hcs, hin, hslots⟩ := hrep
  intro n
  induction n with
  | zero =>
    intro j hj
    have : j = xs.length := by omega
    subst this
    simp [walk]
  | succ n ih =>
    intro j hj
    have hjl : j < xs.length := by omega
    have hi0 : 0 ≤ wrapIdx q.size (q.out + j) := by unfold wrapIdx; split_ifs <;> omega
    have hi1 : wrapIdx q.size (q.out + j) < q.size := by unfold wrapIdx; split_ifs <;> omega
    have hnext : (wrapIdx q.size (q.out + j) + 1) % q.size
        = wrapIdx q.size (q.out + ((j + 1 : Nat) : Int)) := by
      rw [succ_emod q.size _ hi0 hi1]
      unfold wrapIdx; push_cast; split_ifs <;> omega
    have hget := hslots j hjl
    rw [List.getElem?_eq_getElem hjl] at hget
    have hcond : 0 ≤ wrapIdx q.size (q.out + j) ∧ q.size ≠ 0 := ⟨hi0, by omega⟩
    unfold walk
    rw [if_pos hcond]
    simp only [hget, hnext, ih (j + 1) (by omega), Option.bind_eq_bind, Option.some_bind]
    rw [List.drop_eq_getElem_cons hjl]
    rfl

theorem toArray_spec (q : BqData α) (xs : List α) (hrep : BqRep q xs) :
    bq_toArray q true
      = some (if xs.length = 0 then (none, none)
          else (some (xs.map some), some (xs.length : Int))) := by
  have hw := walk_spec q xs hrep xs.length 0 (by simp)
  obtain ⟨hs, hlen, ho0, ho1, hc, hcs, hin, hslots⟩ := hrep
  have hw0 : wrapIdx q.size (q.out + ((0 : Nat) : Int)) = q.out := by
    unfold wrapIdx; simp [ho1]
  rw [hw0] at hw
  cases xs with
  | nil =>
    have : ¬ q.count > 0 := by simp at hc; omega
    simp [bq_toArray, toArray, this]
  | cons e rest =>
    have hpos : q.count > 0 := by simp at hc; omega
    have htn : q.count.toNat = (e :: rest).length := by omega
    simp only [bq_toArray, toArray, hpos, if_true, htn, hw, List.drop_zero]
    simp [hc]


theorem bqRun_spec (ops : List (QOp α)) :
    ∀ (q : BqData α) (xs : List α), BqRep q xs →
      ∃ q1 added removed xs1, bqRun ops q = some (q1, added, removed) ∧ BqRep q1 xs1 ∧
        (xs ++ added).map some = removed ++ xs1.map some := by
  induction ops with
  | nil =>
    intro q xs hrep
    exact ⟨q, [], [], xs, rfl, hrep, by simp⟩
  | cons op ops ih =>
    intro q xs hrep
    cases op with
    | add e =>
      by_cases hfull : q.count = q.size
      · obtain ⟨q1, added, removed, xs1, hrun, hrep1, heq⟩ := ih q xs hrep
        refine ⟨q1, added, removed, xs1, ?_, hrep1, heq⟩
        simp [bqRun, bq_add_full q e hfull, hrun]
      · obtain ⟨q0, hadd, hrep0, _, _⟩ := bq_add_spec q xs e hrep hfull
        obtain ⟨q1, added, removed, xs1, hrun, hrep1, heq⟩ := ih q0 (xs ++ [e]) hrep0
        refine ⟨q1, e :: added, removed, xs1, ?_, hrep1, ?_⟩
        · simp [bqRun, hadd, hrun]
        · rw [← heq]; simp
    | remove =>
      cases xs with
      | nil =>
        have hc : q.count ≤ 0 := by
          have := hrep.2.2.2.2.1
          simp at this; omega
        obtain ⟨q1, added, removed, xs1, hrun, hrep1, heq⟩ := ih q [] hrep
        refine ⟨q1, added, removed, xs1, ?_, hrep1, heq⟩
        simp [bqRun, bq_remove, retrieve_empty q true hc, hrun]
      | cons x rest =>
        obtain ⟨_, q0, hrem, hrep0, _, _⟩ := retrieve_spec q x rest hrep
        obtain ⟨q1, added, removed, xs1, hrun, hrep1, heq⟩ := ih q0 rest hrep0
        refine ⟨q1, added, some x :: removed, xs1, ?_, hrep1, ?_⟩
        · simp [bqRun, hrem, hrun]
        · simp only [List.cons_append, List.map_cons, heq]

theorem addAll_spec (es : List α) :
    ∀ (q : BqData α) (xs : List α), BqRep q xs → (xs.length : Int) + es.length ≤ q.size →
      ∃ q1, addAll es q = some (List.replicate es.length 1, q1) ∧ BqRep q1 (xs ++ es) ∧
        q1.size = q.size := by
  induction es with
  | nil =>
    intro q xs hrep _
    exact ⟨q, rfl, by simpa using hrep, rfl⟩
  | cons e es ih =>
    intro q xs hrep hle
    have hc := hrep.2.2.2.2.1
    simp only [List.length_cons] at hle
    have hfull : q.count ≠ q.size := by omega
    obtain ⟨q0, hadd, hrep0, _, hsz0⟩ := bq_add_spec q xs e hrep hfull
    obtain ⟨q1, hall, hrep1, hsz1⟩ := ih q0 (xs ++ [e]) hrep0 (by
      rw [hsz0]; simp only [List.length_append, List.length_singleton]; push_cast; omega)
    refine ⟨q1, ?_, ?_, by rw [hsz1, hsz0]⟩
    · simp [addAll, hadd, hall, List.replicate_succ]
    · simpa using hrep1

theorem bq_clear_spec (q : BqData α) (xs : List α) (uf : Bool) (hrep : BqRep q xs) :
    ∃ q1, bq_clear q uf = some (q1, if uf then xs.map some else []) ∧ BqRep q1 [] ∧
      q1.size = q.size := by
  have hw := walk_spec q xs hrep xs.length 0 (by simp)
  obtain ⟨hs, hlen, ho0, ho1, hc, hcs, hin, hslots⟩ := hrep
  have hw0 : wrapIdx q.size (q.out + ((0 : Nat) : Int)) = q.out := by
    unfold wrapIdx; simp [ho1]
  rw [hw0, List.drop_zero] at hw
  have htn : q.count.toNat = xs.length := by omega
  have hle : q.size ≤ (q.buffer.length : Int) := by omega
  have hdrop : q.buffer.drop q.size.toNat = [] := by
    apply List.drop_of_length_le; omega
  refine ⟨{ count := 0, size := q.size, inIdx := 0, out := 0,
            buffer := List.replicate q.size.toNat none ++ q.buffer.drop q.size.toNat },
    ?_, ?_, rfl⟩
  · cases uf
    · simp [bq_clear, purge, hle]
    · simp [bq_clear, purge, htn, hw, hle]
  · refine ⟨hs, ?_, le_refl _, hs, rfl, le_of_lt hs, ?_, ?_⟩
    · show ((List.replicate q.size.toNat none ++ q.buffer.drop q.size.toNat).length : Int)
        = q.size
      rw [hdrop]; simp; omega
    · show (0 : Int) = wrapIdx q.size (0 + 0)
      unfold wrapIdx; simp [hs]
    · intro k hk; simp at hk


/-- C17. For every requested capacity and every sequence of add and remove
calls on the queue created with it, the calls run to completion, the queue
state holds a list `xs`, the removes that returned 1 yielded, in order, the
first elements passed to the adds that returned 1 (the k-th remove yields the
element of the k-th add), `xs` is the rest of the added elements in add
order, and toArray (malloc succeeding) returns `xs` from oldest to newest
with its length, or NULL when the queue holds nothing. -/
theorem C17_bounded_queue_is_fifo (capacity : Int) (ops : List (QOp α)) :
    ∃ q added removed xs, bqRun ops (BQueue_create capacity) = some (q, added, removed) ∧
      BqRep q xs ∧
      removed = (added.take removed.length).map some ∧
      (∀ k, k < removed.length → removed[k]? = some added[k]?) ∧
      xs = added.drop removed.length ∧
      bq_toArray q true
        = some (if xs.length = 0 then (none, none)
            else (some (xs.map some), some (xs.length : Int))) := by
  obtain ⟨q, added, removed, xs, hrun, hrep, heq⟩ :=
    bqRun_spec ops (BQueue_create capacity) [] (BQueue_create_rep capacity)
  simp only [List.nil_append] at heq
  have h1 : removed = (added.take removed.length).map some := by
    have := congrArg (List.take removed.length) heq
    rw [List.take_left' rfl, ← List.map_take] at this
    exact this.symm
  have h2 : xs = added.drop removed.length := by
    have := congrArg (List.drop removed.length) heq
    rw [List.drop_left' rfl, ← List.map_drop] at this
    exact (List.map_injective_iff.2 (Option.some_injective α) this).symm
  refine ⟨q, added, removed, xs, hrun, hrep, h1, ?_, h2, toArray_spec q xs hrep⟩
  intro k hk
  have h3 : removed[k]? = (added.map some)[k]? := by
    rw [heq, List.getElem?_append_left hk]
  rw [h3, List.getElem?_map]
  have hlen : removed.length ≤ added.length := by
    have := congrArg List.length heq
    simp at this; omega
  rw [List.getElem?_eq_getElem (by omega : k < added.length)]
  rfl

/-- The witness named in C17: capacity 2, add A, add B, remove gives A, add C;
the contents are then B, C, the indices having wrapped around. -/
theorem C17_bounded_queue_is_fifo_witness :
    (∃ q added removed xs,
      bqRun [.add "A", .add "B", .remove, .add "C"] (BQueue_create 2)
        = some (q, added, removed) ∧
      BqRep q xs ∧ removed = (added.take removed.length).map some ∧
      (∀ k, k < removed.length → removed[k]? = some added[k]?) ∧
      xs = added.drop removed.length ∧
      bq_toArray q true
        = some (if xs.length = 0 then (none, none)
            else (some (xs.map some), some (xs.length : Int)))) ∧
    bqRun [.add "A", .add "B", .remove, .add "C"] (BQueue_create 2)
      = some ({ count := 2, size := 2, inIdx := 1, out := 1, buffer := [some "C", some "B"] },
          ["A", "B", "C"], [some "A"]) ∧
    bq_toArray
        ({ count := 2, size := 2, inIdx := 1, out := 1, buffer := [some "C", some "B"] } :
          BqData String) true
      = some (some [some "B", some "C"], some 2) :=
  ⟨C17_bounded_queue_is_fifo 2 _, by rfl, by rfl⟩

/-- C18. On a bounded queue holding the list `xs`, add returns 0 and leaves
the queue unchanged when size() equals the capacity, and otherwise returns 1
with size() one larger and the element appended; so it returns 0 exactly when
the queue is full. A queue created with requested capacity c in 1..10240
accepts c consecutive adds and rejects the next one; requested capacity 0
gives capacity 25. -/
theorem C18_add_rejected_exactly_when_full :
    (∀ (q : BqData α) (xs : List α) (e : α), BqRep q xs →
      (bq_size q = q.size → bq_add q e = some (0, q)) ∧
      (bq_size q ≠ q.size →
        ∃ q1, bq_add q e = some (1, q1) ∧ bq_size q1 = bq_size q + 1 ∧
          BqRep q1 (xs ++ [e]))) ∧
    (∀ (c : Int) (es : List α) (e : α), 1 ≤ c → c ≤ 10240 → (es.length : Int) = c →
      (BQueue_create c : BqData α).size = c ∧
      ∃ q1, addAll es (BQueue_create c) = some (List.replicate es.length 1, q1) ∧
        bq_size q1 = c ∧ bq_add q1 e = some (0, q1)) ∧
    (BQueue_create 0 : BqData α).size = 25 := by
  refine ⟨?_, ?_, rfl⟩
  · intro q xs e hrep
    refine ⟨fun h => bq_add_full q e h, fun h => ?_⟩
    obtain ⟨q1, hadd, hrep1, hc, _⟩ := bq_add_spec q xs e hrep h
    exact ⟨q1, hadd, hc, hrep1⟩
  · intro c es e h1 h2 hlen
    have hsz : (BQueue_create c : BqData α).size = c := by
      rw [BQueue_create_size]; split_ifs <;> omega
    obtain ⟨q1, hall, hrep1, hsz1⟩ :=
      addAll_spec es (BQueue_create c) [] (BQueue_create_rep c) (by rw [hsz]; simp; omega)
    have hcount : q1.count = c := by
      have := hrep1.2.2.2.2.1
      simp at this; omega
    exact ⟨hsz, q1, hall, hcount, bq_add_full q1 e (by rw [hcount, hsz1, hsz])⟩

/-- Instance of C18: capacity 2 accepts two adds and rejects the third. -/
theorem C18_add_rejected_exactly_when_full_witness :
    BqRep (BQueue_create 2 : BqData String) [] ∧
    (bq_size (BQueue_create 2 : BqData String) ≠ (BQueue_create 2 : BqData String).size →
      ∃ q1, bq_add (BQueue_create 2) "A" = some (1, q1) ∧
        bq_size q1 = bq_size (BQueue_create 2 : BqData String) + 1 ∧ BqRep q1 ([] ++ ["A"])) ∧
    ((BQueue_create 2 : BqData String).size = 2 ∧
      ∃ q1, addAll ["A", "B"] (BQueue_create 2) = some (List.replicate 2 1, q1) ∧
        bq_size q1 = 2 ∧ bq_add q1 "C" = some (0, q1)) :=
  ⟨BQueue_create_rep 2,
    ((C18_add_rejected_exactly_when_full.1 (BQueue_create 2) [] "A") (BQueue_create_rep 2)).2,
    C18_add_rejected_exactly_when_full.2.1 2 ["A", "B"] "C" (by decide) (by decide) (by rfl)⟩

end BQueue

namespace TSBQueue
open BQueue
variable {α : Type}

theorem step_done (C : Int) (d D : TSBqData α) (op : TSOp α) (hstep : tsStep d op = some D)
    (hD : ∃ xs1, BqRep D.bq xs1 ∧ D.cap = D.bq.size ∧ D.cap = C) :
    (∀ d1, tsStep d op = some d1 → ∃ xs1, BqRep d1.bq xs1 ∧ d1.cap = d1.bq.size ∧ d1.cap = C) ∧
    (TSOp.enabled d op = true → ∃ d1, tsStep d op = some d1) := by
  refine ⟨fun d1 h1 => ?_, fun _ => ⟨D, hstep⟩⟩
  rw [hstep] at h1
  cases h1
  exact hD

theorem step_blocked (C : Int) (d : TSBqData α) (op : TSOp α) (hstep : tsStep d op = none)
    (hen : TSOp.enabled d op = false) :
    (∀ d1, tsStep d op = some d1 → ∃ xs1, BqRep d1.bq xs1 ∧ d1.cap = d1.bq.size ∧ d1.cap = C) ∧
    (TSOp.enabled d op = true → ∃ d1, tsStep d op = some d1) := by
  refine ⟨fun d1 h1 => ?_, fun h => ?_⟩
  · rw [hstep] at h1; cases h1
  · rw [hen] at h; cases h

theorem tsStep_inv (C : Int) (d : TSBqData α) (op : TSOp α)
    (hinv : ∃ xs, BqRep d.bq xs ∧ d.cap = d.bq.size ∧ d.cap = C) :
    (∀ d1, tsStep d op = some d1 → ∃ xs1, BqRep d1.bq xs1 ∧ d1.cap = d1.bq.size ∧ d1.cap = C) ∧
    (TSOp.enabled d op = true → ∃ d1, tsStep d op = some d1) := by
  obtain ⟨xs, hrep, hcap, hC⟩ := hinv
  have hcount : d.bq.count = xs.length := hrep.2.2.2.2.1
  cases op with
  | add e =>
    by_cases hfull : d.bq.count = d.bq.size
    · have hadd := bq_add_full d.bq e hfull
      have hstep : tsStep d (.add e) = some d := by
        simp [tsStep, tsbq_add, hadd]
      exact step_done C d d _ hstep ⟨xs, hrep, hcap, hC⟩
    · obtain ⟨q1, hadd, hrep1, _, hsz⟩ := bq_add_spec d.bq xs e hrep hfull
      have hstep : tsStep d (.add e) = some { cap := d.cap, bq := q1 } := by
        simp [tsStep, tsbq_add, hadd]
      exact step_done C d _ _ hstep ⟨xs ++ [e], hrep1, by rw [hsz]; exact hcap, hC⟩
  | put e =>
    by_cases hfull : d.bq.count = d.cap
    · have hstep : tsStep d (.put e) = none := by
        simp [tsStep, tsbq_put, bq_size, hfull]
      exact step_blocked C d _ hstep (by simp [TSOp.enabled, bq_size, hfull])
    · obtain ⟨q1, hadd, hrep1, _, hsz⟩ :=
        bq_add_spec d.bq xs e hrep (by rw [← hcap]; exact hfull)
      have hstep : tsStep d (.put e) = some { cap := d.cap, bq := q1 } := by
        simp [tsStep, tsbq_put, bq_size, hfull, hadd]
      exact step_done C d _ _ hstep ⟨xs ++ [e], hrep1, by rw [hsz]; exact hcap, hC⟩
  | remove =>
    cases xs with
    | nil =>
      have hrem := retrieve_empty d.bq true (by simp at hcount; omega)
      have hstep : tsStep d .remove = some d := by
        simp [tsStep, tsbq_remove, bq_remove, hrem]
      exact step_done C d d _ hstep ⟨[], hrep, hcap, hC⟩
    | cons x rest =>
      obtain ⟨_, q1, hrem, hrep1, _, hsz⟩ := retrieve_spec d.bq x rest hrep
      have hstep : tsStep d .remove = some { cap := d.cap, bq := q1 } := by
        simp [tsStep, tsbq_remove, hrem]
      exact step_done C d _ _ hstep ⟨rest, hrep1, by rw [hsz]; exact hcap, hC⟩
  | take =>
    cases xs with
    | nil =>
      have h0 : d.bq.count = 0 := by simpa using hcount
      have hstep : tsStep d .take = none := by
        simp [tsStep, tsbq_take, bq_size, h0]
      exact step_blocked C d _ hstep (by simp [TSOp.enabled, bq_size, h0])
    | cons x rest =>
      have h0 : d.bq.count ≠ 0 := by simp at hcount; omega
      obtain ⟨_, q1, hrem, hrep1, _, hsz⟩ := retrieve_spec d.bq x rest hrep
      have hstep : tsStep d .take = some { cap := d.cap, bq := q1 } := by
        simp [tsStep, tsbq_take, bq_size, h0, hrem]
      exact step_done C d _ _ hstep ⟨rest, hrep1, by rw [hsz]; exact hcap, hC⟩
  | peek =>
    have hstep : tsStep d .peek = some d := by
      cases xs with
      | nil =>
        have hpk := retrieve_empty d.bq false (by simp at hcount; omega)
        simp [tsStep, tsbq_peek, bq_peek, hpk]
      | cons x rest =>
        obtain ⟨hpk, _⟩ := retrieve_spec d.bq x rest hrep
        simp [tsStep, tsbq_peek, hpk]
    exact step_done C d d _ hstep ⟨xs, hrep, hcap, hC⟩
  | clear uf =>
    obtain ⟨q1, hclr, hrep1, hsz⟩ := bq_clear_spec d.bq xs uf hrep
    have hstep : tsStep d (.clear uf) = some { cap := d.cap, bq := q1 } := by
      simp [tsStep, tsbq_clear, hclr]
    exact step_done C d _ _ hstep ⟨[], hrep1, by rw [hsz]; exact hcap, hC⟩

theorem tsRun_inv (C : Int) (ops : List (TSOp α)) :
    ∀ d : TSBqData α, (∃ xs, BqRep d.bq xs ∧ d.cap = d.bq.size ∧ d.cap = C) →
      ∀ d1, tsRun ops d = some d1 → ∃ xs1, BqRep d1.bq xs1 ∧ d1.cap = d1.bq.size ∧ d1.cap = C := by
  induction ops with
  | nil => intro d hinv d1 h; cases h; exact hinv
  | cons op ops ih =>
    intro d hinv d1 h
    cases hs : tsStep d op with
    | none => simp [tsRun, hs] at h
    | some d0 =>
      have h2 : tsRun ops d0 = some d1 := by simpa [tsRun, hs] using h
      exact ih d0 ((tsStep_inv C d op hinv).1 d0 hs) d1 h2

/-- C19. In every state reached from TSBQueue_create(capacity), for any
requested capacity, by add, put, remove, take, peek and clear steps (put taken
only when the queue is not full, take only when it is not empty), size() is
at least 0 and at most the capacity C, where C is the requested capacity
clamped to 1..10240 with 25 for a request of 0 or less, recorded alike by the
wrapper and by the inner queue; and every step that can be taken runs to
completion. -/
theorem C19_size_between_zero_and_capacity (capacity : Int) (ops : List (TSOp α))
    (d : TSBqData α) (h : tsRun ops (TSBQueue_create capacity) = some d) :
    0 ≤ (tsbq_size d).1 ∧ (tsbq_size d).1 ≤ d.cap ∧ d.cap = d.bq.size ∧
    d.cap = (if capacity ≤ 0 then 25 else if capacity > 10240 then 10240 else capacity) ∧
    (∀ op, TSOp.enabled d op = true → ∃ d1, tsStep d op = some d1) := by
  have hinit : ∃ xs, BqRep (TSBQueue_create capacity : TSBqData α).bq xs ∧
      (TSBQueue_create capacity : TSBqData α).cap = (TSBQueue_create capacity : TSBqData α).bq.size ∧
      (TSBQueue_create capacity : TSBqData α).cap
        = (if capacity ≤ 0 then 25 else if capacity > 10240 then 10240 else capacity) :=
    ⟨[], BQueue_create_rep capacity, rfl, rfl⟩
  have hinv := tsRun_inv _ ops _ hinit d h
  obtain ⟨xs, hrep, hcap, hC⟩ := hinv
  have hcount : d.bq.count = xs.length := hrep.2.2.2.2.1
  have hle : d.bq.count ≤ d.bq.size := hrep.2.2.2.2.2.1
  refine ⟨?_, ?_, hcap, hC, fun op hen => (tsStep_inv _ d op ⟨xs, hrep, hcap, hC⟩).2 hen⟩
  · show 0 ≤ d.bq.count
    omega
  · show d.bq.count ≤ d.cap
    omega


/-- Instance of C19: capacity 2; put A, add B, add C (rejected), take, peek,
put D. -/
theorem C19_size_between_zero_and_capacity_witness :
    tsRun [.put "A", .add "B", .add "C", .take, .peek, .put "D"] (TSBQueue_create 2)
      = some tsQueueBD ∧
    0 ≤ (tsbq_size tsQueueBD).1 ∧ (tsbq_size tsQueueBD).1 ≤ tsQueueBD.cap :=
  have h : tsRun [.put "A", .add "B", .add "C", .take, .peek, .put "D"] (TSBQueue_create 2)
      = some tsQueueBD := by rfl
  ⟨h, (C19_size_between_zero_and_capacity 2 _ _ h).1,
    (C19_size_between_zero_and_capacity 2 _ _ h).2.1⟩

end TSBQueue

/-! ## The linked list: the ring of nodes and the free list -/

namespace LinkedList
variable {α : Type}

theorem read_sentinel (lld : LlData α) : lld.read .sentinel = some lld.sentinel := rfl

theorem read_with_size (lld : LlData α) (s : Int) (r : Ptr) :
    ({ lld with size := s } : LlData α).read r = lld.read r := by
  cases r <;> rfl

theorem read_with_freel (lld : LlData α) (f : Ptr) (r : Ptr) :
    ({ lld with freel := f } : LlData α).read r = lld.read r := by
  cases r <;> rfl

theorem write_some (lld : LlData α) (p : Ptr) (n n0 : LLNode α) (h : lld.read p = some n0) :
    ∃ lld1, lld.write p n = some lld1 ∧ lld1.size = lld.size ∧ lld1.freel = lld.freel ∧
      ∀ r, lld1.read r = if r = p then some n else lld.read r := by
  cases p with
  | null => simp [LlData.read] at h
  | unset => simp [LlData.read] at h
  | sentinel =>
    refine ⟨_, rfl, rfl, rfl, ?_⟩
    intro r
    cases r <;> simp [LlData.read]
  | node i =>
    have hi : i < lld.nodes.length := by
      simp only [LlData.read] at h
      by_contra hc
      rw [List.getElem?_eq_none (by omega)] at h
      exact Option.noConfusion h
    refine ⟨{ lld with nodes := lld.nodes.set i n }, by simp [LlData.write, hi], rfl, rfl, ?_⟩
    intro r
    cases r with
    | null => simp [LlData.read]
    | unset => simp [LlData.read]
    | sentinel => simp [LlData.read]
    | node j =>
      by_cases hj : j = i
      · subst hj
        simp [LlData.read, hi]
      · have hji : ¬ (Ptr.node j = Ptr.node i) := by simpa using hj
        simp only [LlData.read, hji, if_false]
        exact List.getElem?_set_ne (Ne.symm hj)

theorem setNext_some (lld : LlData α) (p q : Ptr) (n : LLNode α) (h : lld.read p = some n) :
    ∃ lld1, lld.setNext p q = some lld1 ∧ lld1.size = lld.size ∧ lld1.freel = lld.freel ∧
      ∀ r, lld1.read r = if r = p then some { n with next := q } else lld.read r := by
  obtain ⟨l1, h1, h2, h3, h4⟩ := write_some lld p { n with next := q } n h
  exact ⟨l1, by simp [LlData.setNext, h, h1], h2, h3, h4⟩

theorem setPrev_some (lld : LlData α) (p q : Ptr) (n : LLNode α) (h : lld.read p = some n) :
    ∃ lld1, lld.setPrev p q = some lld1 ∧ lld1.size = lld.size ∧ lld1.freel = lld.freel ∧
      ∀ r, lld1.read r = if r = p then some { n with prev := q } else lld.read r := by
  obtain ⟨l1, h1, h2, h3, h4⟩ := write_some lld p { n with prev := q } n h
  exact ⟨l1, by simp [LlData.setPrev, h, h1], h2, h3, h4⟩

theorem setElement_some (lld : LlData α) (p : Ptr) (e : Option α) (n : LLNode α)
    (h : lld.read p = some n) :
    ∃ lld1, lld.setElement p e = some lld1 ∧ lld1.size = lld.size ∧ lld1.freel = lld.freel ∧
      ∀ r, lld1.read r = if r = p then some { n with element := some e } else lld.read r := by
  obtain ⟨l1, h1, h2, h3, h4⟩ := write_some lld p { n with element := some e } n h
  exact ⟨l1, by simp [LlData.setElement, h, h1], h2, h3, h4⟩

theorem putEntry_some (lld : LlData α) (p : Ptr) (n : LLNode α) (h : lld.read p = some n) :
    ∃ lld1, putEntry lld p = some lld1 ∧ lld1.size = lld.size ∧ lld1.freel = p ∧
      ∀ r, lld1.read r
        = if r = p then some (LLNode.mk lld.freel n.prev (some none)) else lld.read r := by
  obtain ⟨l1, h1, h2, h3, h4⟩ := setElement_some lld p none n h
  have hp1 : l1.read p = some { n with element := some none } := by rw [h4]; simp
  obtain ⟨l2, g1, g2, g3, g4⟩ := setNext_some l1 p l1.freel _ hp1
  refine ⟨{ l2 with freel := p }, by simp [putEntry, h1, g1], ?_, rfl, ?_⟩
  · show l2.size = lld.size
    rw [g2, h2]
  · intro r
    rw [read_with_freel, g4, h4, h3]
    by_cases hr : r = p <;> simp [hr]

theorem malloc_read (lld : LlData α) (r : Ptr) :
    (malloc lld).2.read r
      = if r = .node lld.nodes.length then some (LLNode.mk .unset .unset none) else lld.read r := by
  cases r with
  | null => simp [LlData.read]
  | unset => simp [LlData.read]
  | sentinel => simp [LlData.read, malloc]
  | node j =>
    simp only [LlData.read, malloc, Ptr.node.injEq]
    by_cases hj : j = lld.nodes.length
    · subst hj; simp
    · simp only [hj, if_false]
      by_cases hlt : j < lld.nodes.length
      · rw [List.getElem?_append_left hlt]
      · rw [List.getElem?_eq_none (by simp; omega), List.getElem?_eq_none (by omega)]

theorem ptrAt_cons_succ (stop : Ptr) (a : Nat) (ps : List Nat) (k : Nat) :
    ptrAt stop (a :: ps) (k + 1) = ptrAt stop ps k := by
  simp [ptrAt]

theorem ptrAt_cons_zero (stop : Ptr) (a : Nat) (ps : List Nat) :
    ptrAt stop (a :: ps) 0 = .node a := by
  simp [ptrAt]

theorem ptrAt_nil (stop : Ptr) (k : Nat) : ptrAt stop [] k = stop := by
  simp [ptrAt]

theorem ptrAt_of_get (stop : Ptr) (ps : List Nat) (k i : Nat) (h : ps[k]? = some i) :
    ptrAt stop ps k = .node i := by
  simp [ptrAt, h]

theorem ptrAt_of_le (stop : Ptr) (ps : List Nat) (k : Nat) (h : ps.length ≤ k) :
    ptrAt stop ps k = stop := by
  simp [ptrAt, List.getElem?_eq_none h]

theorem ptrAt_append_left (stop : Ptr) (ps qs : List Nat) (k : Nat) (h : k < ps.length) :
    ptrAt stop (ps ++ qs) k = ptrAt stop ps k := by
  simp [ptrAt, List.getElem?_append_left h]

theorem ptrBefore_append (ps qs : List Nat) (k : Nat) (h : k ≤ ps.length) :
    ptrBefore (ps ++ qs) k = ptrBefore ps k := by
  cases k with
  | zero => rfl
  | succ j => exact ptrAt_append_left _ ps qs j (by omega)

theorem nodup_get_inj (ps : List Nat) (hnd : ps.Nodup) (k j i : Nat)
    (hk : ps[k]? = some i) (hj : ps[j]? = some i) : k = j := by
  have hk1 : k < ps.length := by
    by_contra hc; rw [List.getElem?_eq_none (by omega)] at hk; exact Option.noConfusion hk
  have hj1 : j < ps.length := by
    by_contra hc; rw [List.getElem?_eq_none (by omega)] at hj; exact Option.noConfusion hj
  rw [List.getElem?_eq_getElem hk1] at hk
  rw [List.getElem?_eq_getElem hj1] at hj
  have heq : ps[k] = ps[j] := by rw [Option.some.inj hk, Option.some.inj hj]
  exact (List.Nodup.getElem_inj_iff hnd).1 heq


theorem mem_of_get {ps : List Nat} {k i : Nat} (h : ps[k]? = some i) : i ∈ ps := by
  exact List.getElem?_mem h

theorem LlRepAt_frame (l l1 : LlData α) (xs : List α) (ps fs : List Nat)
    (hs : l1.size = l.size) (hf : l1.freel = l.freel) (hsen : l1.sentinel = l.sentinel)
    (hr : ∀ i, i ∈ ps ++ fs → l1.read (.node i) = l.read (.node i))
    (h : LlRepAt l xs ps fs) : LlRepAt l1 xs ps fs := by
  obtain ⟨h1, h2, h3, h4, h5, h6, h7, h8⟩ := h
  refine ⟨h1, h2, by rw [hs, h3], by rw [hsen, h4], by rw [hsen, h5], ?_, by rw [hf, h7], ?_⟩
  · intro k i x hk hx
    rw [hr i (List.mem_append_left _ (mem_of_get hk))]
    exact h6 k i x hk hx
  · intro k i hk
    rw [hr i (List.mem_append_right _ (mem_of_get hk))]
    exact h8 k i hk

theorem sentinel_of_read (l l1 : LlData α) (h : l1.read .sentinel = l.read .sentinel) :
    l1.sentinel = l.sentinel := by
  simpa [LlData.read] using h

/-- putEntry of a node outside the list and the free list puts it at the head
of the free list. -/
theorem push_free (l : LlData α) (xs : List α) (ps fs : List Nat) (f : Nat) (n : LLNode α)
    (h : LlRepAt l xs ps fs) (hf : f ∉ ps ++ fs) (hn : l.read (.node f) = some n) :
    ∃ l1, putEntry l (.node f) = some l1 ∧ LlRepAt l1 xs ps (f :: fs) := by
  obtain ⟨l1, g1, g2, g3, g4⟩ := putEntry_some l (.node f) n hn
  refine ⟨l1, g1, ?_⟩
  obtain ⟨h1, h2, h3, h4, h5, h6, h7, h8⟩ := h
  have hsen : l1.sentinel = l.sentinel := sentinel_of_read _ _ (by rw [g4]; simp)
  have hne : ∀ i, i ∈ ps ++ fs → l1.read (.node i) = l.read (.node i) := by
    intro i hi
    rw [g4]
    have : i ≠ f := fun hc => hf (hc ▸ hi)
    simp [this]
  refine ⟨h1, ?_, by rw [g2, h3], by rw [hsen, h4], by rw [hsen, h5], ?_, ?_, ?_⟩
  · have : ps ++ f :: fs = ps ++ [f] ++ fs := by simp
    rw [this]
    rw [List.nodup_append] at h2 ⊢
    simp only [List.mem_append, not_or] at hf
    refine ⟨?_, h2.2.1, ?_⟩
    · rw [List.nodup_append]
      refine ⟨h2.1, List.nodup_singleton f, ?_⟩
      intro a ha hb
      simp at hb
      exact hf.1 (hb ▸ ha)
    · intro a ha hb
      simp only [List.mem_append, List.mem_singleton] at ha
      rcases ha with ha | ha
      · exact h2.2.2 ha hb
      · exact hf.2 (ha ▸ hb)
  · intro k i x hk hx
    rw [hne i (List.mem_append_left _ (mem_of_get hk))]
    exact h6 k i x hk hx
  · rw [g3, ptrAt_cons_zero]
  · intro k i hk
    cases k with
    | zero =>
      simp at hk
      subst hk
      refine ⟨_, by rw [g4]; simp; rfl, ?_⟩
      rw [ptrAt_cons_succ]
      exact h7
    | succ j =>
      simp at hk
      rw [hne i (List.mem_append_right _ (mem_of_get hk)), ptrAt_cons_succ]
      exact h8 j i hk

/-- Taking the head of the free list. -/
theorem pop_free (l : LlData α) (xs : List α) (ps fs : List Nat) (f : Nat)
    (h : LlRepAt l xs ps (f :: fs)) :
    ∃ n, l.read (.node f) = some n ∧ l.freel = .node f ∧ f ∉ ps ++ fs ∧
      LlRepAt { l with freel := n.next } xs ps fs := by
  obtain ⟨h1, h2, h3, h4, h5, h6, h7, h8⟩ := h
  obtain ⟨n, hn, hnx⟩ := h8 0 f (by simp)
  have hnd : (ps ++ [f] ++ fs).Nodup := by simpa using h2
  rw [List.nodup_append] at hnd
  obtain ⟨hnd1, hnd2, hnd3⟩ := hnd
  rw [List.nodup_append] at hnd1
  obtain ⟨hnd4, _, hnd5⟩ := hnd1
  have hnd6 : ∀ a, a ∈ ps → a ∈ fs → False := fun a ha hb =>
    hnd3 (List.mem_append_left _ ha) hb
  refine ⟨n, hn, by rw [h7, ptrAt_cons_zero], ?_, h1, ?_, h3, h4, h5, ?_, ?_, ?_⟩
  · intro hc
    rw [List.mem_append] at hc
    rcases hc with hc | hc
    · exact hnd5 hc (by simp)
    · exact hnd3 (by simp) hc
  · rw [List.nodup_append]
    exact ⟨hnd4, hnd2, fun a ha hb => hnd6 a ha hb⟩
  · intro k i x hk hx
    rw [read_with_freel]
    exact h6 k i x hk hx
  · show n.next = _
    rw [hnx, ptrAt_cons_succ]
  · intro k i hk
    obtain ⟨m, hm, hmx⟩ := h8 (k + 1) i (by simpa using hk)
    refine ⟨m, by rw [read_with_freel]; exact hm, ?_⟩
    rw [hmx, ptrAt_cons_succ]

theorem read_node_none (l : LlData α) : l.read (.node l.nodes.length) = none := by
  simp [LlData.read]

theorem refill_rep : ∀ (n m : Nat) (l : LlData α) (xs : List α) (ps fs : List Nat),
    LlRepAt l xs ps fs →
    ∃ l1 gs, refill n m l = some l1 ∧ LlRepAt l1 xs ps (gs ++ fs) ∧
      (0 < n → 0 < m → gs ≠ []) := by
  intro n
  induction n with
  | zero =>
    intro m l xs ps fs h
    exact ⟨l, [], rfl, by simpa using h, fun h0 => absurd h0 (by omega)⟩
  | succ n ih =>
    intro m l xs ps fs h
    cases m with
    | zero => exact ⟨l, [], rfl, by simpa using h, fun _ h0 => absurd h0 (by omega)⟩
    | succ m =>
      have hfresh : l.nodes.length ∉ ps ++ fs := by
        intro hc
        have hsome : ∃ nd, l.read (.node l.nodes.length) = some nd := by
          rw [List.mem_append] at hc
          rcases hc with hc | hc
          · obtain ⟨k, hk⟩ := List.getElem?_of_mem hc
            have hk1 : k < xs.length := by
              rw [← h.1]
              by_contra hcc
              rw [List.getElem?_eq_none (by omega)] at hk
              exact Option.noConfusion hk
            exact ⟨_, h.2.2.2.2.2.1 k _ xs[k] hk (List.getElem?_eq_getElem hk1)⟩
          · obtain ⟨k, hk⟩ := List.getElem?_of_mem hc
            obtain ⟨nd, hnd, _⟩ := h.2.2.2.2.2.2.2 k _ hk
            exact ⟨nd, hnd⟩
        obtain ⟨nd, hnd⟩ := hsome
        rw [read_node_none] at hnd
        exact Option.noConfusion hnd
      have hm : LlRepAt (malloc l).2 xs ps fs := by
        refine LlRepAt_frame l _ xs ps fs rfl rfl rfl ?_ h
        intro i hi
        rw [malloc_read]
        have : i ≠ l.nodes.length := fun hc => hfresh (hc ▸ hi)
        simp [this]
      have hrd : (malloc l).2.read (.node l.nodes.length) = some (LLNode.mk .unset .unset none) := by
        rw [malloc_read]; simp
      obtain ⟨l1, g1, g2⟩ := push_free (malloc l).2 xs ps fs l.nodes.length _ hm hfresh hrd
      obtain ⟨l2, gs, i1, i2, _⟩ := ih m l1 xs ps (l.nodes.length :: fs) g2
      refine ⟨l2, gs ++ [l.nodes.length], ?_, by simpa using i2, fun _ _ => by simp⟩
      show (putEntry (malloc l).2 (malloc l).1).bind (fun l1 => refill n m l1) = some l2
      have hp : (malloc l).1 = .node l.nodes.length := rfl
      rw [hp, g1]
      exact i1

theorem getEntry_rep (l : LlData α) (xs : List α) (ps fs : List Nat) (mallocs : Nat)
    (h : LlRepAt l xs ps fs) (hm : 0 < mallocs) :
    ∃ f fs1 l1 n, getEntry l mallocs = some (.node f, l1) ∧ LlRepAt l1 xs ps fs1 ∧
      l1.read (.node f) = some n ∧ f ∉ ps ++ fs1 := by
  have key : ∀ (l0 : LlData α) (f : Nat) (fs1 : List Nat), LlRepAt l0 xs ps (f :: fs1) →
      ∃ l1 n, (if l0.freel ≠ .null then (l0.read l0.freel).bind
          (fun n => some (l0.freel, { l0 with freel := n.next })) else some (l0.freel, l0))
          = some (.node f, l1) ∧ LlRepAt l1 xs ps fs1 ∧ l1.read (.node f) = some n ∧
          f ∉ ps ++ fs1 := by
    intro l0 f fs1 h0
    obtain ⟨n, hn, hfr, hnot, hrep⟩ := pop_free l0 xs ps fs1 f h0
    refine ⟨_, n, ?_, hrep, by rw [read_with_freel]; exact hn, hnot⟩
    simp [hfr, hn]
  cases fs with
  | nil =>
    have hfr : l.freel = .null := by rw [h.2.2.2.2.2.2.1, ptrAt_nil]
    obtain ⟨l0, gs, r1, r2, r3⟩ := refill_rep FL_INCREMENT mallocs l xs ps [] h
    have hgs := r3 (by decide) hm
    cases gs with
    | nil => exact absurd rfl hgs
    | cons g gs1 =>
      obtain ⟨l1, n, k1, k2, k3, k4⟩ := key l0 g (gs1 ++ []) (by simpa using r2)
      refine ⟨g, gs1 ++ [], l1, n, ?_, k2, k3, k4⟩
      simp only [getEntry, hfr, if_true, r1, Option.some_bind]
      exact k1
  | cons f fs1 =>
    have hfr : l.freel ≠ .null := by rw [h.2.2.2.2.2.2.1, ptrAt_cons_zero]; simp
    obtain ⟨l1, n, k1, k2, k3, k4⟩ := key l f fs1 h
    refine ⟨f, fs1, l1, n, ?_, k2, k3, k4⟩
    simp only [getEntry, hfr, if_false, Option.some_bind]
    exact k1

theorem create_rep : LlRepAt (LinkedList_create : LlData α) [] [] [] := by
  refine ⟨rfl, by simp, rfl, rfl, rfl, ?_, rfl, ?_⟩
  · intro k i x hk; simp at hk
  · intro k i hk; simp at hk


/-- The four stores of link, for a node `p` that is neither `before` nor the
sentinel, linked in before the sentinel. -/
theorem link_some (l : LlData α) (before : Ptr) (f : Nat) (n b0 : LLNode α)
    (hn : l.read (.node f) = some n) (hb : l.read before = some b0)
    (hne : before ≠ .node f) :
    ∃ l1, link l before (.node f) .sentinel = some l1 ∧ l1.size = l.size ∧
      l1.freel = l.freel ∧
      ∀ r, l1.read r =
        if r = before then
          some { (if before = .sentinel then { l.sentinel with prev := .node f } else b0)
                 with next := .node f }
        else if r = .sentinel then some { l.sentinel with prev := .node f }
        else if r = .node f then some { n with next := .sentinel, prev := before }
        else l.read r := by
  obtain ⟨l2, a1, a2, a3, a4⟩ := setNext_some l (.node f) .sentinel n hn
  have hn2 : l2.read (.node f) = some { n with next := .sentinel } := by rw [a4]; simp
  obtain ⟨l3, b1, b2, b3, b4⟩ := setPrev_some l2 (.node f) before _ hn2
  have hs3 : l3.read .sentinel = some l.sentinel := by
    rw [b4, a4]; simp [LlData.read]
  obtain ⟨l4, c1, c2, c3, c4⟩ := setPrev_some l3 .sentinel (.node f) _ hs3
  have hb4 : l4.read before
      = some (if before = .sentinel then { l.sentinel with prev := .node f } else b0) := by
    rw [c4]
    by_cases hbs : before = .sentinel
    · simp [hbs]
    · simp only [hbs, if_false]
      rw [b4, a4]
      simp [hne, hb]
  obtain ⟨l5, d1, d2, d3, d4⟩ := setNext_some l4 before (.node f) _ hb4
  refine ⟨l5, ?_, by rw [d2, c2, b2, a2], by rw [d3, c3, b3, a3], ?_⟩
  · simp [link, a1, b1, c1, d1]
  · intro r
    rw [d4]
    by_cases h1 : r = before
    · simp [h1]
    · simp only [h1, if_false]
      rw [c4]
      by_cases h2 : r = .sentinel
      · simp [h2]
      · simp only [h2, if_false]
        rw [b4]
        by_cases h3 : r = .node f
        · simp [h3]
        · simp only [h3, if_false]
          rw [a4]
          simp [h3]

theorem ptrAt_append_length (stop : Ptr) (ps : List Nat) (f : Nat) :
    ptrAt stop (ps ++ [f]) ps.length = .node f := by
  simp [ptrAt]

theorem get_lt {β : Type} {ps : List β} {k : Nat} {i : β} (h : ps[k]? = some i) : k < ps.length := by
  by_contra hc
  rw [List.getElem?_eq_none (by omega)] at h
  exact Option.noConfusion h

/-- Storing an element in a node outside the list and linking it in before
the sentinel appends the element. -/
theorem link_last (l : LlData α) (xs : List α) (ps fs : List Nat) (f : Nat) (n : LLNode α)
    (e : α) (h : LlRepAt l xs ps fs) (hf : f ∉ ps ++ fs) (hn : l.read (.node f) = some n) :
    ∃ l1 l2, l.setElement (.node f) (some e) = some l1 ∧
      link l1 l1.sentinel.prev (.node f) .sentinel = some l2 ∧
      LlRepAt { l2 with size := l2.size + 1 } (xs ++ [e]) (ps ++ [f]) fs := by
  obtain ⟨h1, h2, h3, h4, h5, h6, h7, h8⟩ := h
  obtain ⟨l1, a1, a2, a3, a4⟩ := setElement_some l (.node f) (some e) n hn
  have hsen : l1.sentinel = l.sentinel := sentinel_of_read _ _ (by rw [a4]; simp)
  have hn1 : l1.read (.node f) = some { n with element := some (some e) } := by rw [a4]; simp
  simp only [List.mem_append, not_or] at hf
  have hnd := h2
  rw [List.nodup_append] at hnd
  obtain ⟨hndp, hndf, hdis⟩ := hnd
  -- the node before the sentinel
  have hbne : ptrBefore ps ps.length ≠ .node f := by
    intro hc
    cases hlen : ps.length with
    | zero => rw [hlen] at hc; simp [ptrBefore] at hc
    | succ m =>
      rw [hlen] at hc
      have hm : m < ps.length := by omega
      simp only [ptrBefore, ptrAt, List.getElem?_eq_getElem hm, Ptr.node.injEq] at hc
      exact hf.1 (hc ▸ List.getElem_mem hm)
  have hbrd : ∃ b0, l1.read (ptrBefore ps ps.length) = some b0 ∧
      (ptrBefore ps ps.length ≠ .sentinel → ∀ m x, ps.length = m + 1 → xs[m]? = some x →
        b0 = LLNode.mk .sentinel (ptrBefore ps m) (some (some x))) := by
    cases hlen : ps.length with
    | zero => exact ⟨l1.sentinel, rfl, fun hc => absurd rfl hc⟩
    | succ m =>
      have hm : m < ps.length := by omega
      have hmx : m < xs.length := by omega
      have hpm : ps[m]? = some ps[m] := List.getElem?_eq_getElem hm
      have hrd := h6 m ps[m] xs[m] hpm (List.getElem?_eq_getElem hmx)
      have hpb : ptrBefore ps (m + 1) = .node ps[m] := by simp [ptrBefore, ptrAt, hpm]
      refine ⟨LLNode.mk (ptrAt .sentinel ps (m + 1)) (ptrBefore ps m) (some (some xs[m])), ?_, ?_⟩
      · rw [hpb, a4]
        have : ps[m] ≠ f := fun hc => hf.1 (hc ▸ List.getElem_mem hm)
        simp only [Ptr.node.injEq, this, if_false]
        exact hrd
      · intro _ m1 x hm1 hx
        have : m1 = m := by omega
        subst this
        rw [List.getElem?_eq_getElem hmx] at hx
        rw [ptrAt_of_le _ _ _ (by omega), Option.some.inj hx]
  obtain ⟨b0, hb0, hb0v⟩ := hbrd
  obtain ⟨l2, b1, b2, b3, b4⟩ := link_some l1 (ptrBefore ps ps.length) f _ b0 hn1 hb0 hbne
  refine ⟨l1, l2, a1, by rw [hsen, h5]; exact b1, ?_⟩
  have hrd : ∀ r, ({ l2 with size := l2.size + 1 } : LlData α).read r = l2.read r :=
    fun r => read_with_size l2 _ r
  have hs2 : l2.read .sentinel = some l2.sentinel := rfl
  refine ⟨by simp [h1], ?_, ?_, ?_, ?_, ?_, ?_, ?_⟩
  · -- no address twice
    rw [List.nodup_append]
    refine ⟨?_, hndf, ?_⟩
    · rw [List.nodup_append]
      refine ⟨hndp, List.nodup_singleton f, ?_⟩
      intro a ha hb
      simp at hb
      exact hf.1 (hb ▸ ha)
    · intro a ha hb
      simp only [List.mem_append, List.mem_singleton] at ha
      rcases ha with ha | ha
      · exact hdis ha hb
      · exact hf.2 (ha ▸ hb)
  · show l2.size + 1 = _
    rw [b2, a2, h3]
    simp
  · -- sentinel.next
    show l2.sentinel.next = _
    rw [b4] at hs2
    by_cases hps : ps.length = 0
    · have hnil : ps = [] := List.length_eq_zero.mp hps
      subst hnil
      simp [ptrBefore] at hs2
      rw [← hs2]
      simp [ptrAt]
    · have hbs : ¬ (Ptr.sentinel = ptrBefore ps ps.length) := by
        obtain ⟨m, hm⟩ := Nat.exists_eq_succ_of_ne_zero hps
        rw [hm]
        simp [ptrBefore, ptrAt, List.getElem?_eq_getElem (show m < ps.length by omega)]
      simp only [hbs, if_false, if_true] at hs2
      have := Option.some.inj hs2
      rw [← this]
      show l1.sentinel.next = _
      rw [hsen, h4, ptrAt_append_left _ _ _ _ (by omega)]
  · -- sentinel.prev
    show l2.sentinel.prev = _
    rw [b4] at hs2
    have hgoal : ptrBefore (ps ++ [f]) (ps ++ [f]).length = .node f := by
      simp [ptrBefore, ptrAt]
    rw [hgoal]
    by_cases hbs : Ptr.sentinel = ptrBefore ps ps.length
    · rw [if_pos hbs, if_pos hbs.symm] at hs2
      have := Option.some.inj hs2
      rw [← this]
    · simp only [hbs, if_false, if_true] at hs2
      have := Option.some.inj hs2
      rw [← this]
  · -- the nodes of the list
    intro k i x hk hx
    rw [hrd, b4]
    have hklt : k < (ps ++ [f]).length := get_lt hk
    simp only [List.length_append, List.length_singleton] at hklt
    by_cases hkl : k < ps.length
    · have hk0 : ps[k]? = some i := by rwa [List.getElem?_append_left hkl] at hk
      have hx0 : xs[k]? = some x := by
        rwa [List.getElem?_append_left (by omega)] at hx
      have hif : i ≠ f := fun hc => hf.1 (hc ▸ mem_of_get hk0)
      have hold := h6 k i x hk0 hx0
      by_cases hlast : k + 1 = ps.length
      · have hbe : ptrBefore ps ps.length = .node i := by
          rw [← hlast]
          simp [ptrBefore, ptrAt, hk0]
        have hbns : ptrBefore ps ps.length ≠ .sentinel := by rw [hbe]; simp
        have hb0e := hb0v hbns k x hlast.symm hx0
        simp only [hbe, if_true]
        have hns : ¬ (Ptr.node i = Ptr.sentinel) := by simp
        simp only [hns, if_false]
        rw [hb0e]
        rw [hlast, ptrAt_append_length, ptrBefore_append _ _ _ (by omega)]
      · have hnb : ¬ (Ptr.node i = ptrBefore ps ps.length) := by
          intro hc
          obtain ⟨m, hm⟩ := Nat.exists_eq_succ_of_ne_zero (show ps.length ≠ 0 by omega)
          rw [hm] at hc
          have hm1 : m < ps.length := by omega
          simp only [ptrBefore, ptrAt, List.getElem?_eq_getElem hm1, Ptr.node.injEq] at hc
          have := nodup_get_inj ps hndp k m i hk0 (by rw [List.getElem?_eq_getElem hm1, hc])
          omega
        have hns : ¬ (Ptr.node i = Ptr.sentinel) := by simp
        have hnf : ¬ (Ptr.node i = Ptr.node f) := by simpa using hif
        simp only [hnb, hns, hnf, if_false]
        rw [a4]
        simp only [hnf, if_false]
        rw [hold, ptrAt_append_left _ _ _ _ (by omega), ptrBefore_append _ _ _ (by omega)]
    · have hke : k = ps.length := by omega
      subst hke
      have hi : i = f := by simpa using hk.symm
      have hxe : x = e := by
        rw [h1] at hx
        simpa using hx.symm
      subst hi hxe
      have hnb : ¬ (Ptr.node i = ptrBefore ps ps.length) := fun hc => hbne hc.symm
      have hns : ¬ (Ptr.node i = Ptr.sentinel) := by simp
      simp only [hnb, hns, if_false, if_true]
      rw [ptrAt_of_le _ _ _ (by simp), ptrBefore_append _ _ _ (by omega)]
  · show l2.freel = _
    rw [b3, a3, h7]
  · intro k i hk
    have hifs : i ∈ fs := mem_of_get hk
    have hif : i ≠ f := fun hc => hf.2 (hc ▸ hifs)
    have hnb : ¬ (Ptr.node i = ptrBefore ps ps.length) := by
      intro hc
      cases hlen : ps.length with
      | zero => rw [hlen] at hc; simp [ptrBefore] at hc
      | succ m =>
        rw [hlen] at hc
        have hm1 : m < ps.length := by omega
        simp only [ptrBefore, ptrAt, List.getElem?_eq_getElem hm1, Ptr.node.injEq] at hc
        exact hdis (hc ▸ List.getElem_mem hm1) hifs
    have hns : ¬ (Ptr.node i = Ptr.sentinel) := by simp
    have hnf : ¬ (Ptr.node i = Ptr.node f) := by simpa using hif
    rw [hrd, b4]
    simp only [hnb, hns, hnf, if_false]
    rw [a4]
    simp only [hnf, if_false]
    exact h8 k i hk


/-- Unlinking the first node, putting it on the free list and decrementing
the size removes the first element. -/
theorem remove_first_node (l : LlData α) (x : α) (xs : List α) (i : Nat) (ps fs : List Nat)
    (h : LlRepAt l (x :: xs) (i :: ps) fs) :
    ∃ n l1 l2, l.sentinel.next = .node i ∧ l.read (.node i) = some n ∧
      n.element = some (some x) ∧ unlink l (.node i) = some l1 ∧
      putEntry l1 (.node i) = some l2 ∧
      LlRepAt { l2 with size := l2.size - 1 } xs ps (i :: fs) := by
  obtain ⟨h1, h2, h3, h4, h5, h6, h7, h8⟩ := h
  have hn : l.read (.node i)
      = some (LLNode.mk (ptrAt .sentinel ps 0) .sentinel (some (some x))) := by
    have h0 := h6 0 i x (by simp) (by simp)
    rw [ptrAt_cons_succ] at h0
    exact h0
  have hnd : (i :: (ps ++ fs)).Nodup := by simpa using h2
  have hnd2 : (ps ++ fs).Nodup := (List.nodup_cons.mp hnd).2
  have hinot : i ∉ ps ++ fs := (List.nodup_cons.mp hnd).1
  have hndp : ps.Nodup := (List.nodup_append.mp hnd2).1
  have hdis : ∀ a, a ∈ ps → a ∈ fs → False := fun a ha hb =>
    (List.nodup_append.mp hnd2).2.2 ha hb
  simp only [List.mem_append, not_or] at hinot
  have hlen : ps.length = xs.length := by simpa using h1
  -- first store: sentinel.next
  obtain ⟨l2, a1, a2, a3, a4⟩ := setNext_some l .sentinel (ptrAt .sentinel ps 0) l.sentinel rfl
  have hn2 : l2.read (.node i) = some (LLNode.mk (ptrAt .sentinel ps 0) .sentinel (some (some x))) := by
    rw [a4]
    simp only [reduceCtorEq, if_false]
    exact hn
  -- second store: the prev field of the node after
  have hq : ∃ c, l2.read (ptrAt .sentinel ps 0) = some c ∧
      (ps = [] → c = { l.sentinel with next := .sentinel }) ∧
      (∀ j x1, ps[0]? = some j → xs[0]? = some x1 →
        c = LLNode.mk (ptrAt .sentinel ps 1) (.node i) (some (some x1))) := by
    cases ps with
    | nil =>
      refine ⟨{ l.sentinel with next := .sentinel }, ?_, fun _ => rfl, ?_⟩
      · rw [ptrAt_nil, a4]; simp [ptrAt]
      · intro j x1 hj; simp at hj
    | cons j ps1 =>
      cases xs with
      | nil => simp at hlen
      | cons x1 xs1 =>
        have hj := h6 1 j x1 (by simp) (by simp)
        refine ⟨LLNode.mk (ptrAt .sentinel (i :: j :: ps1) 2) (ptrBefore (i :: j :: ps1) 1)
          (some (some x1)), ?_, fun hc => by simp at hc, ?_⟩
        · rw [ptrAt_cons_zero, a4]
          simp only [reduceCtorEq, if_false]
          exact hj
        · intro j1 x2 hj1 hx2
          simp at hj1 hx2
          subst hx2
          simp [ptrAt, ptrBefore]
  obtain ⟨c, hc, hcnil, hccons⟩ := hq
  obtain ⟨l3, b1, b2, b3, b4⟩ := setPrev_some l2 (ptrAt .sentinel ps 0) .sentinel c hc
  have hqi : ptrAt .sentinel ps 0 ≠ .node i := by
    intro hcc
    cases ps with
    | nil => simp [ptrAt] at hcc
    | cons j ps1 =>
      simp [ptrAt] at hcc
      exact hinot.1 (by simp [hcc])
  have hn3 : l3.read (.node i) = some (LLNode.mk (ptrAt .sentinel ps 0) .sentinel (some (some x))) := by
    rw [b4]
    rw [if_neg (fun hcc => hqi hcc.symm)]
    exact hn2
  obtain ⟨l4, c1, c2, c3, c4⟩ := putEntry_some l3 (.node i) _ hn3
  refine ⟨_, l3, l4, by rw [h4, ptrAt_cons_zero], hn, rfl, ?_, c1, ?_⟩
  · simp [unlink, hn, a1, hn2, b1]
  have hrd : ∀ r, ({ l4 with size := l4.size - 1 } : LlData α).read r = l4.read r :=
    fun r => read_with_size l4 _ r
  have hs4 : l4.read .sentinel = some l4.sentinel := rfl
  rw [c4, b4, a4] at hs4
  simp only [reduceCtorEq, if_false, if_true] at hs4
  have hother : ∀ a, a ≠ i → Ptr.node a ≠ ptrAt .sentinel ps 0 →
      l4.read (.node a) = l.read (.node a) := by
    intro a ha hb
    rw [c4, b4, a4]
    have h1 : ¬ (Ptr.node a = Ptr.node i) := by simpa using ha
    simp only [h1, hb, reduceCtorEq, if_false]
  refine ⟨hlen, ?_, ?_, ?_, ?_, ?_, ?_, ?_⟩
  · exact List.nodup_middle.mpr hnd
  · show l4.size - 1 = _
    rw [c2, b2, a2, h3]
    simp
  · show l4.sentinel.next = _
    by_cases hps : ps = []
    · subst hps
      simp only [ptrAt_nil, if_true] at hs4
      rw [← Option.some.inj hs4, hcnil rfl]
      simp [ptrAt]
    · have hqs : ¬ (Ptr.sentinel = ptrAt .sentinel ps 0) := by
        cases ps with
        | nil => exact absurd rfl hps
        | cons j ps1 => simp [ptrAt]
      simp only [hqs, if_false] at hs4
      rw [← Option.some.inj hs4]
  · show l4.sentinel.prev = _
    by_cases hps : ps = []
    · subst hps
      simp only [ptrAt_nil, if_true] at hs4
      rw [← Option.some.inj hs4]
      rfl
    · have hqs : ¬ (Ptr.sentinel = ptrAt .sentinel ps 0) := by
        cases ps with
        | nil => exact absurd rfl hps
        | cons j ps1 => simp [ptrAt]
      simp only [hqs, if_false] at hs4
      rw [← Option.some.inj hs4]
      show l.sentinel.prev = _
      rw [h5]
      cases ps with
      | nil => exact absurd rfl hps
      | cons j ps1 => simp [ptrBefore, ptrAt]
  · intro k a x1 hk hx
    have hai : a ≠ i := fun hcc => hinot.1 (hcc ▸ mem_of_get hk)
    have hold := h6 (k + 1) a x1 (by simpa using hk) (by simpa using hx)
    rw [ptrAt_cons_succ] at hold
    rw [hrd]
    cases k with
    | zero =>
      have hqa : ptrAt .sentinel ps 0 = .node a := ptrAt_of_get _ _ _ _ hk
      rw [c4, b4]
      have h1 : ¬ (Ptr.node a = Ptr.node i) := by simpa using hai
      simp only [h1, hqa, if_false, if_true]
      rw [hccons a x1 hk hx]
      rfl
    | succ k1 =>
      have hqa : Ptr.node a ≠ ptrAt .sentinel ps 0 := by
        intro hcc
        have hk0 : ps[0]? = some a := by
          cases ps with
          | nil => simp at hk
          | cons j ps1 =>
            simp [ptrAt] at hcc
            simp [hcc]
        have := nodup_get_inj ps hndp _ _ a hk hk0
        omega
      rw [hother a hai hqa, hold]
      simp [ptrBefore, ptrAt]
  · show l4.freel = _
    rw [c3, ptrAt_cons_zero]
  · intro k a hk
    rw [hrd]
    cases k with
    | zero =>
      simp at hk
      subst hk
      refine ⟨_, by rw [c4]; simp; rfl, ?_⟩
      show l3.freel = _
      rw [b3, a3, h7, ptrAt_cons_succ]
    | succ k1 =>
      simp at hk
      have hafs : a ∈ fs := mem_of_get hk
      have hai : a ≠ i := fun hcc => hinot.2 (hcc ▸ hafs)
      have hqa : Ptr.node a ≠ ptrAt .sentinel ps 0 := by
        intro hcc
        cases ps with
        | nil => simp [ptrAt] at hcc
        | cons j ps1 =>
          simp [ptrAt] at hcc
          exact hdis a (by simp [hcc]) hafs
      rw [hother a hai hqa, ptrAt_cons_succ]
      exact h8 k1 a hk


theorem create_LlRep : LlRep (LinkedList_create : LlData α) [] := ⟨[], [], create_rep⟩

theorem LlRep_size (l : LlData α) (xs : List α) (h : LlRep l xs) : ll_size l = xs.length := by
  obtain ⟨ps, fs, h⟩ := h
  exact h.2.2.1

theorem ll_addLast_spec (l : LlData α) (xs : List α) (e : α) (mallocs : Nat)
    (h : LlRep l xs) (hm : 0 < mallocs) :
    ∃ l1, ll_addLast l e mallocs = some (1, l1) ∧ LlRep l1 (xs ++ [e]) := by
  obtain ⟨ps, fs, h⟩ := h
  obtain ⟨f, fs1, l1, n, g1, g2, g3, g4⟩ := getEntry_rep l xs ps fs mallocs h hm
  obtain ⟨l2, l3, k1, k2, k3⟩ := link_last l1 xs ps fs1 f n e g2 g4 g3
  refine ⟨_, ?_, ps ++ [f], fs1, k3⟩
  simp [ll_addLast, g1, k1, k2]

theorem ll_getFirst_cons (l : LlData α) (x : α) (xs : List α) (h : LlRep l (x :: xs)) :
    ll_getFirst l = some (1, some (some x), l) := by
  obtain ⟨ps, fs, h⟩ := h
  cases ps with
  | nil => have := h.1; simp at this
  | cons i ps =>
    obtain ⟨n, l1, l2, r1, r2, r3, _⟩ := remove_first_node l x xs i ps fs h
    simp [ll_getFirst, r1, r2, r3]

theorem sentinel_next_nil (l : LlData α) (h : LlRep l []) : l.sentinel.next = .sentinel := by
  obtain ⟨ps, fs, h⟩ := h
  have hps : ps = [] := List.length_eq_zero.mp (by simpa using h.1)
  subst hps
  rw [h.2.2.2.1, ptrAt_nil]

theorem ll_getFirst_nil (l : LlData α) (h : LlRep l []) : ll_getFirst l = some (0, none, l) := by
  simp [ll_getFirst, sentinel_next_nil l h]

theorem ll_removeFirst_cons (l : LlData α) (x : α) (xs : List α) (h : LlRep l (x :: xs)) :
    ∃ l1, ll_removeFirst l = some (1, some (some x), l1) ∧ LlRep l1 xs ∧
      ll_size l1 = ll_size l - 1 := by
  obtain ⟨ps, fs, h⟩ := h
  cases ps with
  | nil => have := h.1; simp at this
  | cons i ps =>
    obtain ⟨n, l1, l2, r1, r2, r3, r4, r5, r6⟩ := remove_first_node l x xs i ps fs h
    refine ⟨_, ?_, ⟨ps, i :: fs, r6⟩, ?_⟩
    · simp [ll_removeFirst, r1, r2, r3, r4, r5]
    · have h1 := r6.2.2.1
      have h2 := h.2.2.1
      simp only [ll_size] at h1 ⊢
      rw [h1, h2]
      simp

theorem ll_removeFirst_nil (l : LlData α) (h : LlRep l []) :
    ll_removeFirst l = some (0, none, l) := by
  simp [ll_removeFirst, sentinel_next_nil l h]

theorem collect_rep (l : LlData α) (xs : List α) (ps fs : List Nat) (h : LlRepAt l xs ps fs) :
    ∀ (n k : Nat), k + n = xs.length →
      collect l n (ptrAt .sentinel ps k) = some ((xs.drop k).map some) := by
  intro n
  induction n with
  | zero =>
    intro k hk
    rw [List.drop_of_length_le (by omega)]
    rfl
  | succ n ih =>
    intro k hk
    have hkx : k < xs.length := by omega
    have hkp : k < ps.length := by rw [h.1]; exact hkx
    have hrd := h.2.2.2.2.2.1 k ps[k] xs[k] (List.getElem?_eq_getElem hkp)
      (List.getElem?_eq_getElem hkx)
    rw [ptrAt_of_get _ _ _ _ (List.getElem?_eq_getElem hkp)]
    have hstep : collect l (n + 1) (.node ps[k])
        = (l.read (.node ps[k])).bind (fun nd => nd.element.bind (fun e =>
            (collect l n nd.next).bind (fun rest => some (e :: rest)))) := rfl
    rw [hstep, hrd]
    simp only [Option.some_bind]
    rw [ih (k + 1) (by omega)]
    simp only [Option.some_bind]
    rw [List.drop_eq_getElem_cons hkx]
    rfl

theorem ll_toArray_spec (l : LlData α) (xs : List α) (h : LlRep l xs) :
    ll_toArray l true
      = some (if xs.length = 0 then (none, none)
          else (some (xs.map some), some (xs.length : Int))) := by
  obtain ⟨ps, fs, h⟩ := h
  have hs := h.2.2.1
  by_cases hz : xs.length = 0
  · have : ¬ (l.size > 0) := by rw [hs, hz]; simp
    simp [ll_toArray, genArray, this, hz]
  · have hpos : l.size > 0 := by rw [hs]; omega
    have hc := collect_rep l xs ps fs h xs.length 0 (by omega)
    have hn : l.size.toNat = xs.length := by rw [hs]; simp
    simp only [ll_toArray, genArray, hpos, if_true, hn, h.2.2.2.1, hc, hz, if_false]
    simp [hs]

end LinkedList

namespace UQueue
open LinkedList
variable {α : Type}

theorem uq_create_rep : LlRep (UQueue_create : UqData α).ll [] := create_LlRep

theorem uq_add_spec (q : UqData α) (xs : List α) (e : α) (h : LlRep q.ll xs) :
    ∃ q1, uq_add q e FL_INCREMENT = some (1, q1) ∧ LlRep q1.ll (xs ++ [e]) := by
  obtain ⟨l1, h1, h2⟩ := ll_addLast_spec q.ll xs e FL_INCREMENT h (by decide)
  exact ⟨{ ll := l1 }, by simp [uq_add, ll_add, h1], h2⟩

theorem uq_peek_cons (q : UqData α) (x : α) (xs : List α) (h : LlRep q.ll (x :: xs)) :
    uq_peek q = some (1, some (some x), q) := by
  simp [uq_peek, ll_getFirst_cons q.ll x xs h]

theorem uq_peek_nil (q : UqData α) (h : LlRep q.ll []) : uq_peek q = some (0, none, q) := by
  simp [uq_peek, ll_getFirst_nil q.ll h]

theorem uq_remove_cons (q : UqData α) (x : α) (xs : List α) (h : LlRep q.ll (x :: xs)) :
    ∃ q1, uq_remove q = some (1, some (some x), q1) ∧ LlRep q1.ll xs ∧
      uq_size q1 = uq_size q - 1 := by
  obtain ⟨l1, h1, h2, h3⟩ := ll_removeFirst_cons q.ll x xs h
  exact ⟨{ ll := l1 }, by simp [uq_remove, h1], h2, h3⟩

theorem uq_remove_nil (q : UqData α) (h : LlRep q.ll []) : uq_remove q = some (0, none, q) := by
  simp [uq_remove, ll_removeFirst_nil q.ll h]

theorem uqStep_spec (q : UqData α) (xs : List α) (op : UOp α) (h : LlRep q.ll xs) :
    ∃ q1, uqStep q op
        = some (((fifoStep xs op).1.1, (fifoStep xs op).1.2.map some), q1) ∧
      LlRep q1.ll (fifoStep xs op).2 := by
  cases op with
  | add e =>
    obtain ⟨q1, h1, h2⟩ := uq_add_spec q xs e h
    exact ⟨q1, by simp [uqStep, h1, fifoStep], h2⟩
  | remove =>
    cases xs with
    | nil => exact ⟨q, by simp [uqStep, uq_remove_nil q h, fifoStep], h⟩
    | cons x rest =>
      obtain ⟨q1, h1, h2, _⟩ := uq_remove_cons q x rest h
      exact ⟨q1, by simp [uqStep, h1, fifoStep], h2⟩

theorem uqRun_spec (ops : List (UOp α)) : ∀ (q : UqData α) (xs : List α), LlRep q.ll xs →
    ∃ q1, uqRun ops q
        = some ((fifoRun ops xs).1.map (fun r => (r.1, r.2.map some)), q1) ∧
      LlRep q1.ll (fifoRun ops xs).2 := by
  induction ops with
  | nil => intro q xs h; exact ⟨q, rfl, h⟩
  | cons op ops ih =>
    intro q xs h
    obtain ⟨q1, h1, h2⟩ := uqStep_spec q xs op h
    obtain ⟨q2, i1, i2⟩ := ih q1 (fifoStep xs op).2 h2
    refine ⟨q2, ?_, i2⟩
    simp [uqRun, h1, i1, fifoRun]

theorem fifoRun_spec (ops : List (UOp α)) : ∀ (xs : List α),
    xs ++ addedOf ops = removedOf (fifoRun ops xs).1 ++ (fifoRun ops xs).2 := by
  induction ops with
  | nil => intro xs; simp [addedOf, fifoRun, removedOf]
  | cons op ops ih =>
    intro xs
    cases op with
    | add e =>
      have h := ih (xs ++ [e])
      simp only [addedOf, fifoRun, fifoStep, removedOf]
      rw [← h]
      simp
    | remove =>
      cases xs with
      | nil =>
        have h := ih ([] : List α)
        simp only [addedOf, fifoRun, fifoStep, removedOf]
        exact h
      | cons x rest =>
        have h := ih rest
        simp only [addedOf, fifoRun, fifoStep, removedOf]
        rw [List.cons_append, List.cons_append, h]

end UQueue

namespace UQueue
open BQueue LinkedList
variable {α : Type}

/-- C20. On a bounded queue holding the list `xs` and on an unbounded queue
whose ring of nodes holds the list `xs`: when the list is not empty, peek
returns 1, yields its head and returns the queue unchanged, and remove on
that queue returns 1, yields the same element, leaves the tail and a size
one less; when the list is empty, peek and remove return 0, write nothing
and leave the queue unchanged. -/
theorem C20_peek_then_remove_agree :
    (∀ (q : BqData α) (xs : List α), BqRep q xs →
      (∀ e rest, xs = e :: rest →
        bq_peek q = some (1, some (some e), q) ∧
        ∃ q1, bq_remove q = some (1, some (some e), q1) ∧ BqRep q1 rest ∧
          bq_size q1 = bq_size q - 1) ∧
      (xs = [] → bq_peek q = some (0, none, q) ∧ bq_remove q = some (0, none, q))) ∧
    (∀ (u : UqData α) (xs : List α), LlRep u.ll xs →
      (∀ e rest, xs = e :: rest →
        uq_peek u = some (1, some (some e), u) ∧
        ∃ u1, uq_remove u = some (1, some (some e), u1) ∧ LlRep u1.ll rest ∧
          uq_size u1 = uq_size u - 1) ∧
      (xs = [] → uq_peek u = some (0, none, u) ∧ uq_remove u = some (0, none, u))) := by
  refine ⟨?_, ?_⟩
  · intro q xs hrep
    refine ⟨?_, ?_⟩
    · intro e rest hxs
      subst hxs
      obtain ⟨hpk, q1, hrem, hrep1, hc, _⟩ := retrieve_spec q e rest hrep
      exact ⟨hpk, q1, hrem, hrep1, hc⟩
    · intro hxs
      subst hxs
      have hc : q.count ≤ 0 := by
        have := hrep.2.2.2.2.1
        simp at this; omega
      exact ⟨retrieve_empty q false hc, retrieve_empty q true hc⟩
  · intro u xs hrep
    refine ⟨?_, ?_⟩
    · intro e rest hxs
      subst hxs
      exact ⟨uq_peek_cons u e rest hrep, uq_remove_cons u e rest hrep⟩
    · intro hxs
      subst hxs
      exact ⟨uq_peek_nil u hrep, uq_remove_nil u hrep⟩

/-- Instance of C20: the bounded queue of capacity 2 after add A, add B, and
the unbounded queue after add A. -/
theorem C20_peek_then_remove_agree_witness :
    (BqRep queueAB ["A", "B"] ∧ bq_peek queueAB = some (1, some (some "A"), queueAB)) ∧
    ∃ u, uq_add (UQueue_create : UqData String) "A" FL_INCREMENT = some (1, u) ∧
      LlRep u.ll ["A"] ∧ uq_peek u = some (1, some (some "A"), u) :=
  have hrep : BqRep queueAB ["A", "B"] := by
    obtain ⟨q1, hall, hrep1, _⟩ := addAll_spec ["A", "B"] (BQueue_create 2 : BqData String) []
      (BQueue_create_rep 2) (by decide)
    have h2 : addAll ["A", "B"] (BQueue_create 2 : BqData String)
        = some ([1, 1], queueAB) := by rfl
    rw [h2] at hall
    injection hall with h3
    injection h3 with _ h4
    rw [h4]
    simpa using hrep1
  have hadd := uq_add_spec (UQueue_create : UqData String) [] "A" uq_create_rep
  ⟨⟨hrep, ((C20_peek_then_remove_agree.1 _ _ hrep).1 "A" ["B"] rfl).1⟩,
    hadd.elim (fun u hu =>
      ⟨u, hu.1, hu.2, ((C20_peek_then_remove_agree.2 u ["A"] hu.2).1 "A" [] rfl).1⟩)⟩

end UQueue

/-! ## The thread-safe wrappers: the hold counter of the mutex -/

namespace Pthread

theorem mutex_lock_recursive (m : Mutex) (h : m.recursive = true) :
    pthread_mutex_lock m = some { recursive := m.recursive, holds := m.holds + 1 } := by
  simp [pthread_mutex_lock, h]

theorem mutex_unlock_lock (m : Mutex) :
    pthread_mutex_unlock { recursive := m.recursive, holds := m.holds + 1 } = m := by
  cases m
  simp [pthread_mutex_unlock]

end Pthread

namespace OrderedSet
variable {α : Type}


/-- C21. On a wrapper whose mutex is recursive, as TSOrderedSet_create makes
it, and held h times by the calling thread (h = 0 included): each of add,
ceiling, clear, contains, first, floor, higher, isEmpty, last, lower,
pollFirst, pollLast, remove, size and toArray returns what the function of
the wrapped OrderedSet returns on the wrapped set (and does not return where
that one does not) and leaves the wrapped set in the state that function
leaves it in; the trace of the calls it makes is pthread_mutex_lock, then the
call of that function with the mutex held h + 1 times, then
pthread_mutex_unlock; and it leaves the mutex, hold counter included, as it
was before the call. In particular lock, toArray, unlock in a row return the
array of the wrapped set, toArray running with the mutex held h + 2 times,
and leave the wrapper as it was. -/
theorem C21_wrapper_delegates_under_lock (cmp : α → α → Int) (mallocOk : Bool)
    (d : TSOsData α) (c : Call α) (hrec : d.lock.recursive = true) :
    tsosCall cmp mallocOk d c
      = (osCall cmp mallocOk d.os c).map
          (fun r => (r.1, { os := r.2, lock := d.lock },
            [TsEv.lock, TsEv.call (d.lock.holds + 1), TsEv.unlock])) ∧
    (tsos_lock d).bind (fun d1 =>
        (tsos_toArray d1 mallocOk).map (fun r => (r.1, tsos_unlock r.2.1, r.2.2)))
      = (os_toArray d.os mallocOk).map
          (fun r => (r, d, [TsEv.lock, TsEv.call (d.lock.holds + 2), TsEv.unlock])) ∧
    (TSOrderedSet_create : TSOsData α).lock = { recursive := true, holds := 0 } := by
  have hl := Pthread.mutex_lock_recursive d.lock hrec
  have hu := Pthread.mutex_unlock_lock d.lock
  refine ⟨?_, ?_, rfl⟩
  · cases c <;>
      simp [tsosCall, osCall, tsos_add, tsos_ceiling, tsos_clear, tsos_contains, tsos_first,
        tsos_floor, tsos_higher, tsos_isEmpty, tsos_last, tsos_lower, tsos_pollFirst,
        tsos_pollLast, tsos_remove, tsos_size, tsos_toArray, Traced.mutexLock,
        Traced.mutexUnlock, Traced.called, hl, hu]
    all_goals (simp only [Option.map_eq_bind]; rfl)
  · have hl2 := Pthread.mutex_lock_recursive
      { recursive := d.lock.recursive, holds := d.lock.holds + 1 } hrec
    have hu2 := Pthread.mutex_unlock_lock
      { recursive := d.lock.recursive, holds := d.lock.holds + 1 }
    have hd : ({ os := d.os, lock := d.lock } : TSOsData α) = d := by cases d; rfl
    simp only [tsos_lock, hl, Option.bind_eq_bind, Option.some_bind, tsos_toArray,
      Traced.mutexLock, Traced.mutexUnlock, Traced.called, hl2]
    cases hto : os_toArray d.os mallocOk with
    | none => rfl
    | some r =>
      simp only [Option.some_bind, Option.map_some', tsos_unlock, hu2, hu, hd, List.nil_append,
        List.cons_append]

/-- Instance of C21: the wrapper after create, lock, add(1), its mutex held
once; the call add(2) runs the add of the wrapped set with the mutex held
twice. -/
theorem C21_wrapper_delegates_under_lock_witness :
    tsosCall icmp true tsSet1 (.add 2)
      = (osCall icmp true tsSet1.os (.add 2)).map
          (fun r => (r.1, { os := r.2, lock := tsSet1.lock },
            [TsEv.lock, TsEv.call (tsSet1.lock.holds + 1), TsEv.unlock])) :=
  (C21_wrapper_delegates_under_lock icmp true tsSet1 (.add 2) rfl).1


theorem os_toArray_shape (osd : OsData α) (mallocOk : Bool)
    (r : Option (List (Option α)) × Option Int) (h : os_toArray osd mallocOk = some r) :
    r = (none, none) ∨ ∃ a, r = (some a, some osd.size) := by
  unfold os_toArray at h
  cases hg : genArray osd mallocOk with
  | none => simp [hg] at h
  | some arr =>
    cases arr with
    | none => simp [hg] at h; exact Or.inl h.symm
    | some a => simp [hg] at h; exact Or.inr ⟨a, h.symm⟩

theorem bq_toArray_shape (q : BQueue.BqData α) (mallocOk : Bool)
    (r : Option (List (Option α)) × Option Int) (h : BQueue.bq_toArray q mallocOk = some r) :
    r = (none, none) ∨ ∃ a, r = (some a, some q.count) := by
  unfold BQueue.bq_toArray at h
  cases hg : BQueue.toArray q mallocOk with
  | none => simp [hg] at h
  | some arr =>
    cases arr with
    | none => simp [hg] at h; exact Or.inl h.symm
    | some a => simp [hg] at h; exact Or.inr ⟨a, h.symm⟩


theorem tsos_itCreate_spec (d : TSOsData α) (mallocOk itOk : Bool)
    (hrec : d.lock.recursive = true) :
    (os_toArray d.os mallocOk = none → tsos_itCreate d mallocOk itOk = none) ∧
    (os_toArray d.os mallocOk = some (none, none) →
      tsos_itCreate d mallocOk itOk = some (none, d)) ∧
    (∀ a, os_toArray d.os mallocOk = some (some a, some d.os.size) →
      tsos_itCreate d mallocOk itOk
        = if itOk then
            some (some { next := 0, size := d.os.size, elements := a },
              { os := d.os, lock := { recursive := d.lock.recursive, holds := d.lock.holds + 1 } })
          else some (none, d)) := by
  have hl := Pthread.mutex_lock_recursive d.lock hrec
  have hu := Pthread.mutex_unlock_lock d.lock
  refine ⟨fun h => ?_, fun h => ?_, fun a h => ?_⟩
  · simp [tsos_itCreate, hl, h]
  · simp [tsos_itCreate, hl, h, hu]
  · cases itOk <;> simp [tsos_itCreate, hl, h, hu, TSIterator.TSIterator_create]

theorem tsbq_itCreate_spec (q : TSBQueue.TSBqData α) (lock : Pthread.Mutex) (mallocOk itOk : Bool)
    (hrec : lock.recursive = true) :
    (BQueue.bq_toArray q.bq mallocOk = none → TSBQueue.tsbq_itCreate q lock mallocOk itOk = none) ∧
    (BQueue.bq_toArray q.bq mallocOk = some (none, none) →
      TSBQueue.tsbq_itCreate q lock mallocOk itOk = some (none, lock)) ∧
    (∀ a, BQueue.bq_toArray q.bq mallocOk = some (some a, some q.bq.count) →
      TSBQueue.tsbq_itCreate q lock mallocOk itOk
        = if itOk then
            some (some { next := 0, size := q.bq.count, elements := a },
              { recursive := lock.recursive, holds := lock.holds + 1 })
          else some (none, lock)) := by
  have hl := Pthread.mutex_lock_recursive lock hrec
  have hu := Pthread.mutex_unlock_lock lock
  refine ⟨fun h => ?_, fun h => ?_, fun a h => ?_⟩
  · simp [TSBQueue.tsbq_itCreate, hl, h]
  · simp [TSBQueue.tsbq_itCreate, hl, h, hu]
  · cases itOk <;> simp [TSBQueue.tsbq_itCreate, hl, h, hu, TSIterator.TSIterator_create]

/-- C22. For tsos_itCreate on a wrapped set and tsbq_itCreate on a wrapped
bounded queue, the mutex being recursive as the create functions make it and
held any number of times by the caller: the call returns whenever the inner
toArray does; it leaves the wrapped collection as it was; the hold counter on
return is one higher than before exactly when the iterator returned is not
NULL; the iterator is NULL exactly when toArray returned NULL or the
allocation of the iterator failed, and then the mutex is as it was before the
call. -/
theorem C22_itCreate_holds_lock_exactly_on_success (d : TSOsData α)
    (q : TSBQueue.TSBqData α) (lock : Pthread.Mutex) (mallocOk itOk : Bool)
    (hrec : d.lock.recursive = true) (hrecq : lock.recursive = true) :
    ((tsos_itCreate d mallocOk itOk).isSome = (os_toArray d.os mallocOk).isSome ∧
      ∀ it d1, tsos_itCreate d mallocOk itOk = some (it, d1) →
        d1.os = d.os ∧
        (it ≠ none ↔ d1.lock.holds = d.lock.holds + 1) ∧
        (it = none ↔ (os_toArray d.os mallocOk = some (none, none) ∨ itOk = false)) ∧
        (it = none → d1.lock = d.lock)) ∧
    ((TSBQueue.tsbq_itCreate q lock mallocOk itOk).isSome
        = (BQueue.bq_toArray q.bq mallocOk).isSome ∧
      ∀ it lock1, TSBQueue.tsbq_itCreate q lock mallocOk itOk = some (it, lock1) →
        (it ≠ none ↔ lock1.holds = lock.holds + 1) ∧
        (it = none ↔ (BQueue.bq_toArray q.bq mallocOk = some (none, none) ∨ itOk = false)) ∧
        (it = none → lock1 = lock)) := by
  refine ⟨?_, ?_⟩
  · obtain ⟨h1, h2, h3⟩ := tsos_itCreate_spec d mallocOk itOk hrec
    cases hto : os_toArray d.os mallocOk with
    | none => simp [h1 hto]
    | some r =>
      rcases os_toArray_shape d.os mallocOk r hto with hr | ⟨a, hr⟩
      · subst hr
        rw [h2 hto]
        refine ⟨rfl, ?_⟩
        intro it d1 h
        injection h with h
        injection h with hit hd
        subst hit; subst hd
        simp
      · subst hr
        rw [h3 a hto]
        cases itOk
        · refine ⟨rfl, ?_⟩
          intro it d1 h
          simp only [Bool.false_eq_true, if_false] at h
          injection h with h
          injection h with hit hd
          subst hit; subst hd
          simp
        · refine ⟨rfl, ?_⟩
          intro it d1 h
          simp only [if_true] at h
          injection h with h
          injection h with hit hd
          subst hit; subst hd
          simp
  · obtain ⟨h1, h2, h3⟩ := tsbq_itCreate_spec q lock mallocOk itOk hrecq
    cases hto : BQueue.bq_toArray q.bq mallocOk with
    | none => simp [h1 hto]
    | some r =>
      rcases bq_toArray_shape q.bq mallocOk r hto with hr | ⟨a, hr⟩
      · subst hr
        rw [h2 hto]
        refine ⟨rfl, ?_⟩
        intro it d1 h
        injection h with h
        injection h with hit hd
        subst hit; subst hd
        simp
      · subst hr
        rw [h3 a hto]
        cases itOk
        · refine ⟨rfl, ?_⟩
          intro it d1 h
          simp only [Bool.false_eq_true, if_false] at h
          injection h with h
          injection h with hit hd
          subst hit; subst hd
          simp
        · refine ⟨rfl, ?_⟩
          intro it d1 h
          simp only [if_true] at h
          injection h with h
          injection h with hit hd
          subst hit; subst hd
          simp

/-- Instance of C22: the wrapper after create, lock, add(1), its mutex held
once, all allocations succeeding: the iterator is not NULL and the mutex is
held twice on return. -/
theorem C22_itCreate_holds_lock_exactly_on_success_witness :
    tsos_itCreate tsSet1 true true
      = some (some { next := 0, size := 1, elements := [some 1] },
          { os := tsSet1.os, lock := { recursive := true, holds := 2 } }) ∧
    ((some ({ next := 0, size := 1, elements := [some 1] } : TSIterator.TSItData (Option Int)))
        ≠ none ↔ (2 : Nat) = tsSet1.lock.holds + 1) :=
  have h : tsos_itCreate tsSet1 true true
      = some (some { next := 0, size := 1, elements := [some 1] },
          { os := tsSet1.os, lock := { recursive := true, holds := 2 } }) := by rfl
  ⟨h, ((C22_itCreate_holds_lock_exactly_on_success tsSet1 (TSBQueue.TSBQueue_create 2)
    { recursive := true, holds := 0 } true true rfl rfl).1.2 _ _ h).2.1⟩

end OrderedSet

/-! ## The iterators -/

namespace Iterator
variable {β : Type}

theorem it_next_lt (e : List β) (c : Nat) (hc : c < e.length) :
    it_next { next := c, size := e.length, elements := e }
      = some (1, some (e.get ⟨c, hc⟩), { next := (c : Int) + 1, size := e.length, elements := e }) := by
  have h1 : (c : Int) < (e.length : Int) := by exact_mod_cast hc
  simp [it_next, h1, List.getElem?_eq_getElem hc]

theorem it_next_ge (e : List β) (c : Nat) (hc : e.length ≤ c) :
    it_next { next := c, size := e.length, elements := e }
      = some (0, none, { next := c, size := e.length, elements := e }) := by
  have h1 : ¬ ((c : Int) < (e.length : Int)) := by
    intro h
    have : c < e.length := by exact_mod_cast h
    omega
  simp [it_next, h1]

theorem nextN_exhausted (e : List β) (j : Nat) :
    nextN j { next := (e.length : Int), size := e.length, elements := e }
      = some (List.replicate j (0, none), { next := e.length, size := e.length, elements := e }) := by
  induction j with
  | zero => rfl
  | succ j ih =>
    simp [nextN, it_next_ge e e.length (le_refl _), ih, List.replicate_succ]

theorem nextN_all (e : List β) : ∀ (k c : Nat), c ≤ e.length →
    nextN k { next := (c : Int), size := e.length, elements := e }
      = some (((e.drop c).take k).map (fun x => ((1 : Int), some x))
                ++ List.replicate (k - (e.length - c)) (0, none),
              { next := ((min (c + k) e.length : Nat) : Int), size := e.length, elements := e }) := by
  intro k
  induction k with
  | zero => intro c hc; simp [nextN, Nat.min_eq_left hc]
  | succ k ih =>
    intro c hc
    by_cases hlt : c < e.length
    · have hstep := it_next_lt e c hlt
      have ih1 := ih (c + 1) hlt
      have hcast : ((c : Int) + 1) = ((c + 1 : Nat) : Int) := by push_cast; rfl
      rw [hcast] at hstep
      have hd : e.drop c = e.get ⟨c, hlt⟩ :: e.drop (c + 1) := by
        simp
      have hk : k + 1 - (e.length - c) = k - (e.length - (c + 1)) := by omega
      have hm : min (c + (k + 1)) e.length = min (c + 1 + k) e.length := by
        congr 1; omega
      have hgoal : nextN (k + 1) { next := (c : Int), size := e.length, elements := e }
          = (it_next { next := (c : Int), size := e.length, elements := e }).bind (fun res =>
              (nextN k res.2.2).bind (fun rest => some ((res.1, res.2.1) :: rest.1, rest.2))) := rfl
      rw [hgoal, it_next_lt e c hlt, Option.some_bind]
      rw [show ((c : Int) + 1) = ((c + 1 : Nat) : Int) by push_cast; rfl, ih1, Option.some_bind,
        hd, hk, hm]
      simp only [List.take_succ_cons, List.map_cons, List.cons_append]
    · have hce : c = e.length := by omega
      subst hce
      have h := nextN_exhausted e (k + 1)
      rw [h]
      simp

theorem visitLoop_spec (e : List β) : ∀ (fuel c : Nat), c ≤ e.length → e.length - c < fuel →
    visitLoop fuel { next := (c : Int), size := e.length, elements := e }
      = some ((e.drop c).map some, { next := (e.length : Int), size := e.length, elements := e }) := by
  intro fuel
  induction fuel with
  | zero => intro c _ h; omega
  | succ fuel ih =>
    intro c hc hf
    by_cases hlt : c < e.length
    · have h1 : (c : Int) < (e.length : Int) := by exact_mod_cast hlt
      have hgoal : visitLoop (fuel + 1) { next := (c : Int), size := e.length, elements := e }
          = (it_next { next := (c : Int), size := e.length, elements := e }).bind (fun res =>
              (visitLoop fuel res.2.2).bind (fun rest => some (res.2.1 :: rest.1, rest.2))) := by
        simp only [visitLoop, it_hasNext, h1, if_true]
        rfl
      have hd : e.drop c = e.get ⟨c, hlt⟩ :: e.drop (c + 1) := by simp
      rw [hgoal, it_next_lt e c hlt, Option.some_bind]
      rw [show ((c : Int) + 1) = ((c + 1 : Nat) : Int) by push_cast; rfl,
        ih (c + 1) hlt (by omega), Option.some_bind, hd]
      simp only [List.map_cons]
    · have hce : c = e.length := by omega
      subst hce
      simp [visitLoop, it_hasNext]

end Iterator

namespace TSIterator
open Iterator Pthread
variable {β : Type}

theorem tsit_next_eq (itd : TSItData β) (lock : Mutex) :
    tsit_next itd lock
      = (it_next { next := itd.next, size := itd.size, elements := itd.elements }).map
          (fun r => (r.1, r.2.1,
            { next := r.2.2.next, size := r.2.2.size, elements := r.2.2.elements }, lock)) := by
  unfold tsit_next it_next
  by_cases h1 : itd.next < itd.size
  · by_cases h2 : 0 ≤ itd.next
    · cases h3 : itd.elements[itd.next.toNat]? <;> simp [h1, h2, h3]
    · simp [h1, h2]
  · simp [h1]

theorem tsNextN_eq : ∀ (k : Nat) (itd : TSItData β) (lock : Mutex),
    tsNextN k itd lock
      = (nextN k { next := itd.next, size := itd.size, elements := itd.elements }).map
          (fun r => (r.1,
            { next := r.2.next, size := r.2.size, elements := r.2.elements }, lock)) := by
  intro k
  induction k with
  | zero => intro itd lock; rfl
  | succ k ih =>
    intro itd lock
    have hgoal : tsNextN (k + 1) itd lock
        = (tsit_next itd lock).bind (fun res =>
            (tsNextN k res.2.2.1 res.2.2.2).bind (fun rest =>
              some ((res.1, res.2.1) :: rest.1, rest.2))) := rfl
    have hgoal2 : nextN (k + 1) { next := itd.next, size := itd.size, elements := itd.elements }
        = (it_next { next := itd.next, size := itd.size, elements := itd.elements }).bind (fun res =>
            (nextN k res.2.2).bind (fun rest => some ((res.1, res.2.1) :: rest.1, rest.2))) := rfl
    rw [hgoal, hgoal2, tsit_next_eq]
    cases h1 : it_next { next := itd.next, size := itd.size, elements := itd.elements } with
    | none => rfl
    | some r =>
      simp only [Option.map_some', Option.some_bind, ih]
      cases h2 : nextN k { next := r.2.2.next, size := r.2.2.size, elements := r.2.2.elements } with
      | none => simp [h2]
      | some r2 => simp [h2]

theorem tsVisitLoop_eq : ∀ (fuel : Nat) (itd : TSItData β) (lock : Mutex),
    tsVisitLoop fuel itd lock
      = (visitLoop fuel { next := itd.next, size := itd.size, elements := itd.elements }).map
          (fun r => (r.1,
            { next := r.2.next, size := r.2.size, elements := r.2.elements }, lock)) := by
  intro fuel
  induction fuel with
  | zero => intro itd lock; rfl
  | succ fuel ih =>
    intro itd lock
    by_cases h0 : itd.next < itd.size
    · have hgoal : tsVisitLoop (fuel + 1) itd lock
          = (tsit_next itd lock).bind (fun res =>
              (tsVisitLoop fuel res.2.2.1 res.2.2.2).bind (fun rest =>
                some (res.2.1 :: rest.1, rest.2))) := by
        simp only [tsVisitLoop, tsit_hasNext, h0, if_true]
        rfl
      have hgoal2 : visitLoop (fuel + 1) { next := itd.next, size := itd.size, elements := itd.elements }
          = (it_next { next := itd.next, size := itd.size, elements := itd.elements }).bind (fun res =>
              (visitLoop fuel res.2.2).bind (fun rest => some (res.2.1 :: rest.1, rest.2))) := by
        simp only [visitLoop, it_hasNext, h0, if_true]
        rfl
      rw [hgoal, hgoal2, tsit_next_eq]
      cases h1 : it_next { next := itd.next, size := itd.size, elements := itd.elements } with
      | none => rfl
      | some r =>
        simp only [Option.map_some', Option.some_bind, ih]
        cases h2 : visitLoop fuel { next := r.2.2.next, size := r.2.2.size, elements := r.2.2.elements } with
        | none => simp [h2]
        | some r2 => simp [h2]
    · simp [tsVisitLoop, visitLoop, tsit_hasNext, it_hasNext, h0]

theorem tsitRun_spec : ∀ (ops : List ItOp) (itd : TSItData β) (lock : Mutex),
    0 ≤ itd.next → itd.size ≤ itd.elements.length →
    ∃ it1 : TSItData β, tsitRun ops itd lock = some (it1, lock) ∧
      it1.size = itd.size ∧ it1.elements = itd.elements ∧ itd.next ≤ it1.next := by
  intro ops
  induction ops with
  | nil => intro itd lock _ _; exact ⟨itd, rfl, rfl, rfl, le_refl _⟩
  | cons op ops ih =>
    intro itd lock h0 hsz
    cases op with
    | hasNext =>
      obtain ⟨it1, h1, h2, h3, h4⟩ := ih itd lock h0 hsz
      exact ⟨it1, by simpa [tsitRun, tsit_hasNext] using h1, h2, h3, h4⟩
    | next =>
      by_cases hlt : itd.next < itd.size
      · have hidx : itd.next.toNat < itd.elements.length := by omega
        have hn : tsit_next itd lock
            = some (1, some (itd.elements.get ⟨itd.next.toNat, hidx⟩),
                { next := itd.next + 1, size := itd.size, elements := itd.elements }, lock) := by
          simp [tsit_next, hlt, h0, List.getElem?_eq_getElem hidx]
        obtain ⟨it1, h1, h2, h3, h4⟩ :=
          ih { next := itd.next + 1, size := itd.size, elements := itd.elements } lock
            (by show 0 ≤ itd.next + 1; omega) hsz
        refine ⟨it1, ?_, h2, h3, ?_⟩
        · simp only [tsitRun, hn, Option.bind_eq_bind, Option.some_bind]
          exact h1
        · have : itd.next + 1 ≤ it1.next := h4
          omega
      · have hn : tsit_next itd lock = some (0, none, itd, lock) := by
          simp [tsit_next, hlt]
        obtain ⟨it1, h1, h2, h3, h4⟩ := ih itd lock h0 hsz
        refine ⟨it1, ?_, h2, h3, h4⟩
        simp only [tsitRun, hn, Option.bind_eq_bind, Option.some_bind]
        exact h1

/-- C23. On a lock-handoff iterator whose cursor is not negative and whose
size does not exceed its array, with the mutex of the wrapper held at least
once (as after a successful itCreate): hasNext returns the mutex unchanged;
next returns, with the mutex unchanged; every sequence of hasNext and next
calls runs to completion and leaves the mutex unchanged; destroy after such a
sequence leaves the hold counter exactly one lower and the kind of the mutex
as it was. -/
theorem C23_iterator_releases_lock_only_at_destroy (itd : TSItData β) (lock : Mutex)
    (ops : List ItOp) (hnext : 0 ≤ itd.next) (hsize : itd.size ≤ itd.elements.length)
    (hheld : 0 < lock.holds) :
    (tsit_hasNext itd lock).2 = lock ∧
    (∃ r, tsit_next itd lock = some r ∧ r.2.2.2 = lock) ∧
    (∃ it1, tsitRun ops itd lock = some (it1, lock) ∧
      (tsit_destroy it1 lock).holds + 1 = lock.holds ∧
      (tsit_destroy it1 lock).recursive = lock.recursive) := by
  refine ⟨rfl, ?_, ?_⟩
  · obtain ⟨it1, h1, _⟩ := tsitRun_spec [ItOp.next] itd lock hnext hsize
    cases hn : tsit_next itd lock with
    | none => simp [tsitRun, hn] at h1
    | some r =>
      refine ⟨r, rfl, ?_⟩
      simp only [tsitRun, hn, Option.bind_eq_bind, Option.some_bind] at h1
      injection h1 with h1
      injection h1 with _ h2
  · obtain ⟨it1, h1, _⟩ := tsitRun_spec ops itd lock hnext hsize
    refine ⟨it1, h1, ?_, rfl⟩
    show lock.holds - 1 + 1 = lock.holds
    omega

/-- Instance of C23: an iterator over A, B with the mutex held twice; the
calls hasNext, next, next, next, hasNext and then destroy. -/
theorem C23_iterator_releases_lock_only_at_destroy_witness :
    ∃ it1, tsitRun [.hasNext, .next, .next, .next, .hasNext]
        ({ next := 0, size := 2, elements := ["A", "B"] } : TSItData String)
        { recursive := true, holds := 2 }
      = some (it1, { recursive := true, holds := 2 }) ∧
      (tsit_destroy it1 { recursive := true, holds := 2 }).holds + 1 = 2 ∧
      (tsit_destroy it1 { recursive := true, holds := 2 }).recursive = true :=
  (C23_iterator_releases_lock_only_at_destroy
    ({ next := 0, size := 2, elements := ["A", "B"] } : TSItData String)
    { recursive := true, holds := 2 } [.hasNext, .next, .next, .next, .hasNext]
    (by decide) (by decide) (by decide)).2.2

/-- C24. For an iterator, plain or thread-safe, created over the snapshot
`e` of length n (n = 0 included): for every k, the first k calls of next
return 1 and yield e[0], e[1], ... as long as elements are left, every call
after the n-th success returns 0 and writes nothing, and the cursor stands at
min(k, n), so it does not move after the n-th success; hasNext on an iterator
that has consumed c elements returns 1 exactly when c < n, and returns
nothing else than that value (and, thread-safe, the mutex unchanged); the
loop `while hasNext do next` yields exactly e[0], ..., e[n-1] in order and
stops, after n + 1 tests of its condition at most, with the cursor at n. -/
theorem C24_iterator_visits_snapshot_in_order (e : List β) (lock : Mutex) :
    Iterator_create e.length e true = some { next := 0, size := e.length, elements := e } ∧
    TSIterator_create e.length e true = some { next := 0, size := e.length, elements := e } ∧
    (∀ k : Nat,
      nextN k { next := 0, size := e.length, elements := e }
        = some ((e.take k).map (fun x => ((1 : Int), some x))
                  ++ List.replicate (k - e.length) (0, none),
                { next := ((min k e.length : Nat) : Int), size := e.length, elements := e }) ∧
      tsNextN k { next := 0, size := e.length, elements := e } lock
        = some ((e.take k).map (fun x => ((1 : Int), some x))
                  ++ List.replicate (k - e.length) (0, none),
                { next := ((min k e.length : Nat) : Int), size := e.length, elements := e },
                lock)) ∧
    (∀ c : Nat,
      it_hasNext { next := (c : Int), size := e.length, elements := e }
        = (if c < e.length then 1 else 0) ∧
      tsit_hasNext { next := (c : Int), size := e.length, elements := e } lock
        = ((if c < e.length then 1 else 0), lock)) ∧
    (∀ fuel : Nat, e.length < fuel →
      visitLoop fuel { next := 0, size := e.length, elements := e }
        = some (e.map some, { next := (e.length : Int), size := e.length, elements := e }) ∧
      tsVisitLoop fuel { next := 0, size := e.length, elements := e } lock
        = some (e.map some, { next := (e.length : Int), size := e.length, elements := e },
                lock)) := by
  have hN : ∀ k : Nat, nextN k { next := 0, size := e.length, elements := e }
        = some ((e.take k).map (fun x => ((1 : Int), some x))
                  ++ List.replicate (k - e.length) (0, none),
                { next := ((min k e.length : Nat) : Int), size := e.length, elements := e }) := by
    intro k
    have h := nextN_all e k 0 (Nat.zero_le _)
    simpa using h
  have hV : ∀ fuel : Nat, e.length < fuel →
      visitLoop fuel { next := 0, size := e.length, elements := e }
        = some (e.map some, { next := (e.length : Int), size := e.length, elements := e }) := by
    intro fuel hf
    have h := visitLoop_spec e fuel 0 (Nat.zero_le _) (by omega)
    simpa using h
  refine ⟨rfl, rfl, fun k => ⟨hN k, ?_⟩, fun c => ?_, fun fuel hf => ⟨hV fuel hf, ?_⟩⟩
  · rw [tsNextN_eq, hN k]; rfl
  · by_cases hc : c < e.length
    · simp [it_hasNext, tsit_hasNext, hc]
    · simp [it_hasNext, tsit_hasNext, hc]
  · rw [tsVisitLoop_eq, hV fuel hf]; rfl

/-- Instance of C24: the three lines of ittest.c; the loop run with a bound
of 4 tests of its condition. -/
theorem C24_iterator_visits_snapshot_in_order_witness :
    visitLoop 4 ({ next := 0, size := 3, elements := ["line 1", "line 2", "line 3"] } :
        ItData String)
      = some ([some "line 1", some "line 2", some "line 3"],
          { next := 3, size := 3, elements := ["line 1", "line 2", "line 3"] }) :=
  ((C24_iterator_visits_snapshot_in_order ["line 1", "line 2", "line 3"]
    { recursive := true, holds := 1 }).2.2.2.2 4 (by decide)).1

end TSIterator

/-! ## Signals of the thread-safe bounded queue -/

namespace TSBQueue
open BQueue
variable {α : Type}

theorem holdsAfter_signalled (h : Nat) :
    holdsAfter [SyncEv.lock, SyncEv.signal, SyncEv.unlock] h = some h := by
  simp [holdsAfter]

theorem holdsAfter_plain (h : Nat) :
    holdsAfter [SyncEv.lock, SyncEv.unlock] h = some h := by
  simp [holdsAfter]

/-- C25. On a wrapped bounded queue that holds the list `xs` (capacity
recorded alike by wrapper and inner queue), with the trace of pthread calls
as effect trace: tsbq_add returns the result of the inner add and its trace
holds a signal exactly when that result is 1, which is exactly when the queue
was not full; tsbq_remove returns the result of the inner remove and its
trace holds a signal exactly when that result is 1, which is exactly when the
queue was not empty; tsbq_put on a queue that is not full inserts the element
at the tail and tsbq_take on a queue that is not empty removes the head, each
with the trace lock, signal, unlock. In each trace every signal stands between
the lock and the unlock: replayed from any hold count `h` the mutex is held
at the signal and the count is `h` again at the end. -/
theorem C25_signal_exactly_on_success_under_lock (d : TSBqData α) (xs : List α) (e : α)
    (h : Nat) (hrep : BqRep d.bq xs) (hcap : d.cap = d.bq.size) :
    (∃ r q1 tr, bq_add d.bq e = some (r, q1) ∧
      tsbq_add d e = some (r, { cap := d.cap, bq := q1 }, tr) ∧
      (SyncEv.signal ∈ tr ↔ r = 1) ∧ (r = 1 ↔ (xs.length : Int) < d.cap) ∧
      holdsAfter tr h = some h) ∧
    (∃ r v q1 tr, bq_remove d.bq = some (r, v, q1) ∧
      tsbq_remove d = some (r, v, { cap := d.cap, bq := q1 }, tr) ∧
      (SyncEv.signal ∈ tr ↔ r = 1) ∧ (r = 1 ↔ xs ≠ []) ∧
      holdsAfter tr h = some h) ∧
    ((xs.length : Int) < d.cap →
      ∃ q1, tsbq_put d e
          = some ({ cap := d.cap, bq := q1 }, [SyncEv.lock, SyncEv.signal, SyncEv.unlock]) ∧
        BqRep q1 (xs ++ [e]) ∧
        holdsAfter [SyncEv.lock, SyncEv.signal, SyncEv.unlock] h = some h) ∧
    (∀ x rest, xs = x :: rest →
      ∃ q1, tsbq_take d
          = some (some (some x), { cap := d.cap, bq := q1 },
              [SyncEv.lock, SyncEv.signal, SyncEv.unlock]) ∧
        BqRep q1 rest ∧
        holdsAfter [SyncEv.lock, SyncEv.signal, SyncEv.unlock] h = some h) := by
  have hcount : d.bq.count = xs.length := hrep.2.2.2.2.1
  have hle : d.bq.count ≤ d.bq.size := hrep.2.2.2.2.2.1
  refine ⟨?_, ?_, ?_, ?_⟩
  · by_cases hfull : d.bq.count = d.bq.size
    · have hadd := bq_add_full d.bq e hfull
      refine ⟨0, d.bq, [SyncEv.lock, SyncEv.unlock], hadd, ?_, ?_, ?_, holdsAfter_plain h⟩
      · simp [tsbq_add, hadd]
      · simp
      · constructor
        · intro h0; cases h0
        · intro hlt; omega
    · obtain ⟨q1, hadd, _, _, _⟩ := bq_add_spec d.bq xs e hrep hfull
      refine ⟨1, q1, [SyncEv.lock, SyncEv.signal, SyncEv.unlock], hadd, ?_, ?_, ?_,
        holdsAfter_signalled h⟩
      · simp [tsbq_add, hadd]
      · simp
      · constructor
        · intro _; omega
        · intro _; rfl
  · cases xs with
    | nil =>
      have hrem : bq_remove d.bq = some (0, none, d.bq) :=
        retrieve_empty d.bq true (by simp at hcount; omega)
      refine ⟨0, none, d.bq, [SyncEv.lock, SyncEv.unlock], hrem, ?_, ?_, ?_, holdsAfter_plain h⟩
      · simp [tsbq_remove, hrem]
      · simp
      · simp
    | cons x rest =>
      obtain ⟨_, q1, hrem, _, _, _⟩ := retrieve_spec d.bq x rest hrep
      refine ⟨1, some (some x), q1, [SyncEv.lock, SyncEv.signal, SyncEv.unlock], hrem, ?_, ?_, ?_,
        holdsAfter_signalled h⟩
      · simp [tsbq_remove, hrem]
      · simp
      · simp
  · intro hlt
    have hfull : d.bq.count ≠ d.bq.size := by omega
    have hfull2 : ¬ d.bq.count = d.cap := by omega
    obtain ⟨q1, hadd, hrep1, _, _⟩ := bq_add_spec d.bq xs e hrep hfull
    refine ⟨q1, ?_, hrep1, holdsAfter_signalled h⟩
    simp [tsbq_put, bq_size, hfull2, hadd]
  · intro x rest hxs
    subst hxs
    have h0 : d.bq.count ≠ 0 := by simp at hcount; omega
    obtain ⟨_, q1, hrem, hrep1, _, _⟩ := retrieve_spec d.bq x rest hrep
    refine ⟨q1, ?_, hrep1, holdsAfter_signalled h⟩
    simp [tsbq_take, bq_size, h0, hrem]

/-- Instance of C25: the empty queue of capacity 2; put A. -/
theorem C25_signal_exactly_on_success_under_lock_witness :
    ∃ q1, tsbq_put (TSBQueue_create 2 : TSBqData String) "A"
        = some ({ cap := 2, bq := q1 }, [SyncEv.lock, SyncEv.signal, SyncEv.unlock]) ∧
      BqRep q1 ([] ++ ["A"]) ∧
      holdsAfter [SyncEv.lock, SyncEv.signal, SyncEv.unlock] 0 = some 0 :=
  (C25_signal_exactly_on_success_under_lock (TSBQueue_create 2 : TSBqData String) [] "A" 0
    (BQueue_create_rep 2) rfl).2.2.1 (by decide)

end TSBQueue

/-! ## The unbounded queue as a FIFO list -/

namespace UQueue
open LinkedList
variable {α : Type}

/-- C27. From an unbounded queue whose linked list is well formed and holds
`xs` (true of UQueue_create with the empty list), every sequence of add and
remove calls, each malloc succeeding, is defined on the ring of nodes and
returns and yields call by call what the same calls return and yield on the
FIFO list (add appends at the tail and returns 1, remove takes the head and
returns 1, or returns 0 on the empty list), and ends with a well-formed ring
holding the list the FIFO model ends with. So the elements held at the start
followed by the elements added are the elements removed followed by the
elements left, size() is the number of elements held at the start plus the
adds minus the successful removes, toArray returns the elements left from
first to last with that length (NULL when none is left), and one add appends
its element at the tail. -/
theorem C27_unbounded_queue_refines_fifo_list (ops : List (UOp α)) (q : UqData α)
    (xs : List α) (hrep : LlRep q.ll xs) :
    ∃ rs q1, uqRun ops q = some (rs, q1) ∧
      rs = (fifoRun ops xs).1.map (fun r => (r.1, r.2.map some)) ∧
      LlRep q1.ll (fifoRun ops xs).2 ∧
      xs ++ addedOf ops = removedOf (fifoRun ops xs).1 ++ (fifoRun ops xs).2 ∧
      uq_size q1
        = (xs.length : Int) + (addedOf ops).length - (removedOf (fifoRun ops xs).1).length ∧
      uq_toArray q1 true
        = some (if (fifoRun ops xs).2.length = 0 then (none, none)
            else (some ((fifoRun ops xs).2.map some), some ((fifoRun ops xs).2.length : Int))) ∧
      (∀ e, ∃ q2, uq_add q e FL_INCREMENT = some (1, q2) ∧ LlRep q2.ll (xs ++ [e])) := by
  obtain ⟨q1, h1, h2⟩ := uqRun_spec ops q xs hrep
  have h4 := fifoRun_spec ops xs
  refine ⟨_, q1, h1, rfl, h2, h4, ?_, ll_toArray_spec q1.ll _ h2,
    fun e => uq_add_spec q xs e hrep⟩
  have hlen := congrArg List.length h4
  simp only [List.length_append] at hlen
  have hs := LlRep_size q1.ll _ h2
  show ll_size q1.ll = _
  rw [hs]
  omega

/-- Instance of C27: from the empty queue, add A, add B, remove, add C,
remove. -/
theorem C27_unbounded_queue_refines_fifo_list_witness :
    LlRep (UQueue_create : UqData String).ll [] ∧
    ∃ q1, uqRun [.add "A", .add "B", .remove, .add "C", .remove] (UQueue_create : UqData String)
        = some ([(1, none), (1, none), (1, some (some "A")), (1, none), (1, some (some "B"))],
            q1) ∧
      LlRep q1.ll ["C"] ∧ uq_size q1 = 1 ∧
      uq_toArray q1 true = some (some [some "C"], some 1) :=
  have h := C27_unbounded_queue_refines_fifo_list
    [.add "A", .add "B", .remove, .add "C", .remove] (UQueue_create : UqData String) []
    uq_create_rep
  ⟨uq_create_rep, h.elim (fun rs h1 => h1.elim (fun q1 h2 =>
    ⟨q1, by rw [h2.1, h2.2.1]; rfl, h2.2.2.1, h2.2.2.2.2.1, h2.2.2.2.2.2.1⟩))⟩

end UQueue

/-! ## The hash map and the stack -/

namespace HashMap

/-- C28 fails on the code. The map made by create(4), put("a", 1, &prev)
holds one entry, "a" with element 1. The call put("a", 2, NULL) on it returns
1 and a following get("a") yields 2, but the mapping is not replaced: size()
is 2 and the map holds two entries whose key is "a". The same call with a
non-null `previous` writes the old element 1 to it and leaves size() 1 and
one entry. -/
theorem C28_put_null_previous_duplicates_key :
    mapA.map (fun m => (hm_size m, countKey m [97], hm_get m [97]))
      = some (1, 1, some (1, some 1)) ∧
    (mapA.bind (fun m => hm_put m [97] 2 false false true true true)).map
        (fun r => (r.1, r.2.1, hm_size r.2.2, countKey r.2.2 [97], hm_get r.2.2 [97]))
      = some (1, none, 2, 2, some (1, some 2)) ∧
    (mapA.bind (fun m => hm_put m [97] 2 true false true true true)).map
        (fun r => (r.1, r.2.1, hm_size r.2.2, countKey r.2.2 [97], hm_get r.2.2 [97]))
      = some (1, some (some 1), 1, 1, some (1, some 2)) := by
  refine ⟨by rfl, by rfl, by rfl⟩

/-- C29 fails on the code. For the key made of the one byte 255, which is -1
as a signed char, and N = 16, hash returns -1: `(7 * 0 + -1) % 16` is -1 with
the truncating `%` of C. The value is not in 0..15, and findKey on a map of
capacity 16 then indexes the array of buckets at -1. For the key "a" the
value is 97 % 16. -/
theorem C29_hash_negative_for_high_byte :
    hash [255] 16 = some (-1) ∧
    findKey (HashMap_create 16 : HmData Int) [255] = none ∧
    hash [97] 16 = some 1 := by
  refine ⟨by rfl, by rfl, by rfl⟩

end HashMap

namespace Stack

/-- C30 fails on the code. After create(0), push(1), push(2) the top of the
stack is 2 (pop returns it), but toArray returns the array 1, 2 of length 2:
index 0 holds the oldest element and the last index the most recently pushed
one, bottom to top. The iterator from itCreate yields 1 first and 2 second,
the same bottom-to-top order. -/
theorem C30_toArray_is_bottom_to_top :
    ((pushAll [1, 2] (Stack_create 0 : StData Int)).bind (fun s => st_pop s)).map
        (fun r => (r.1, r.2.1)) = some (1, some (some 2)) ∧
    (pushAll [1, 2] (Stack_create 0 : StData Int)).bind (fun s => st_toArray s true)
      = some (some [some 1, some 2], some 2) ∧
    ((pushAll [1, 2] (Stack_create 0 : StData Int)).bind (fun s => st_itCreate s true true)).bind
        (fun it => it.bind (fun i => (Iterator.nextN 2 i).map (fun r => r.1)))
      = some [(1, some (some 1)), (1, some (some 2))] := by
  refine ⟨by rfl, by rfl, by rfl⟩

end Stack

/-! ## The linked list: index arguments -/

namespace LinkedList

set_option maxRecDepth 100000

/-- C31 fails on the code. On the list made by create, add(A), add(B), of
size 2 and holding A, B, the index -1 passes the only test made, `index <
size`: get(-1) returns 1 and yields A, remove(-1) returns 1, yields A,
unlinks the first node and puts it on the free list, set(-1, X) returns 1,
yields A and stores X in the first node. Index 1 yields B and index 2 is
refused with 0, as documented. On the empty list get(-1) passes the test too
and reads the element field of the sentinel, which is never assigned. -/
theorem C31_negative_index_accepted :
    listAB.map (fun l => (ll_size l, ll_toArray l true))
      = some (2, some (some [some "A", some "B"], some 2)) ∧
    listAB.bind (fun l => ll_get l (-1)) = some (1, some (some "A")) ∧
    (listAB.bind (fun l => ll_remove l (-1))).map
        (fun r => (r.1, r.2.1, ll_size r.2.2, ll_toArray r.2.2 true, r.2.2.freel))
      = some (1, some (some "A"), 1, some (some [some "B"], some 1), .node 127) ∧
    (listAB.bind (fun l => ll_set l (-1) "X")).map
        (fun r => (r.1, r.2.1, ll_size r.2.2, ll_toArray r.2.2 true))
      = some (1, some (some "A"), 2, some (some [some "X", some "B"], some 2)) ∧
    listAB.bind (fun l => ll_get l 1) = some (1, some (some "B")) ∧
    listAB.bind (fun l => ll_get l 2) = some (0, none) ∧
    ll_get (LinkedList_create : LlData String) (-1) = none := by
  refine ⟨by rfl, by rfl, by rfl, by rfl, by rfl, by rfl, by rfl⟩

end LinkedList

/-! ## Rebalancing along the path of insert and remove -/

namespace OrderedSet
variable {α : Type}

theorem insertRetraceLog_erase (root : TNode α) (dir : Bool) (done : Bool) :
    (insertRetraceLog root dir done).map (fun r => (r.1, r.2.1)) = insertRetrace root dir done := by
  cases done with
  | true => rfl
  | false =>
    cases root with
    | null => rfl
    | node l e b r =>
      simp only [insertRetraceLog, insertRetrace, TNode.bal, TNode.setBal, Option.bind_eq_bind,
        Option.some_bind, if_true]
      generalize (b + if dir = false then -1 else 1) = b1
      split_ifs
      · rfl
      · cases insertBalance (.node l e b1 r) dir <;> rfl
      · rfl

theorem insertRetraceLog_log (root : TNode α) (dir : Bool) (done : Bool)
    (res : TNode α × Bool × List α) (h : insertRetraceLog root dir done = some res) :
    res.2.2.length ≤ 1 ∧ (res.2.2 ≠ [] → res.2.1 = true ∧ done = false) ∧
    (done = true → res.2.1 = true) := by
  cases done with
  | true =>
    simp only [insertRetraceLog, Bool.true_eq_false, if_false, Option.some.injEq] at h
    subst h
    simp
  | false =>
    cases root with
    | null => simp [insertRetraceLog, TNode.bal] at h
    | node l e b r =>
      simp only [insertRetraceLog, TNode.bal, TNode.setBal, Option.bind_eq_bind,
        Option.some_bind, if_true] at h
      generalize (b + if dir = false then -1 else 1) = b1 at h
      split_ifs at h
      · injection h with h; subst h; simp
      · cases hb : insertBalance (.node l e b1 r) dir with
        | none => simp [hb] at h
        | some t =>
          simp only [hb, Option.some_bind, Option.some.injEq] at h
          subst h
          simp [TNode.elementList]
      · injection h with h; subst h; simp

theorem insertLog_erase (cmp : α → α → Int) (m : Bool) (x : α) (t : TNode α) :
    ∀ d : Bool, (insertLog cmp m t x d).map (fun r => (r.1, r.2.1)) = insert cmp m t x d := by
  induction t with
  | null => intro d; rfl
  | node l e b r ihl ihr =>
    intro d
    by_cases hd : cmp e x < 0
    · have h1 : insertLog cmp m (.node l e b r) x d
          = (insertLog cmp m r x d).bind (fun res =>
              (insertRetraceLog (.node l e b res.1) true res.2.1).bind (fun out =>
                some (out.1, out.2.1, res.2.2 ++ out.2.2))) := by
        simp [insertLog, hd]
      rw [h1, insert_node_true cmp m l e b r x d hd, ← ihr d]
      cases h2 : insertLog cmp m r x d with
      | none => rfl
      | some res =>
        simp only [Option.some_bind, Option.map_some']
        rw [← insertRetraceLog_erase]
        cases insertRetraceLog (.node l e b res.1) true res.2.1 <;> rfl
    · have h1 : insertLog cmp m (.node l e b r) x d
          = (insertLog cmp m l x d).bind (fun res =>
              (insertRetraceLog (.node res.1 e b r) false res.2.1).bind (fun out =>
                some (out.1, out.2.1, res.2.2 ++ out.2.2))) := by
        simp [insertLog, hd]
      rw [h1, insert_node_false cmp m l e b r x d hd, ← ihl d]
      cases h2 : insertLog cmp m l x d with
      | none => rfl
      | some res =>
        simp only [Option.some_bind, Option.map_some']
        rw [← insertRetraceLog_erase]
        cases insertRetraceLog (.node res.1 e b r) false res.2.1 <;> rfl

theorem insertLog_log (cmp : α → α → Int) (m : Bool) (x : α) (t : TNode α) :
    ∀ (d : Bool) (res : TNode α × Bool × List α), insertLog cmp m t x d = some res →
      res.2.2.length ≤ 1 ∧ (res.2.2 ≠ [] → res.2.1 = true ∧ d = false) ∧
      (d = true → res.2.1 = true) := by
  induction t with
  | null =>
    intro d res h
    simp only [insertLog, Option.some.injEq] at h
    subst h
    simp
  | node l e b r ihl ihr =>
    intro d res h
    have key : ∀ (c : TNode α) (dir : Bool) (mk : TNode α → TNode α),
        (∀ (d : Bool) (res : TNode α × Bool × List α), insertLog cmp m c x d = some res →
          res.2.2.length ≤ 1 ∧ (res.2.2 ≠ [] → res.2.1 = true ∧ d = false) ∧
          (d = true → res.2.1 = true)) →
        (insertLog cmp m c x d).bind (fun r1 =>
            (insertRetraceLog (mk r1.1) dir r1.2.1).bind (fun out =>
              some (out.1, out.2.1, r1.2.2 ++ out.2.2))) = some res →
        res.2.2.length ≤ 1 ∧ (res.2.2 ≠ [] → res.2.1 = true ∧ d = false) ∧
          (d = true → res.2.1 = true) := by
      intro c dir mk ih hh
      cases h2 : insertLog cmp m c x d with
      | none => simp [h2] at hh
      | some r1 =>
        simp only [h2, Option.some_bind] at hh
        cases h3 : insertRetraceLog (mk r1.1) dir r1.2.1 with
        | none => simp [h3] at hh
        | some out =>
          simp only [h3, Option.some_bind, Option.some.injEq] at hh
          subst hh
          obtain ⟨a1, a2, a3⟩ := ih d r1 h2
          obtain ⟨b1, b2, b3⟩ := insertRetraceLog_log _ _ _ out h3
          by_cases hr1 : r1.2.2 = []
          · by_cases ho : out.2.2 = []
            · simp only [hr1, ho, List.append_nil, List.length_nil, Nat.zero_le, ne_eq,
                not_true_eq_false, false_implies, true_and]
              intro hd
              exact b3 (a3 hd)
            · refine ⟨by simp [hr1]; exact b1, fun _ => ⟨(b2 ho).1, ?_⟩, fun hd => b3 (a3 hd)⟩
              cases d with
              | false => rfl
              | true =>
                have := (b2 ho).2
                rw [a3 rfl] at this
                cases this
          · have hdone := (a2 hr1).1
            have ho : out.2.2 = [] := by
              by_contra hne
              have := (b2 hne).2
              rw [hdone] at this
              cases this
            refine ⟨by simp [ho]; exact a1, fun _ => ⟨b3 hdone, (a2 hr1).2⟩, fun hd => b3 (a3 hd)⟩
    by_cases hd : cmp e x < 0
    · have h1 : insertLog cmp m (.node l e b r) x d
          = (insertLog cmp m r x d).bind (fun res =>
              (insertRetraceLog (.node l e b res.1) true res.2.1).bind (fun out =>
                some (out.1, out.2.1, res.2.2 ++ out.2.2))) := by
        simp [insertLog, hd]
      rw [h1] at h
      exact key r true (fun c => .node l e b c) ihr h
    · have h1 : insertLog cmp m (.node l e b r) x d
          = (insertLog cmp m l x d).bind (fun res =>
              (insertRetraceLog (.node res.1 e b r) false res.2.1).bind (fun out =>
                some (out.1, out.2.1, res.2.2 ++ out.2.2))) := by
        simp [insertLog, hd]
      rw [h1] at h
      exact key l false (fun c => .node c e b r) ihl h


theorem removeRetraceLog_erase (root : TNode α) (dir : Bool) (done : Bool) :
    (removeRetraceLog root dir done).map (fun r => (r.1, r.2.1)) = removeRetrace root dir done := by
  cases done with
  | true => rfl
  | false =>
    cases root with
    | null => rfl
    | node l e b r =>
      simp only [removeRetraceLog, removeRetrace, TNode.bal, TNode.setBal, Option.bind_eq_bind,
        Option.some_bind, if_true]
      generalize (b + if (dir != false) = true then -1 else 1) = b1
      split_ifs
      · rfl
      · cases removeBalance (.node l e b1 r) dir false <;> rfl
      · rfl

theorem removeLog_erase (cmp : α → α → Int) (t : TNode α) :
    ∀ (x : α) (d : Bool), (removeLog cmp t x d).map (fun r => (r.1, r.2.1))
      = (remove cmp false t x d).map (fun r => (r.1, r.2.1)) := by
  induction t with
  | null => intro x d; rfl
  | node l e b r ihl ihr =>
    intro x d
    have step : ∀ (c : TNode α) (y : α) (dir : Bool) (mk : TNode α → TNode α),
        (removeLog cmp c y d).map (fun r => (r.1, r.2.1))
          = (remove cmp false c y d).map (fun r => (r.1, r.2.1)) →
        ((removeLog cmp c y d).bind (fun res =>
            (removeRetraceLog (mk res.1) dir res.2.1).bind (fun out =>
              some (out.1, out.2.1, res.2.2 ++ out.2.2)))).map (fun r => (r.1, r.2.1))
          = ((remove cmp false c y d).bind (fun res =>
              (removeRetrace (mk res.1) dir res.2.1).bind (fun out =>
                some (out.1, out.2, res.2.2)))).map (fun r => (r.1, r.2.1)) := by
      intro c y dir mk ih
      cases h1 : removeLog cmp c y d with
      | none =>
        cases h2 : remove cmp false c y d with
        | none => rfl
        | some r2 => simp [h1, h2] at ih
      | some r1 =>
        cases h2 : remove cmp false c y d with
        | none => simp [h1, h2] at ih
        | some r2 =>
          simp only [h1, h2, Option.map_some', Option.some.injEq, Prod.mk.injEq] at ih
          simp only [Option.some_bind]
          rw [← removeRetraceLog_erase, ih.1, ih.2]
          cases removeRetraceLog (mk r2.1) dir r2.2.1 <;> rfl
    by_cases hsp : cmp x e = 0 ∧ (l.isNull = true ∨ r.isNull = true)
    · simp [removeLog, remove, hsp]
    · by_cases hx : cmp x e = 0
      · have hn : ¬ (l.isNull = true ∨ r.isNull = true) := fun h => hsp ⟨hx, h⟩
        cases hh : heirElement l with
        | none => simp [removeLog, remove, hn, hx, hh]
        | some y =>
          by_cases hdir : cmp y y < 0
          · have e1 : removeLog cmp (.node l e b r) x d
                = (removeLog cmp r y d).bind (fun res =>
                    (removeRetraceLog (.node l y b res.1) true res.2.1).bind (fun out =>
                      some (out.1, out.2.1, res.2.2 ++ out.2.2))) := by
              simp [removeLog, hn, hx, hh, hdir]
            have e2 : remove cmp false (.node l e b r) x d
                = (remove cmp false r y d).bind (fun res =>
                    (removeRetrace (.node l y b res.1) true res.2.1).bind (fun out =>
                      some (out.1, out.2, res.2.2))) := by
              simp [remove, hn, hx, hh, hdir]
            rw [e1, e2]
            exact step r y true (fun c => .node l y b c) (ihr y d)
          · have e1 : removeLog cmp (.node l e b r) x d
                = (removeLog cmp l y d).bind (fun res =>
                    (removeRetraceLog (.node res.1 y b r) false res.2.1).bind (fun out =>
                      some (out.1, out.2.1, res.2.2 ++ out.2.2))) := by
              simp [removeLog, hn, hx, hh, hdir]
            have e2 : remove cmp false (.node l e b r) x d
                = (remove cmp false l y d).bind (fun res =>
                    (removeRetrace (.node res.1 y b r) false res.2.1).bind (fun out =>
                      some (out.1, out.2, res.2.2))) := by
              simp [remove, hn, hx, hh, hdir]
            rw [e1, e2]
            exact step l y false (fun c => .node c y b r) (ihl y d)
      · by_cases hdir : cmp e x < 0
        · have e1 : removeLog cmp (.node l e b r) x d
              = (removeLog cmp r x d).bind (fun res =>
                  (removeRetraceLog (.node l e b res.1) true res.2.1).bind (fun out =>
                    some (out.1, out.2.1, res.2.2 ++ out.2.2))) := by
            simp [removeLog, hx, hdir]
          rw [e1, remove_node_true cmp false l e b r x d hx hdir]
          exact step r x true (fun c => .node l e b c) (ihr x d)
        · have e1 : removeLog cmp (.node l e b r) x d
              = (removeLog cmp l x d).bind (fun res =>
                  (removeRetraceLog (.node res.1 e b r) false res.2.1).bind (fun out =>
                    some (out.1, out.2.1, res.2.2 ++ out.2.2))) := by
            simp [removeLog, hx, hdir]
          rw [e1, remove_node_false cmp false l e b r x d hx hdir]
          exact step l x false (fun c => .node c e b r) (ihl x d)

/-- C32. In a valid AVL search tree, for an element comparator-equal to no
member, insert (allocation succeeding) returns, and along the whole path it
calls insertBalance at most once; when it makes the call, the done flag is
set on return and the tree returned has the height the tree had before the
insertion. This holds in particular for the subtree rooted at the node the
call is made on. With the done flag set the block that follows the recursive
call leaves a node as it is, so no balance field of an ancestor above that
node is changed. -/
theorem C32_insert_rebalances_at_most_once {cmp : α → α → Int} (hc : CmpLaw cmp) (x : α)
    (t : TNode α) (hv : Valid cmp t) (hx : ∀ m ∈ populate t, cmp x m ≠ 0) :
    (∃ t1 d log, insertLog cmp true t x false = some (t1, d, log) ∧
      insert cmp true t x false = some (t1, d) ∧
      log.length ≤ 1 ∧
      (log ≠ [] → d = true ∧ height t1 = height t) ∧
      Valid cmp t1) ∧
    (∀ (root : TNode α) (dir : Bool), insertRetrace root dir true = some (root, true)) := by
  refine ⟨?_, fun root dir => rfl⟩
  obtain ⟨t1, d, hins, hA1, hdt, _, l1, l2, hp, hp1, hlt, hgt⟩ := insert_spec hc x t hv.2 hv.1 hx
  have her := insertLog_erase cmp true x t false
  rw [hins] at her
  cases hlog : insertLog cmp true t x false with
  | none => simp [hlog] at her
  | some res =>
    obtain ⟨t2, d2, log⟩ := res
    simp only [hlog, Option.map_some', Option.some.injEq, Prod.mk.injEq] at her
    obtain ⟨rfl, rfl⟩ := her
    obtain ⟨a1, a2, _⟩ := insertLog_log cmp true x t false _ hlog
    refine ⟨t2, d2, log, rfl, hins, a1, fun hne => ⟨(a2 hne).1, hdt (a2 hne).1⟩, ⟨?_, hA1⟩⟩
    show (populate t2).Pairwise _
    rw [hp1]
    exact pairwise_insert x l1 l2 (by rw [← hp]; exact hv.1) hlt hgt

/-- Instance of C32: 3 added to the tree with root 1 and right child 2; the
one call of insertBalance is made on the root. -/
theorem C32_insert_rebalances_at_most_once_witness :
    ∃ t1 d log, insertLog icmp true (.node .null 1 1 (leaf 2)) 3 false = some (t1, d, log) ∧
      insert icmp true (.node .null 1 1 (leaf 2)) 3 false = some (t1, d) ∧
      log.length ≤ 1 ∧
      (log ≠ [] → d = true ∧ height t1 = height (.node .null 1 1 (leaf 2) : TNode Int)) ∧
      Valid icmp t1 :=
  (C32_insert_rebalances_at_most_once icmp_law 3 (.node .null 1 1 (leaf 2))
    (by simp [leaf, Valid, SearchTree, populate, AvlOK, height, icmp])
    (by simp [leaf, populate, icmp])).1

/-- C33. In a valid AVL search tree, at the node that holds the member and
has two children (stated for the subtree rooted at that node, which is where
the recursive calls of remove arrive): the last element y of the in-order
sequence of the left subtree, its maximum and so the in-order predecessor of
the member, is removed from the left subtree by the recursive call, which
leaves the other elements of the left subtree in order and one node less;
the node then holds y, with its balance field and its right subtree as they
were, and only the rebalancing block is run on it. The result is a valid AVL
search tree whose in-order sequence is the rest of the left subtree, then y,
then the elements of the right subtree unchanged, and its node count is one
less than before. -/
theorem C33_remove_two_children_uses_predecessor {cmp : α → α → Int} (hc : CmpLaw cmp)
    (uf : Bool) (l : TNode α) (e : α) (b : Int) (r : TNode α) (x : α)
    (hv : Valid cmp (.node l e b r)) (hx : cmp x e = 0)
    (hl : l.isNull = false) (hr : r.isNull = false) :
    ∃ y init l1 d1 log t1 d,
      populate l = init ++ [y] ∧
      remove cmp uf l y false = some (l1, d1, log) ∧
      populate l1 = init ∧ count l1 + 1 = count l ∧
      removeRetrace (.node l1 y b r) false d1 = some (t1, d) ∧
      remove cmp uf (.node l e b r) x false = some (t1, d, log) ∧
      populate t1 = init ++ y :: populate r ∧
      count t1 + 1 = count (.node l e b r) ∧
      Valid cmp t1 := by
  obtain ⟨hS, hA⟩ := hv
  obtain ⟨hSl, hSr, hle, her, hlr⟩ := (searchTree_node cmp l e b r).1 hS
  obtain ⟨hAl, hAr, hb, hb1, hb2⟩ := hA
  obtain ⟨y, init, hy, hpl⟩ := heirElement_spec l hl
  have hyy : cmp y y = 0 := hc.refl y
  have hyl : y ∈ populate l := by rw [hpl]; simp
  obtain ⟨l1, d1, log, hrem, hAl1, hpl1, hd1t, hd1f, _⟩ :=
    remove_spec hc uf l y hAl hSl ⟨y, hyl, hyy⟩
  have hSl' : (init ++ [y]).Pairwise (fun a c => cmp a c < 0) := by
    rw [← hpl]; exact hSl
  have hinit : ∀ a ∈ init, cmp a y < 0 := by
    intro a ha
    rw [List.pairwise_append] at hSl'
    exact hSl'.2.2 a ha y (by simp)
  have hfil : (populate l).filter (fun z => decide (cmp y z ≠ 0)) = init := by
    rw [hpl, List.filter_append, filter_keep_lt hc y init hinit]
    simp [hyy]
  have hpl1' : populate l1 = init := by rw [hpl1, hfil]
  have hcnt : count l1 + 1 = count l := by
    rw [count_eq_length, count_eq_length, hpl1', hpl]
    simp
  have hheir := remove_node_heir cmp uf l e b r x false hx hl hr y hy (by omega)
  -- the rebalancing block on the node that now holds y
  have hret : ∃ t1 d, removeRetrace (.node l1 y b r) false d1 = some (t1, d) ∧ AvlOK t1 ∧
      populate t1 = populate l1 ++ y :: populate r := by
    cases d1 with
    | true =>
      refine ⟨.node l1 y b r, true, rfl, ⟨hAl1, hAr, ?_, hb1, hb2⟩, rfl⟩
      rw [hd1t rfl]; exact hb
    | false =>
      have hh := hd1f rfl
      obtain ⟨t1, d, h1, h2, h3, _⟩ := removeRetrace_false_spec l1 y b r hAl1 hAr
        (by rw [hb]; omega) hb1 hb2
      exact ⟨t1, d, h1, h2, h3⟩
  obtain ⟨t1, d, hret1, hA1, hp1⟩ := hret
  have hp1' : populate t1 = init ++ y :: populate r := by rw [hp1, hpl1']
  refine ⟨y, init, l1, d1, log, t1, d, hpl, hrem, hpl1', hcnt, hret1, ?_, hp1', ?_, ⟨?_, hA1⟩⟩
  · rw [hheir, hrem]
    simp only [Option.some_bind, hret1]
  · rw [count_eq_length, count_eq_length, hp1']
    simp only [populate, hpl, List.length_append, List.length_cons, List.length_nil]
    omega
  · show (populate t1).Pairwise _
    rw [hp1']
    have h1 : (init ++ [y] ++ populate r).Pairwise (fun a c => cmp a c < 0) := by
      rw [List.pairwise_append]
      refine ⟨hSl', hSr, ?_⟩
      intro a ha c hcm
      exact hlr a (by rw [hpl]; exact ha) c hcm
    simpa using h1

/-- Instance of C33: removal of the root 2 of the tree with the leaves 1 and 3. -/
theorem C33_remove_two_children_uses_predecessor_witness :
    ∃ y init l1 d1 log t1 d,
      populate (leaf (1 : Int)) = init ++ [y] ∧
      remove icmp true (leaf 1) y false = some (l1, d1, log) ∧
      populate l1 = init ∧ count l1 + 1 = count (leaf (1 : Int)) ∧
      removeRetrace (.node l1 y 0 (leaf 3)) false d1 = some (t1, d) ∧
      remove icmp true tree213 2 false = some (t1, d, log) ∧
      populate t1 = init ++ y :: populate (leaf (3 : Int)) ∧
      count t1 + 1 = count tree213 ∧
      Valid icmp t1 :=
  C33_remove_two_children_uses_predecessor icmp_law true (leaf 1) 2 0 (leaf 3) 2
    (by simp [leaf, Valid, SearchTree, populate, AvlOK, height, icmp]) (by rfl) rfl rfl

/-- C34. The tree `tree12` is a valid AVL search tree and 1 is a member of
it; the one call remove(1) on it calls removeBalance on two distinct nodes of
the path, first the node holding 2, then the root, which holds 5 (the log
pairs with the result of remove itself). For every comparator, tree, element
and allocation outcome, one call of insert calls insertBalance at most
once. -/
theorem C34_remove_rebalances_twice_insert_never (cmp : α → α → Int) (mallocOk : Bool) :
    (∃ (t : TNode Int) (x : Int) (t1 : TNode Int) (d : Bool) (log : List Int),
      Valid icmp t ∧ x ∈ populate t ∧
      removeLog icmp t x false = some (t1, d, log) ∧
      (remove icmp false t x false).map (fun r => (r.1, r.2.1)) = some (t1, d) ∧
      2 ≤ log.length ∧ log.Nodup ∧ Valid icmp t1) ∧
    (∀ (t : TNode α) (x : α) (d : Bool) (res : TNode α × Bool × List α),
      insertLog cmp mallocOk t x d = some res → res.2.2.length ≤ 1) := by
  refine ⟨⟨tree12, 1, _, false, [2, 5], ?_, ?_, by rfl, by rfl, by decide, by decide, ?_⟩, ?_⟩
  · simp [tree12, leaf, Valid, SearchTree, populate, AvlOK, height, icmp]
  · simp [tree12, leaf, populate]
  · simp [leaf, Valid, SearchTree, populate, AvlOK, height, icmp]
  · intro t x d res h
    exact (insertLog_log cmp mallocOk x t d res h).1

/-- Instance of C34: 3 added to the tree with root 1 and right child 2. -/
theorem C34_remove_rebalances_twice_insert_never_witness :
    insertLog icmp true (.node .null 1 1 (leaf 2)) 3 false
      = some (.node (leaf 1) 2 0 (leaf 3), true, [1]) ∧
    ([1] : List Int).length ≤ 1 :=
  ⟨by rfl,
    (C34_remove_rebalances_twice_insert_never icmp true).2 (.node .null 1 1 (leaf 2)) 3 false
      (.node (leaf 1) 2 0 (leaf 3), true, [1]) (by rfl)⟩

theorem insertRetrace_node (l : TNode α) (e : α) (b : Int) (r : TNode α) (dir : Bool) (b1 : Int)
    (hb : b + (if dir = false then -1 else 1) = b1) :
    insertRetrace (.node l e b r) dir false
      = if b1 = 0 then some (.node l e b1 r, true)
        else if Int.natAbs b1 > 1 then
          (insertBalance (.node l e b1 r) dir).bind (fun t => some (t, true))
        else some (.node l e b1 r, false) := by
  subst hb
  rfl

/-- C35 as stated fails on the code: 4 is added to the tree with root 2 and
the leaves 1 and 3. The balance field of the node holding 3 is adjusted to
+1, of magnitude 1, yet the done flag stays clear, and the balance field of
its parent, the root, is changed from 0 to +1. -/
theorem C35_counterexample_balance_one_goes_on :
    insertRetrace (.node .null 3 0 (leaf 4) : TNode Int) true false
      = some (.node .null 3 1 (leaf 4), false) ∧
    Int.natAbs 1 ≤ 1 ∧
    tree213 = .node (leaf 1) 2 0 (leaf 3) ∧
    insert icmp true tree213 4 false
      = some (.node (leaf 1) 2 1 (.node .null 3 1 (leaf 4)), false) := by
  refine ⟨by rfl, by decide, by rfl, by rfl⟩

/-- C35 amended. In insert, on a node whose link[dir] has just been assigned
with the done flag clear, the balance field b is adjusted to b1 = b - 1 (dir
0) or b + 1 (dir 1): when b1 is 0 the done flag is set and the node is
returned with balance 0; when b1 is -1 or +1 the done flag stays clear and
the node is returned with balance b1, so its parent is adjusted next; when
the magnitude of b1 exceeds 1, insertBalance is called on the node and the
done flag is set. Once the flag is set the block leaves every node above as
it is. The block is what insert runs on a node after the recursive call on
the child chosen by the comparator. -/
theorem C35_insert_propagation_stops_at_zero (l : TNode α) (e : α) (b : Int) (r : TNode α)
    (dir : Bool) :
    (b + (if dir = false then -1 else 1) = 0 →
      insertRetrace (.node l e b r) dir false = some (.node l e 0 r, true)) ∧
    (Int.natAbs (b + (if dir = false then -1 else 1)) = 1 →
      insertRetrace (.node l e b r) dir false
        = some (.node l e (b + (if dir = false then -1 else 1)) r, false)) ∧
    (1 < Int.natAbs (b + (if dir = false then -1 else 1)) →
      insertRetrace (.node l e b r) dir false
        = (insertBalance (.node l e (b + (if dir = false then -1 else 1)) r) dir).map
            (fun t => (t, true))) ∧
    (∀ root : TNode α, insertRetrace root dir true = some (root, true)) ∧
    (∀ (cmp : α → α → Int) (m : Bool) (x : α) (d : Bool),
      (cmp e x < 0 →
        insert cmp m (.node l e b r) x d
          = (insert cmp m r x d).bind (fun res => insertRetrace (.node l e b res.1) true res.2)) ∧
      (¬ cmp e x < 0 →
        insert cmp m (.node l e b r) x d
          = (insert cmp m l x d).bind
              (fun res => insertRetrace (.node res.1 e b r) false res.2))) := by
  refine ⟨?_, ?_, ?_, fun root => rfl, fun cmp m x d =>
    ⟨insert_node_true cmp m l e b r x d, insert_node_false cmp m l e b r x d⟩⟩
  · intro h0
    rw [insertRetrace_node l e b r dir _ rfl, if_pos h0, h0]
  · intro h1
    rw [insertRetrace_node l e b r dir _ rfl, if_neg (by omega), if_neg (by omega)]
  · intro h1
    rw [insertRetrace_node l e b r dir _ rfl, if_neg (by omega), if_pos (by omega),
      Option.map_eq_bind]
    rfl

/-- Instance of C35 amended: the node holding 3 after the leaf 4 has been
linked to its right; its balance becomes +1 and the done flag stays clear. -/
theorem C35_insert_propagation_stops_at_zero_witness :
    insertRetrace (.node .null 3 0 (leaf 4) : TNode Int) true false
      = some (.node .null 3 ((0 : Int) + (if true = false then -1 else 1)) (leaf 4), false) :=
  (C35_insert_propagation_stops_at_zero (.null : TNode Int) 3 0 (leaf 4) true).2.1 (by decide)

theorem removeRetrace_node (l : TNode α) (e : α) (b : Int) (r : TNode α) (dir : Bool) (b1 : Int)
    (hb : b + (if (dir != false) = true then -1 else 1) = b1) :
    removeRetrace (.node l e b r) dir false
      = if Int.natAbs b1 = 1 then some (.node l e b1 r, true)
        else if Int.natAbs b1 > 1 then removeBalance (.node l e b1 r) dir false
        else some (.node l e b1 r, false) := by
  subst hb
  rfl

/-- C36 as stated fails on the code: 1 is removed from the tree with root 5,
whose left subtree has root 2 and the leaves 1 and 3 and whose right subtree
is the leaf 6. The balance field of the node holding 2 is adjusted to +1, of
magnitude 1: the done flag is set, the height of its subtree is 2 as before,
and the balance field of its parent, the root, stays -1. -/
theorem C36_counterexample_balance_one_stops :
    tree5 = .node (.node (leaf 1) 2 0 (leaf 3)) 5 (-1) (leaf 6) ∧
    removeRetrace (.node .null 2 0 (leaf 3) : TNode Int) false false
      = some (.node .null 2 1 (leaf 3), true) ∧
    height (.node .null 2 1 (leaf 3) : TNode Int) = height tree213 ∧
    remove icmp false tree5 1 false
      = some (.node (.node .null 2 1 (leaf 3)) 5 (-1) (leaf 6), true, []) := by
  refine ⟨by rfl, by rfl, by rfl, by rfl⟩

/-- C36 amended. In remove, on a node of a valid tree whose subtree on side
dir has just lost one level, the done flag being clear, the balance field b
is adjusted to b1 = b + 1 (dir 0) or b - 1 (dir 1): when b1 has magnitude 1
the done flag is set and the height of the subtree of the node is what it was
before the removal, so propagation stops; when b1 is 0 the flag stays clear
and the height of the subtree has decreased by one, so the parent is adjusted
next; when the magnitude of b1 exceeds 1, removeBalance is called on the
node. Once the flag is set the block leaves every node above as it is. -/
theorem C36_remove_propagation_stops_at_one (l : TNode α) (e : α) (b : Int) (r : TNode α)
    (hb1 : -1 ≤ b) (hb2 : b ≤ 1) :
    (b = (height r : Int) - ((height l : Int) + 1) →
      (Int.natAbs (b + 1) = 1 →
        removeRetrace (.node l e b r) false false = some (.node l e (b + 1) r, true) ∧
        height (.node l e (b + 1) r) = 1 + max (height l + 1) (height r)) ∧
      (b + 1 = 0 →
        removeRetrace (.node l e b r) false false = some (.node l e 0 r, false) ∧
        height (.node l e 0 r) + 1 = 1 + max (height l + 1) (height r)) ∧
      (1 < Int.natAbs (b + 1) →
        removeRetrace (.node l e b r) false false
          = removeBalance (.node l e (b + 1) r) false false)) ∧
    (b = ((height r : Int) + 1) - (height l : Int) →
      (Int.natAbs (b - 1) = 1 →
        removeRetrace (.node l e b r) true false = some (.node l e (b - 1) r, true) ∧
        height (.node l e (b - 1) r) = 1 + max (height l) (height r + 1)) ∧
      (b - 1 = 0 →
        removeRetrace (.node l e b r) true false = some (.node l e 0 r, false) ∧
        height (.node l e 0 r) + 1 = 1 + max (height l) (height r + 1)) ∧
      (1 < Int.natAbs (b - 1) →
        removeRetrace (.node l e b r) true false
          = removeBalance (.node l e (b - 1) r) true false)) ∧
    (∀ (root : TNode α) (dir : Bool), removeRetrace root dir true = some (root, true)) := by
  have eF : ∀ b1, b + 1 = b1 → b + (if (false != false) = true then -1 else 1) = b1 := by
    intro b1 h; simpa using h
  have eT : ∀ b1, b - 1 = b1 → b + (if (true != false) = true then -1 else 1) = b1 := by
    intro b1 h; simp; omega
  refine ⟨fun hb => ⟨fun h1 => ⟨?_, ?_⟩, fun h0 => ⟨?_, ?_⟩, fun h2 => ?_⟩,
    fun hb => ⟨fun h1 => ⟨?_, ?_⟩, fun h0 => ⟨?_, ?_⟩, fun h2 => ?_⟩, fun root dir => rfl⟩
  · rw [removeRetrace_node l e b r false (b + 1) (eF _ rfl), if_pos h1]
  · simp only [height]; omega
  · rw [removeRetrace_node l e b r false (b + 1) (eF _ rfl), if_neg (by omega),
      if_neg (by omega), h0]
  · simp only [height]; omega
  · rw [removeRetrace_node l e b r false (b + 1) (eF _ rfl), if_neg (by omega),
      if_pos (by omega)]
  · rw [removeRetrace_node l e b r true (b - 1) (eT _ rfl), if_pos h1]
  · simp only [height]; omega
  · rw [removeRetrace_node l e b r true (b - 1) (eT _ rfl), if_neg (by omega),
      if_neg (by omega), h0]
  · simp only [height]; omega
  · rw [removeRetrace_node l e b r true (b - 1) (eT _ rfl), if_neg (by omega),
      if_pos (by omega)]

/-- Instance of C36 amended: the node holding 2 after the leaf 1 has been
removed from its left; its balance becomes +1, the done flag is set and the
height of its subtree is still 2. -/
theorem C36_remove_propagation_stops_at_one_witness :
    removeRetrace (.node .null 2 0 (leaf 3) : TNode Int) false false
      = some (.node .null 2 (0 + 1) (leaf 3), true) ∧
    height (.node .null 2 (0 + 1) (leaf 3) : TNode Int)
      = 1 + max (height (.null : TNode Int) + 1) (height (leaf (3 : Int))) :=
  ((C36_remove_propagation_stops_at_one (.null : TNode Int) 2 0 (leaf 3) (by decide) (by decide)).1
    (by decide)).1 (by decide)

end OrderedSet

/-! ## The thread-safe bounded queue: put and take -/

namespace TSBQueue
open BQueue
variable {α : Type}

/-- C37. For every requested capacity, the capacity recorded by
TSBQueue_create equals the size of the buffer of the inner queue, and this
stays so in every state reached by add, put, remove, take, peek and clear
steps. In such a state, when the wait loop of put exits (inner size differs
from the recorded capacity) the inner add returns 1 and the queue is one
element longer; when the wait loop of take exits (inner size differs from 0)
the inner remove returns 1 and writes an element to the out parameter, and
the queue is one element shorter. -/
theorem C37_put_and_take_act_when_loop_exits (capacity : Int) (ops : List (TSOp α))
    (d : TSBqData α) (e : α) (h : tsRun ops (TSBQueue_create capacity) = some d) :
    (TSBQueue_create capacity : TSBqData α).cap
      = (TSBQueue_create capacity : TSBqData α).bq.size ∧
    d.cap = d.bq.size ∧
    (bq_size d.bq ≠ d.cap →
      ∃ q1, bq_add d.bq e = some (1, q1) ∧
        tsbq_put d e
          = some ({ cap := d.cap, bq := q1 }, [SyncEv.lock, SyncEv.signal, SyncEv.unlock]) ∧
        bq_size q1 = bq_size d.bq + 1) ∧
    (bq_size d.bq ≠ 0 →
      ∃ x q1, bq_remove d.bq = some (1, some (some x), q1) ∧
        tsbq_take d
          = some (some (some x), { cap := d.cap, bq := q1 },
              [SyncEv.lock, SyncEv.signal, SyncEv.unlock]) ∧
        bq_size q1 = bq_size d.bq - 1) := by
  have hinit : ∃ xs, BqRep (TSBQueue_create capacity : TSBqData α).bq xs ∧
      (TSBQueue_create capacity : TSBqData α).cap = (TSBQueue_create capacity : TSBqData α).bq.size ∧
      (TSBQueue_create capacity : TSBqData α).cap
        = (TSBQueue_create capacity : TSBqData α).cap :=
    ⟨[], BQueue_create_rep capacity, rfl, rfl⟩
  obtain ⟨xs, hrep, hcap, _⟩ := tsRun_inv _ ops _ hinit d h
  have hcount : d.bq.count = xs.length := hrep.2.2.2.2.1
  refine ⟨rfl, hcap, ?_, ?_⟩
  · intro hne
    have hne1 : ¬ d.bq.count = d.cap := hne
    have hfull : d.bq.count ≠ d.bq.size := by rw [← hcap]; exact hne1
    obtain ⟨q1, hadd, _, hc1, _⟩ := bq_add_spec d.bq xs e hrep hfull
    refine ⟨q1, hadd, ?_, hc1⟩
    simp [tsbq_put, bq_size, hne1, hadd]
  · intro hne
    have hne1 : ¬ d.bq.count = 0 := hne
    cases xs with
    | nil => simp at hcount; exact absurd hcount hne1
    | cons x rest =>
      obtain ⟨_, q1, hrem, _, hc1, _⟩ := retrieve_spec d.bq x rest hrep
      refine ⟨x, q1, hrem, ?_, hc1⟩
      simp [tsbq_take, bq_size, hne1, hrem]

/-- Instance of C37: capacity 2 and the steps put A, add B, add C (rejected),
take, peek, put D; then take. -/
theorem C37_put_and_take_act_when_loop_exits_witness :
    ∃ x q1, bq_remove tsQueueBD.bq = some (1, some (some x), q1) ∧
      tsbq_take tsQueueBD
        = some (some (some x), { cap := tsQueueBD.cap, bq := q1 },
            [SyncEv.lock, SyncEv.signal, SyncEv.unlock]) ∧
      bq_size q1 = bq_size tsQueueBD.bq - 1 :=
  (C37_put_and_take_act_when_loop_exits 2
    [.put "A", .add "B", .add "C", .take, .peek, .put "D"] tsQueueBD "E"
    (by rfl)).2.2.2 (by decide)

end TSBQueue

/-! ## Empty sets, the array list, and the rotations -/

namespace OrderedSet
variable {α : Type}

/-- C38. On a set whose size field is 0, whatever the outcome of the
allocations: toArray returns NULL and writes nothing to *len, and itCreate
returns NULL; this is what both return on any set when malloc fails. On a
wrapper around such a set, its mutex recursive as TSOrderedSet_create makes
it and held any number of times, itCreate returns NULL and leaves the
wrapper, hold counter included, as it was. -/
theorem C38_empty_set_gives_null (osd : OsData α) (d : TSOsData α) (mallocOk itOk : Bool)
    (hsize : osd.size = 0) (hd : d.os.size = 0) (hrec : d.lock.recursive = true) :
    os_toArray osd mallocOk = some (none, none) ∧
    os_itCreate osd mallocOk itOk = some none ∧
    (∀ s : OsData α, os_toArray s false = some (none, none) ∧
      os_itCreate s false itOk = some none) ∧
    tsos_itCreate d mallocOk itOk = some (none, d) := by
  have h1 : os_toArray osd mallocOk = some (none, none) := by
    simp [os_toArray, genArray, hsize]
  have h2 : os_toArray d.os mallocOk = some (none, none) := by
    simp [os_toArray, genArray, hd]
  refine ⟨h1, ?_, ?_, (tsos_itCreate_spec d mallocOk itOk hrec).2.1 h2⟩
  · simp [os_itCreate, genArray, hsize]
  · intro s
    by_cases hs : s.size > 0
    · simp [os_toArray, os_itCreate, genArray, hs]
    · simp [os_toArray, os_itCreate, genArray, hs]

/-- Instance of C38: the set made by OrderedSet_create and the wrapper made
by TSOrderedSet_create, all allocations succeeding. -/
theorem C38_empty_set_gives_null_witness :
    os_toArray (OrderedSet_create : OsData Int) true = some (none, none) ∧
    os_itCreate (OrderedSet_create : OsData Int) true true = some none ∧
    tsos_itCreate (TSOrderedSet_create : TSOsData Int) true true
      = some (none, TSOrderedSet_create) :=
  have h := C38_empty_set_gives_null (OrderedSet_create : OsData Int)
    (TSOrderedSet_create : TSOsData Int) true true rfl rfl rfl
  ⟨h.1, h.2.1, h.2.2.2⟩

end OrderedSet

namespace ArrayList

/-- C39 fails on the code. After ArrayList_create(10) and trimToSize on the
still empty list, realloc succeeding, the capacity is 0. A following add
finds capacity <= size and reallocates to 2 * 0 slots, so the capacity in
force stays 0, and then stores at index 0, which is not below it: the store
falls outside the array. The same holds for insert at index 0. Without the
trimToSize the add stores at index 0 below the capacity 10. -/
theorem C39_add_after_trim_writes_past_capacity :
    al_trimToSize (ArrayList_create 10 : AlData Int) true
      = (1, { capacity := 0, size := 0, theArray := [] }) ∧
    grow ({ capacity := 0, size := 0, theArray := [] } : AlData Int) true
      = some { capacity := 0, size := 0, theArray := [] } ∧
    al_add ({ capacity := 0, size := 0, theArray := [] } : AlData Int) 7 true = none ∧
    al_insert ({ capacity := 0, size := 0, theArray := [] } : AlData Int) 0 7 true = none ∧
    (al_add (ArrayList_create 10 : AlData Int) 7 true).map (fun r => (r.1, r.2.capacity, r.2.size))
      = some (1, 10, 1) := by
  refine ⟨by rfl, by rfl, by rfl, by rfl, by rfl⟩

end ArrayList

namespace OrderedSet
variable {α : Type}

theorem singleRotate_populate (root : TNode α) (dir : Bool) (t : TNode α)
    (h : singleRotate root dir = some t) : populate t = populate root := by
  cases dir with
  | false =>
    cases root with
    | null => simp [singleRotate, TNode.link] at h
    | node l e b r =>
      cases r with
      | null => simp [singleRotate, TNode.link, TNode.setLink] at h
      | node rl re rb rr =>
        rw [singleRotate_false] at h
        injection h with h
        subst h
        simp [populate]
  | true =>
    cases root with
    | null => simp [singleRotate, TNode.link] at h
    | node l e b r =>
      cases l with
      | null => simp [singleRotate, TNode.link, TNode.setLink] at h
      | node ll le lb lr =>
        rw [singleRotate_true] at h
        injection h with h
        subst h
        simp [populate]

/-- C40. For both directions and every tree whose root has a child c on the
side opposite to the direction, c having a child on the side of the
direction: doubleRotate(root, dir) returns a tree, and it is the tree that
singleRotate(root, dir) returns after root->link[!dir] has been replaced by
singleRotate(c, !dir); that tree has the in-order sequence of the tree given.
Every singleRotate that returns a tree returns one with the in-order sequence
of its argument. -/
theorem C40_double_rotation_is_two_single_rotations (root c g : TNode α) (dir : Bool)
    (hc : root.link (!dir) = some c) (hg : c.link dir = some g) (hgn : g.isNull = false) :
    (∃ t, doubleRotate root dir = some t ∧
      ((singleRotate c (!dir)).bind (fun c1 =>
        (root.setLink (!dir) c1).bind (fun root1 => singleRotate root1 dir))) = some t ∧
      populate t = populate root) ∧
    (∀ (r t : TNode α) (d : Bool), singleRotate r d = some t → populate t = populate r) := by
  refine ⟨?_, fun r t d h => singleRotate_populate r d t h⟩
  cases root with
  | null => simp [TNode.link] at hc
  | node l e b r =>
    cases dir with
    | false =>
      simp only [TNode.link, Bool.not_false, if_true, Option.some.injEq] at hc
      subst hc
      cases r with
      | null => simp [TNode.link] at hg
      | node cl ce cb cr =>
        simp only [TNode.link, Bool.false_eq_true, if_false, Option.some.injEq] at hg
        subst hg
        cases cl with
        | null => simp [TNode.isNull] at hgn
        | node a x xb k =>
          refine ⟨_, doubleRotate_false l e b a x xb k ce cb cr, rfl, ?_⟩
          simp [populate]
    | true =>
      simp only [TNode.link, Bool.not_true, Bool.false_eq_true, if_false,
        Option.some.injEq] at hc
      subst hc
      cases l with
      | null => simp [TNode.link] at hg
      | node cl ce cb cr =>
        simp only [TNode.link, if_true, Option.some.injEq] at hg
        subst hg
        cases cr with
        | null => simp [TNode.isNull] at hgn
        | node a x xb k =>
          refine ⟨_, doubleRotate_true cl ce cb a x xb k e b r, rfl, ?_⟩
          simp [populate]

/-- Instance of C40: the root 1 with right child 3 whose left child is 2,
rotated to the left. -/
theorem C40_double_rotation_is_two_single_rotations_witness :
    ∃ t, doubleRotate (.node .null 1 2 (.node (leaf 2) 3 (-1) .null) : TNode Int) false = some t ∧
      ((singleRotate (.node (leaf 2) 3 (-1) .null : TNode Int) (!false)).bind (fun c1 =>
        ((.node .null 1 2 (.node (leaf 2) 3 (-1) .null) : TNode Int).setLink (!false) c1).bind
          (fun root1 => singleRotate root1 false))) = some t ∧
      populate t = populate (.node .null 1 2 (.node (leaf 2) 3 (-1) .null) : TNode Int) :=
  (C40_double_rotation_is_two_single_rotations
    (.node .null 1 2 (.node (leaf 2) 3 (-1) .null) : TNode Int)
    (.node (leaf 2) 3 (-1) .null) (leaf 2) false rfl rfl rfl).1

end OrderedSet
